import Mathlib

/-!
# keepthebeat: rolling scorer and beat scheduler of `script.js`

A shallow embedding of the timing core of `src/script.js` (the windowed
scorer `scoreFromWindow`, the timeline store, the tracking gate and
`scheduleTick`) together with theorems about it.

Modelling conventions.

* Audio-clock times and millisecond errors are rationals (`ℚ`). The
  definitions of the first part compute with them exactly; the decimal
  constants of the source are the corresponding fractions (`0.85 = 85/100`).
  The part "The script in binary64 arithmetic" gives the same functions with
  the rounding of every arithmetic operation explicit, for the properties that
  depend on the last bit of a sum or a quotient.
* The module-level `let`/`const` variables of the script are the fields of one
  explicit `Engine` record; every function of the script that touches them is
  a function on `Engine`, and the value of `ctx.currentTime` read by a function
  is an explicit argument `now`.
* `Infinity` (`scoreState.bestErrMs`) and `-Infinity` (`lastInputTimeSec`) are
  `none` in an `Option ℚ`.
* DOM writes, audio playback and timers have no effect on the modelled state
  and are left out.
-/

namespace KeepTheBeat

/-! ## Tunables (script.js, lines 18-34) -/

/-- The constant `SCHED_AHEAD_SEC = 0.14`. -/
def SCHED_AHEAD_SEC : ℚ := 14 / 100

/-- The constant `MATCH_MAX_MS = 180`. -/
def MATCH_MAX_MS : ℚ := 180

/-- The constant `ROLLING_BEATS = 4`. -/
def ROLLING_BEATS : Nat := 4

/-- The constant `LIVE_EVAL_DELAY_BEATS = 0.5`. -/
def LIVE_EVAL_DELAY_BEATS : ℚ := 1 / 2

/-- The constant `INPUT_IDLE_BEATS = 8`. -/
def INPUT_IDLE_BEATS : ℚ := 8

/-- The constant `TIERS.TIER_5_MS = 25`. -/
def TIER_5_MS : ℚ := 25

/-- The constant `TIERS.TIER_4_MS = 60`. -/
def TIER_4_MS : ℚ := 60

/-- The constant `TIERS.TIER_3_MS = 95`. -/
def TIER_3_MS : ℚ := 95

/-- The constant `TIERS.TIER_2_MS = 135`. -/
def TIER_2_MS : ℚ := 135

/-! ## Data model -/

/-- The two percussion voices, `"K"` (kick) and `"S"` (snare). -/
inductive Instrument where
  | K
  | S
  deriving DecidableEq, Repr

/-- An entry of `beatTimeline`: `{ idx, tSec, expected }`; `expected = none`
is the `null` of a rest slot. -/
structure Beat where
  idx : Int
  tSec : ℚ
  expected : Option Instrument
  deriving DecidableEq

/-- An entry of `hitTimeline`: `{ tSec, i }`. -/
structure Hit where
  tSec : ℚ
  i : Instrument
  deriving DecidableEq

/-- An entry of the local `candidates` array of `scoreFromWindow`:
`{ hi, h, errMs }`. -/
structure Candidate where
  hi : Nat
  h : Hit
  errMs : ℚ
  deriving DecidableEq

/-- The value returned by `scoreFromWindow`:
`{ score, avgErrMs, effectiveErr, misses, extras }`. -/
structure ScoreResult where
  score : Nat
  avgErrMs : ℚ
  effectiveErr : ℚ
  misses : Nat
  extras : Nat
  deriving DecidableEq

/-- The local variables of `scoreFromWindow` that live across iterations of
its `for (const b of windowBeats)` loop. `usedHitIdx` is the list of the
arguments of the `usedHitIdx.add` calls made so far, most recent first;
`usedHitIdx.has(hi)` is membership in it. -/
structure MatchState where
  usedHitIdx : List Nat
  misses : Nat
  extras : Nat
  errs : List ℚ
  deriving DecidableEq

/-! ## Scoring (script.js, lines 499-565) -/

/-- The error in ms of hit `h` against the time `t`:
`Math.abs(h.tSec - t) * 1000`. -/
def errMsOf (h : Hit) (t : ℚ) : ℚ := |h.tSec - t| * 1000

/-- The inner loop `for (let hi = 0; hi < hitTimeline.length; hi++)`, run on
the part of the hit timeline that starts at index `hi`. -/
def collectCandidates (usedHitIdx : List Nat) (t : ℚ) : List Hit → Nat → List Candidate
  | [], _ => []
  | h :: rest, hi =>
    if hi ∈ usedHitIdx then collectCandidates usedHitIdx t rest (hi + 1)
    else if errMsOf h t ≤ MATCH_MAX_MS then
      { hi := hi, h := h, errMs := errMsOf h t } :: collectCandidates usedHitIdx t rest (hi + 1)
    else collectCandidates usedHitIdx t rest (hi + 1)

/-- The call `candidates.sort((a, b2) => a.errMs - b2.errMs)`: ascending by
`errMs`, stable (equal errors keep their timeline order). -/
def sortCandidates (cs : List Candidate) : List Candidate :=
  cs.insertionSort (fun a b => a.errMs ≤ b.errMs)

/-- The sorted `candidates` array of one iteration of the beat loop. -/
def candidatesFor (hitTimeline : List Hit) (usedHitIdx : List Nat) (t : ℚ) : List Candidate :=
  sortCandidates (collectCandidates usedHitIdx t hitTimeline 0)

/-- One iteration of `for (const b of windowBeats)`. -/
def matchBeat (hitTimeline : List Hit) (st : MatchState) (b : Beat) : MatchState :=
  let candidates := candidatesFor hitTimeline st.usedHitIdx b.tSec
  match b.expected with
  | none =>
    match candidates with
    | c :: _ =>
      { usedHitIdx := c.hi :: st.usedHitIdx, misses := st.misses,
        extras := st.extras + 1, errs := st.errs ++ [MATCH_MAX_MS] }
    | [] => { st with errs := st.errs ++ [0] }
  | some expected =>
    match candidates with
    | [] => { st with misses := st.misses + 1, errs := st.errs ++ [MATCH_MAX_MS] }
    | best :: _ =>
      let extras1 :=
        if candidates.length > 1 then st.extras + (candidates.length - 1) else st.extras
      if best.h.i ≠ expected then
        { usedHitIdx := best.hi :: st.usedHitIdx, misses := st.misses + 1,
          extras := extras1, errs := st.errs ++ [MATCH_MAX_MS] }
      else
        { usedHitIdx := best.hi :: st.usedHitIdx, misses := st.misses,
          extras := extras1, errs := st.errs ++ [best.errMs] }

/-- The state of the locals before the first iteration. -/
def MatchState.init : MatchState :=
  { usedHitIdx := [], misses := 0, extras := 0, errs := [] }

/-- The whole beat loop of `scoreFromWindow`, started from `st`. -/
def matchLoop (hitTimeline : List Hit) (st : MatchState) (windowBeats : List Beat) : MatchState :=
  windowBeats.foldl (matchBeat hitTimeline) st

/-- The tier ladder at the end of `scoreFromWindow` (lines 558-562). -/
def tierOf (effectiveErr : ℚ) (misses extras : Nat) : Nat :=
  if effectiveErr ≤ TIER_5_MS ∧ misses = 0 ∧ extras = 0 then 5
  else if effectiveErr ≤ TIER_4_MS then 4
  else if effectiveErr ≤ TIER_3_MS then 3
  else if effectiveErr ≤ TIER_2_MS then 2
  else 1

/-- Lines 550-564 of `scoreFromWindow`: the aggregate computed from the final
loop state. -/
def finishScore (st : MatchState) (windowLength : Nat) : ScoreResult :=
  let avgErrMs : ℚ := if st.errs.length ≠ 0 then st.errs.sum / st.errs.length else MATCH_MAX_MS
  let totalExpected : ℚ := max 1 (windowLength : ℚ)
  let missPenalty : ℚ := st.misses / totalExpected
  let extraPenalty : ℚ := st.extras / totalExpected
  let effectiveErr : ℚ := avgErrMs * (1 + 85 / 100 * missPenalty + 55 / 100 * extraPenalty)
  { score := tierOf effectiveErr st.misses st.extras, avgErrMs := avgErrMs,
    effectiveErr := effectiveErr, misses := st.misses, extras := st.extras }

/-- The function `scoreFromWindow(windowBeats)`, with the global `hitTimeline`
it reads as an argument. -/
def scoreFromWindow (hitTimeline : List Hit) (windowBeats : List Beat) : ScoreResult :=
  finishScore (matchLoop hitTimeline MatchState.init windowBeats) windowBeats.length

/-! ## Engine state (script.js, lines 443-453, 477-497, 568-576, 625-638) -/

/-- The keys of `RHYTHMS`, the possible values of `rhythmSel.value`. -/
inductive RhythmId where
  | r1
  | r2
  | r3
  | r4
  deriving DecidableEq, Repr

/-- The table `RHYTHMS`. -/
def RHYTHMS : RhythmId → List (Option Instrument)
  | .r1 => [some .K, none, some .K, none]
  | .r2 => [some .K, none, some .S, none]
  | .r3 => [some .K, some .K, some .K, some .K]
  | .r4 => [some .K, some .S, some .K, some .S]

/-- The object `scoreState`; `bestErrMs = none` is `Infinity`, `last = none`
is `null`. -/
structure ScoreState where
  beats : Nat
  last : Option Nat
  totalScore : Nat
  avg : ℚ
  totalAvgErrMs : ℚ
  avgErrMs : ℚ
  bestErrMs : Option ℚ
  deriving DecidableEq

/-- The mutable module state of the script. `bpmNum` is `Number(bpmNum.value)`
(`none` when that is `NaN`); `rhythmSel` is `rhythmSel.value`;
`lastInputTimeSec = none` is `-Infinity`. -/
structure Engine where
  bpmNum : Option ℚ
  rhythmSel : RhythmId
  started : Bool
  paused : Bool
  nextBeatTimeSec : ℚ
  globalBeatIndex : Int
  lastEvaluatedBeatIdx : Int
  hasEverHit : Bool
  lastInputTimeSec : Option ℚ
  trackingActive : Bool
  beatTimeline : List Beat
  hitTimeline : List Hit
  scoreState : ScoreState
  deriving DecidableEq

/-- The initial value of `scoreState`, also written by `beginGame` and
`resetStateToIdle`. -/
def ScoreState.init : ScoreState :=
  { beats := 0, last := none, totalScore := 0, avg := 0, totalAvgErrMs := 0,
    avgErrMs := 0, bestErrMs := none }

/-- The function `clamp(v, lo, hi) = Math.max(lo, Math.min(hi, v))`. -/
def clamp (v lo hi : ℚ) : ℚ := max lo (min hi v)

/-- The function `bpmValue()`. -/
def bpmValue (e : Engine) : ℚ :=
  clamp (match e.bpmNum with
    | some v => v
    | none => 90) 40 140

/-- The function `beatDurSec()`. -/
def beatDurSec (e : Engine) : ℚ := 60 / bpmValue e

/-- The function `selectedRhythm()`. -/
def selectedRhythm (e : Engine) : List (Option Instrument) := RHYTHMS e.rhythmSel

/-- The function `pruneTimelines(nowSec)`: both
`while (... [0].tSec < nowSec - keepSec) shift()` loops. -/
def pruneTimelines (e : Engine) (nowSec : ℚ) : Engine :=
  let keepSec := beatDurSec e * 12
  { e with
    beatTimeline := e.beatTimeline.dropWhile (fun b => decide (b.tSec < nowSec - keepSec)),
    hitTimeline := e.hitTimeline.dropWhile (fun h => decide (h.tSec < nowSec - keepSec)) }

/-! ## Tracking gate (script.js, lines 650-667) -/

/-- The function `isTrackingActive(ctxNowSec)`. With
`lastInputTimeSec = -Infinity` the quotient `beatsSince` is `+Infinity` and the
comparison is false. The quotient is exact here; `isTrackingActiveF` rounds it
as the script does. -/
def isTrackingActive (e : Engine) (ctxNowSec : ℚ) : Bool :=
  if !e.hasEverHit then false
  else
    match e.lastInputTimeSec with
    | none => false
    | some lastInput => decide ((ctxNowSec - lastInput) / beatDurSec e < INPUT_IDLE_BEATS)

/-- The function `onTrackingResume(ctxNowSec)`. -/
def onTrackingResume (e : Engine) (ctxNowSec : ℚ) : Engine :=
  let e1 := pruneTimelines { e with trackingActive := true, hitTimeline := [] } ctxNowSec
  let eligible :=
    e1.beatTimeline.filter (fun b => decide (b.tSec ≤ ctxNowSec - LIVE_EVAL_DELAY_BEATS * beatDurSec e1))
  let lastIdx :=
    match eligible.getLast? with
    | some b => b.idx
    | none => e1.globalBeatIndex - 1
  { e1 with lastEvaluatedBeatIdx := lastIdx }

/-! ## Scheduler (script.js, lines 669-741) -/

/-- The position in the bar, `((beatIdx % 4) + 4) % 4`, with the truncating `%` of
JavaScript. -/
def inBarIdx (beatIdx : Int) : Nat := (Int.tmod (Int.tmod beatIdx 4 + 4) 4).toNat

/-- The expected instrument of a beat, `rhythm[inBarIdx] ?? null`. -/
def expectedAt (rhythm : List (Option Instrument)) (beatIdx : Int) : Option Instrument :=
  match rhythm.get? (inBarIdx beatIdx) with
  | some x => x
  | none => none

/-- The body of the `while` loop of `scheduleTick` (lines 677-694). The sum
`nextBeatTimeSec += bd` is exact here; `scheduleBeatF` rounds it as the script
does. -/
def scheduleBeat (bd : ℚ) (rhythm : List (Option Instrument)) (e : Engine) : Engine :=
  { e with
    beatTimeline := e.beatTimeline ++
      [{ idx := e.globalBeatIndex, tSec := e.nextBeatTimeSec,
         expected := expectedAt rhythm e.globalBeatIndex }],
    globalBeatIndex := e.globalBeatIndex + 1,
    nextBeatTimeSec := e.nextBeatTimeSec + bd }

/-- The loop `while (nextBeatTimeSec < ctx.currentTime + SCHED_AHEAD_SEC)`,
cut off after `fuel` iterations; `horizon` is `ctx.currentTime + SCHED_AHEAD_SEC`. -/
def scheduleLoop (bd : ℚ) (rhythm : List (Option Instrument)) (horizon : ℚ) :
    Nat → Engine → Engine
  | 0, e => e
  | fuel + 1, e =>
    if e.nextBeatTimeSec < horizon then
      scheduleLoop bd rhythm horizon fuel (scheduleBeat bd rhythm e)
    else e

/-- A number of iterations after which the scheduling loop has left its
condition false, for a positive beat duration (`scheduleLoop_exit`). -/
def scheduleFuel (bd horizon nextBeatTimeSec : ℚ) : Nat :=
  Int.toNat ⌈(horizon - nextBeatTimeSec) / bd⌉

/-- Lines 673-695 of `scheduleTick`: the scheduling loop run to its exit. -/
def scheduleDue (e : Engine) (now : ℚ) : Engine :=
  scheduleLoop (beatDurSec e) (selectedRhythm e) (now + SCHED_AHEAD_SEC)
    (scheduleFuel (beatDurSec e) (now + SCHED_AHEAD_SEC) e.nextBeatTimeSec) e

/-- The call `arr.slice(-ROLLING_BEATS)`. -/
def lastRolling (l : List Beat) : List Beat := l.drop (l.length - ROLLING_BEATS)

/-- Lines 722-730: the session-stats update for one window result.
`Number.isFinite(res.avgErrMs)` holds for every rational. -/
def applyResult (s : ScoreState) (res : ScoreResult) : ScoreState :=
  let beats := s.beats + 1
  let totalScore := s.totalScore + res.score
  let totalAvgErrMs := s.totalAvgErrMs + res.avgErrMs
  { beats := beats, last := some res.score, totalScore := totalScore,
    avg := (totalScore : ℚ) / beats, totalAvgErrMs := totalAvgErrMs,
    avgErrMs := totalAvgErrMs / beats,
    bestErrMs :=
      match s.bestErrMs with
      | none => some res.avgErrMs
      | some best => some (min best res.avgErrMs) }

/-- One iteration of `for (const b of eligible)` (lines 716-733). -/
def evaluateBeat (eligible : List Beat) (e : Engine) (b : Beat) : Engine :=
  if b.idx ≤ e.lastEvaluatedBeatIdx then e
  else
    let lastN := lastRolling (eligible.filter (fun x => decide (x.idx ≤ b.idx)))
    let res := scoreFromWindow e.hitTimeline lastN
    { e with scoreState := applyResult e.scoreState res, lastEvaluatedBeatIdx := b.idx }

/-- Lines 699-702 of `scheduleTick`: the gate update, given `activeNow`. -/
def updateGate (e : Engine) (now : ℚ) (activeNow : Bool) : Engine :=
  let e1 := if !e.trackingActive && activeNow then onTrackingResume e now else e
  if e1.trackingActive && !activeNow then { e1 with trackingActive := false } else e1

/-- Lines 699-733 of `scheduleTick`: the gate update and, while tracking is
active, the aggregation of the newly eligible beats; `bd` is the beat duration
read at the start of the tick. -/
def scoreDue (e : Engine) (now bd : ℚ) : Engine :=
  let activeNow := isTrackingActive e now
  let e2 := updateGate e now activeNow
  if !activeNow then e2
  else
    let cutoff := now - LIVE_EVAL_DELAY_BEATS * bd
    let eligible := e2.beatTimeline.filter (fun b => decide (b.tSec ≤ cutoff))
    if eligible.isEmpty then e2
    else eligible.foldl (evaluateBeat eligible) e2

/-- The function `scheduleTick()`, with `ctx.currentTime = now` and an existing
audio context: schedule the due beats, prune, then score. -/
def scheduleTick (e : Engine) (now : ℚ) : Engine :=
  if !e.started || e.paused then e
  else scoreDue (pruneTimelines (scheduleDue e now) now) now (beatDurSec e)

/-! ## Input and lifecycle (script.js, lines 754-769, 1043-1176) -/

/-- The function `registerHit(i)` with `ctx.currentTime = now`. -/
def registerHit (e : Engine) (now : ℚ) (i : Instrument) : Engine :=
  if !e.started || e.paused then e
  else
    pruneTimelines
      { e with hasEverHit := true, lastInputTimeSec := some now,
               hitTimeline := e.hitTimeline ++ [{ tSec := now, i := i }] } now

/-- The function `beginGame()` with `ctx.currentTime = now`. -/
def beginGame (e : Engine) (now : ℚ) : Engine :=
  { e with
    started := true, paused := false,
    nextBeatTimeSec := now + 10 / 100, globalBeatIndex := 0, lastEvaluatedBeatIdx := -1,
    beatTimeline := [], hitTimeline := [], scoreState := ScoreState.init,
    hasEverHit := false, lastInputTimeSec := none, trackingActive := false }

/-- The function `resetStateToIdle()`. -/
def resetStateToIdle (e : Engine) : Engine :=
  { e with
    started := false, paused := false,
    nextBeatTimeSec := 0, globalBeatIndex := 0, lastEvaluatedBeatIdx := -1,
    beatTimeline := [], hitTimeline := [], scoreState := ScoreState.init,
    hasEverHit := false, lastInputTimeSec := none, trackingActive := false }

/-- The function `togglePause()`. -/
def togglePause (e : Engine) : Engine :=
  if !e.started then e else { e with paused := !e.paused }

/-- The function `syncBpmInputs(from)` with `Number(from.value) = v` (`none`
when it is `NaN`, which `clamp` hands on) and `ctx.currentTime = now`. -/
def syncBpmInputs (e : Engine) (now : ℚ) (v : Option ℚ) : Engine :=
  let e1 := { e with bpmNum := v.map (fun x => clamp x 40 140) }
  if e1.started && !e1.paused then
    { e1 with nextBeatTimeSec := max e1.nextBeatTimeSec (now + 5 / 100) }
  else e1

/-- The state when the script has been loaded: the init block at the end of
the script sets BPM 90 and calls `resetStateToIdle()`; the rhythm select is
taken to show `r1`, the fallback of `selectedRhythm`. -/
def Engine.init : Engine :=
  { bpmNum := some 90, rhythmSel := .r1, started := false, paused := false,
    nextBeatTimeSec := 0, globalBeatIndex := 0, lastEvaluatedBeatIdx := -1,
    hasEverHit := false, lastInputTimeSec := none, trackingActive := false,
    beatTimeline := [], hitTimeline := [], scoreState := ScoreState.init }

/-- What can happen to the engine: a timer tick, a pad or key hit, the
lifecycle buttons and the two settings inputs, each with the clock value the
handler reads. -/
inductive Event where
  | tick (now : ℚ)
  | hit (now : ℚ) (i : Instrument)
  | begin (now : ℚ)
  | stop
  | pauseToggle
  | bpmInput (now : ℚ) (v : Option ℚ)
  | rhythmSelect (r : RhythmId)
  deriving DecidableEq

/-- The handler that runs for an event. -/
def step (e : Engine) : Event → Engine
  | .tick now => scheduleTick e now
  | .hit now i => registerHit e now i
  | .begin now => beginGame e now
  | .stop => if e.started then resetStateToIdle e else e
  | .pauseToggle => togglePause e
  | .bpmInput now v => syncBpmInputs e now v
  | .rhythmSelect r => { e with rhythmSel := r }

/-- The state after a sequence of events. -/
def run (e : Engine) (evs : List Event) : Engine := evs.foldl step e


/-! ## Notions used to state the properties -/

/-- The state of the scorer's locals when the beat loop has run over the first
`k` beats of the window. -/
def stateAfter (hits : List Hit) (window : List Beat) (k : Nat) : MatchState :=
  matchLoop hits MatchState.init (window.take k)

/-- The position in the hit timeline that the `k`-th beat of the window hands
to `usedHitIdx.add`, if it makes that call: the entry by which the log of
`add` calls grows during iteration `k`. -/
def claimedHit (hits : List Hit) (window : List Beat) (k : Nat) : Option Nat :=
  let before := (stateAfter hits window k).usedHitIdx
  let after := (stateAfter hits window (k + 1)).usedHitIdx
  if after.length = before.length + 1 then after.head? else none

/-- The number of hits of the timeline that are not yet claimed (their position
is not in `usedHitIdx`) and lie within `MATCH_MAX_MS` of the time `t`. -/
def unclaimedNear (hits : List Hit) (usedHitIdx : List Nat) (t : ℚ) : Nat :=
  hits.enum.countP (fun p => decide (p.1 ∉ usedHitIdx ∧ errMsOf p.2 t ≤ MATCH_MAX_MS))

/-- The number of not-yet-claimed hits within `MATCH_MAX_MS` of the `k`-th beat
of the window when the loop reaches that beat. -/
def nearAt (hits : List Hit) (window : List Beat) (k : Nat) : Nat :=
  match window[k]? with
  | some b => unclaimedNear hits (stateAfter hits window k).usedHitIdx b.tSec
  | none => 0

/-- The number of rest slots of the window that had at least one
not-yet-claimed hit within `MATCH_MAX_MS` when the loop reached them. -/
def restSlotsWithHit (hits : List Hit) (window : List Beat) : Nat :=
  (List.range window.length).countP (fun k =>
    match window[k]? with
    | some b => b.expected.isNone && decide (0 < nearAt hits window k)
    | none => false)

/-- The surplus candidates of the slots with an expected instrument: for each
such slot, the number of its not-yet-claimed hits within `MATCH_MAX_MS` beyond
the first. -/
def surplusCandidates (hits : List Hit) (window : List Beat) : Nat :=
  ((List.range window.length).map (fun k =>
    match window[k]? with
    | some b => if b.expected.isSome then nearAt hits window k - 1 else 0
    | none => 0)).sum

/-- The position of a hit of `pre ++ post` in `pre ++ x :: post`, where `p` is
the length of `pre`. -/
def bump (p hi : Nat) : Nat := if hi < p then hi else hi + 1

/-- The loop state over `pre ++ x :: post` that corresponds to `st` over
`pre ++ post`. -/
def bumpState (p : Nat) (st : MatchState) : MatchState :=
  { st with usedHitIdx := st.usedHitIdx.map (bump p) }

/-! ## Sample data for the worked instances -/

/-- Two kick hits around time 0 (30 ms late, 10 ms early) and a snare hit at
time 1. -/
def sampleHits : List Hit := [⟨3 / 100, .K⟩, ⟨-1 / 100, .K⟩, ⟨1, .S⟩]

/-- Three slots that expect a kick, one second apart. -/
def sampleWindow : List Beat := [⟨0, 0, some .K⟩, ⟨1, 1, some .K⟩, ⟨2, 2, some .K⟩]

/-- One hit per beat of `cleanWindow`, each of the expected instrument and at
most 10 ms off, and a fifth hit far from all of them. -/
def cleanHits : List Hit :=
  [⟨5 / 1000, .K⟩, ⟨1, .S⟩, ⟨199 / 100, .K⟩, ⟨301 / 100, .S⟩, ⟨10, .K⟩]

/-- Four beats one second apart that expect kick, snare, kick, snare. -/
def cleanWindow : List Beat :=
  [⟨0, 0, some .K⟩, ⟨1, 1, some .S⟩, ⟨2, 2, some .K⟩, ⟨3, 3, some .S⟩]

/-! ## Notions used to state the engine properties -/

/-- The engine variables that scoring never writes: the settings, the
lifecycle flags, the scheduler's anchor and counter, and the input record. -/
def SameControl (e e' : Engine) : Prop :=
  e'.bpmNum = e.bpmNum ∧ e'.rhythmSel = e.rhythmSel ∧ e'.started = e.started ∧
  e'.paused = e.paused ∧ e'.nextBeatTimeSec = e.nextBeatTimeSec ∧
  e'.globalBeatIndex = e.globalBeatIndex ∧ e'.hasEverHit = e.hasEverHit ∧
  e'.lastInputTimeSec = e.lastInputTimeSec

/-- The beats appended to the beat timeline by the scheduling loop of a tick
at clock value `now`. -/
def scheduledBy (e : Engine) (now : ℚ) : List Beat :=
  (scheduleDue e now).beatTimeline.drop e.beatTimeline.length

/-- The beats appended to the beat timeline by the handler of one event. -/
def appendedBy (e : Engine) : Event → List Beat
  | .tick now => if !e.started || e.paused then [] else scheduledBy e now
  | _ => []

/-- All beats appended to the beat timeline while a sequence of events is
handled, in the order of their creation. -/
def appendedDuring (e : Engine) : List Event → List Beat
  | [] => []
  | ev :: evs => appendedBy e ev ++ appendedDuring (step e ev) evs

/-- The events that leave the tempo alone and do not restart or reset the
session: ticks, hits, pause and resume, and a change of rhythm. -/
def Event.keepsTempo : Event → Bool
  | .tick _ => true
  | .hit _ _ => true
  | .pauseToggle => true
  | .rhythmSelect _ => true
  | .begin _ => false
  | .stop => false
  | .bpmInput _ _ => false

/-- The `n` consecutive beats that start with index `g` at time `a` and are
`bd` apart, with the expected instruments of `rhythm`. -/
def beatsFrom (rhythm : List (Option Instrument)) (bd : ℚ) (g : Int) (a : ℚ) (n : Nat) :
    List Beat :=
  (List.range n).map (fun (k : Nat) =>
    { idx := g + (k : Int), tSec := a + (k : ℚ) * bd,
      expected := expectedAt rhythm (g + (k : Int)) })

/-- The beats of the session sit on one grid: the anchor and the counter of the
scheduler are on it. -/
def OnGrid (a0 bd : ℚ) (bpmNum : Option ℚ) (e : Engine) : Prop :=
  e.bpmNum = bpmNum ∧ e.nextBeatTimeSec = a0 + e.globalBeatIndex * bd

/-- The events that neither restart nor reset the session: everything but
`begin` and `stop`. -/
def Event.keepsSession : Event → Bool
  | .begin _ => false
  | .stop => false
  | _ => true

/-- The clock value that a `registerHit` call records, when the event is a hit
that takes effect (the engine is started and not paused). -/
def registeredAt (e : Engine) : Event → Option ℚ
  | .hit now _ => if e.started && !e.paused then some now else none
  | _ => none

/-- The clock value of the last `registerHit` call that took effect while the
events were handled from state `e`; `none` when there was no such call. -/
def lastRegisteredHit (e : Engine) : List Event → Option ℚ
  | [] => none
  | ev :: evs => (lastRegisteredHit (step e ev) evs).or (registeredAt e ev)

/-- The events that may follow a tick at `now1` in a stretch without input at
constant tempo: ticks at `now1` or later, pause and resume, a change of rhythm. -/
def Event.quietSince (now1 : ℚ) : Event → Bool
  | .tick now => decide (now1 ≤ now)
  | .pauseToggle => true
  | .rhythmSelect _ => true
  | _ => false

/-- The beat indices that the loop `for (const b of eligible)` aggregates when
it starts with the scoring cursor at `cursor`: those not skipped by
`if (b.idx <= lastEvaluatedBeatIdx) continue`. -/
def newlyEvaluated (cursor : Int) : List Beat → List Int
  | [] => []
  | b :: rest =>
    if b.idx ≤ cursor then newlyEvaluated cursor rest
    else b.idx :: newlyEvaluated b.idx rest

/-- The beat indices aggregated into the session stats by a tick at clock
value `now`, in the order of their aggregation. -/
def aggregatedBy (e : Engine) (now : ℚ) : List Int :=
  if !e.started || e.paused then []
  else
    let e1 := pruneTimelines (scheduleDue e now) now
    if !isTrackingActive e1 now then []
    else
      let e2 := updateGate e1 now true
      newlyEvaluated e2.lastEvaluatedBeatIdx
        (e2.beatTimeline.filter
          (fun b => decide (b.tSec ≤ now - LIVE_EVAL_DELAY_BEATS * beatDurSec e)))

/-- A session at BPM 120: begun at 0 s, a kick hit at 1 s, the tempo input
touched at 4 s without a change of value (the anchor moves to 4.05 s), then
ticks at 4.45 s (beats 0 and 1 are scheduled at 4.05 s and 4.55 s, tracking
starts) and 4.9 s (beat 1 is aggregated). -/
def sampleSession : Engine :=
  run Engine.init
    [.bpmInput 0 (some 120), .begin 0, .hit 1 .K, .bpmInput 4 (some 120),
     .tick (445 / 100), .tick (49 / 10)]

/-- The continuation of `sampleSession`: a tick at 5.02 s finds the gate idle
(more than eight beats of 0.5 s since the hit), the tempo is lowered to BPM 60,
and ticks follow at 5.03 s and 5.1 s. -/
def tempoDropEvents : List Event :=
  [.tick (502 / 100), .bpmInput (502 / 100) (some 60), .tick (503 / 100), .tick (51 / 10)]

/-- The beat timeline is in scheduling order: indices and times strictly
increase along it and stay below the scheduler's counter and anchor. -/
def TimelineOrdered (e : Engine) : Prop :=
  e.beatTimeline.Pairwise (fun a b => a.idx < b.idx ∧ a.tSec < b.tSec) ∧
  ∀ b ∈ e.beatTimeline, b.idx < e.globalBeatIndex ∧ b.tSec < e.nextBeatTimeSec

/-- The clock value that the handler of an event reads, for the events that
read the clock. -/
def Event.clock : Event → Option ℚ
  | .tick now => some now
  | .hit now _ => some now
  | .begin now => some now
  | .bpmInput now _ => some now
  | .stop => none
  | .pauseToggle => none
  | .rhythmSelect _ => none

/-- The clock does not run backwards along a sequence of events. -/
def clockNondecreasing (evs : List Event) : Prop :=
  (evs.filterMap Event.clock).Pairwise (fun s t => s ≤ t)

/-- The hits appended to the hit timeline by the handler of one event. -/
def hitsAddedBy (e : Engine) : Event → List Hit
  | .hit now i => if !e.started || e.paused then [] else [{ tSec := now, i := i }]
  | _ => []

/-- The beat timeline is an unbroken run of beats: each entry has the next
index and lies one period `bd` after the entry before it, and the last entry is
the beat just before the scheduler's counter and anchor. -/
def BeatsContiguous (bd : ℚ) (e : Engine) : Prop :=
  e.beatTimeline.Chain' (fun a b => b.idx = a.idx + 1 ∧ b.tSec = a.tSec + bd) ∧
  ∀ b ∈ e.beatTimeline.getLast?, b.idx + 1 = e.globalBeatIndex ∧ b.tSec + bd = e.nextBeatTimeSec

/-- The invariant of a session at constant tempo with beat period `bd`. -/
def SteadySession (bd : ℚ) (e : Engine) : Prop :=
  beatDurSec e = bd ∧ TimelineOrdered e ∧ BeatsContiguous bd e ∧ e.beatTimeline.length ≤ 13

/-- All hits appended to the hit timeline while a sequence of events is
handled, in the order of their registration. -/
def hitsAddedDuring (e : Engine) : List Event → List Hit
  | [] => []
  | ev :: evs => hitsAddedBy e ev ++ hitsAddedDuring (step e ev) evs

/-- The `avgErrMs` values of the window evaluations that the loop
`for (const b of eligible)` aggregates, in order, when it starts with the
scoring cursor at `cursor` and reads the hit timeline `hits`. -/
def evaluatedErrs (eligible : List Beat) (hits : List Hit) (cursor : Int) : List Beat → List ℚ
  | [] => []
  | b :: rest =>
    if b.idx ≤ cursor then evaluatedErrs eligible hits cursor rest
    else
      (scoreFromWindow hits
        (lastRolling (eligible.filter (fun x => decide (x.idx ≤ b.idx))))).avgErrMs ::
        evaluatedErrs eligible hits b.idx rest

/-- The `avgErrMs` values aggregated into the session stats by a tick at clock
value `now`, in the order of their aggregation. -/
def aggregatedErrsBy (e : Engine) (now : ℚ) : List ℚ :=
  if !e.started || e.paused then []
  else
    let e1 := pruneTimelines (scheduleDue e now) now
    if !isTrackingActive e1 now then []
    else
      let e2 := updateGate e1 now true
      let eligible := e2.beatTimeline.filter
        (fun b => decide (b.tSec ≤ now - LIVE_EVAL_DELAY_BEATS * beatDurSec e))
      evaluatedErrs eligible e2.hitTimeline e2.lastEvaluatedBeatIdx eligible

/-- The `avgErrMs` values aggregated by the handler of one event: only a tick
aggregates. -/
def errsBy (e : Engine) : Event → List ℚ
  | .tick now => aggregatedErrsBy e now
  | _ => []

/-- All `avgErrMs` values aggregated while a sequence of events is handled. -/
def aggregatedErrsDuring (e : Engine) : List Event → List ℚ
  | [] => []
  | ev :: evs => errsBy e ev ++ aggregatedErrsDuring (step e ev) evs

/-- The session stats summarise the aggregated values `errs`: their number,
their sum, their mean, and their least element as the best error (unset while
there is none). -/
def StatsOf (errs : List ℚ) (s : ScoreState) : Prop :=
  s.beats = errs.length ∧ s.totalAvgErrMs = errs.sum ∧
  (errs = [] → s.bestErrMs = none) ∧
  (errs ≠ [] → ∃ best, s.bestErrMs = some best ∧ best ∈ errs ∧ ∀ x ∈ errs, best ≤ x) ∧
  (errs ≠ [] → s.avgErrMs = errs.sum / errs.length)

/-- The best error of `s'` is not above that of `s`: once set it stays set and
does not grow. -/
def BestNotAbove (s s' : ScoreState) : Prop :=
  ∀ b, s.bestErrMs = some b → ∃ b', s'.bestErrMs = some b' ∧ b' ≤ b

/-- The beats of the timeline are at least the shortest beat period (3/7 s, at
BPM 140) apart, and the scheduler's anchor is that far beyond each of them. -/
def TimelineSpaced (e : Engine) : Prop :=
  e.beatTimeline.Pairwise (fun a b => a.tSec + 3 / 7 ≤ b.tSec) ∧
  ∀ b ∈ e.beatTimeline, b.tSec + 3 / 7 ≤ e.nextBeatTimeSec

/-- Four beats 100 ms apart that all expect a kick. -/
def crowdedWindow : List Beat :=
  [⟨0, 0, some .K⟩, ⟨1, 1 / 10, some .K⟩, ⟨2, 2 / 10, some .K⟩, ⟨3, 3 / 10, some .K⟩]

/-- One kick hit exactly on each beat of `crowdedWindow`, and no other hit. -/
def crowdedHits : List Hit := [⟨0, .K⟩, ⟨1 / 10, .K⟩, ⟨2 / 10, .K⟩, ⟨3 / 10, .K⟩]

/-- The loop state over `pre ++ x :: post` that corresponds to `st` over
`pre ++ post` when the hit `x` has added `c` to the extras count. -/
def bumpStateExtra (p c : Nat) (st : MatchState) : MatchState :=
  { usedHitIdx := st.usedHitIdx.map (bump p), misses := st.misses,
    extras := st.extras + c, errs := st.errs }

/-- The number of slots of the window that expect an instrument and lie within
`MATCH_MAX_MS` of the hit `x`. -/
def expectedSlotsNear (x : Hit) (window : List Beat) : Nat :=
  window.countP (fun b => b.expected.isSome && decide (errMsOf x b.tSec ≤ MATCH_MAX_MS))

/-! ## Binary64 arithmetic

The numbers of the script are IEEE 754 binary64 values and every arithmetic
operation returns the binary64 value nearest to the exact result. The
definitions below give that rounding on the rationals; the definitions with the
suffix `F` further down are the functions of the script with the rounding made
explicit. Results beyond the largest finite binary64 value, which clock values
and tempos never reach, are not cut off to `Infinity`. -/

/-- Rounding of a rational to the nearest integer, ties to the even one. -/
def roundHalfEven (q : ℚ) : ℤ :=
  if q - ⌊q⌋ < 1 / 2 then ⌊q⌋
  else if 1 / 2 < q - ⌊q⌋ then ⌊q⌋ + 1
  else if ⌊q⌋ % 2 = 0 then ⌊q⌋ else ⌊q⌋ + 1

/-- The number of halvings that bring `n` below 2, at most `fuel` of them. -/
def halvings : Nat → Nat → Nat
  | 0, _ => 0
  | fuel + 1, n => if 2 ≤ n then halvings fuel (n / 2) + 1 else 0

/-- The binary logarithm of a positive natural number, rounded down. -/
def ilog2 (n : Nat) : Nat := halvings n n

/-- The binary exponent of a nonzero rational `x`: the integer `e` with
`2^e ≤ |x| < 2^(e+1)`. -/
def binade (x : ℚ) : ℤ :=
  if (2 : ℚ) ^ ((ilog2 x.num.natAbs : ℤ) - (ilog2 x.den : ℤ)) ≤ |x| then
    (ilog2 x.num.natAbs : ℤ) - (ilog2 x.den : ℤ)
  else (ilog2 x.num.natAbs : ℤ) - (ilog2 x.den : ℤ) - 1

/-- The spacing of the binary64 values around `x`: `2^(e-52)` for the binary
exponent `e` of `x`, and `2^(-1074)` in the subnormal range. -/
def ulpAt (x : ℚ) : ℚ := (2 : ℚ) ^ (max (binade x) (-1022) - 52)

/-- The binary64 value nearest to `x`, ties to the even significand: the
result of an arithmetic operation whose exact result is `x`, and the value of
a decimal literal `x`. -/
def roundDouble (x : ℚ) : ℚ :=
  if x = 0 then 0 else roundHalfEven (x / ulpAt x) * ulpAt x

/-! ## The script in binary64 arithmetic

The functions of the script once more, with the rounding `r` of the result of
every arithmetic operation and of every decimal literal made explicit; the
integers, `0.5` and the comparisons are exact in binary64. With
`r = roundDouble` these are the functions as the script runs them; the
definitions above are these functions without the rounding. -/

/-- The function `beatDurSec()`, rounded. -/
def beatDurSecF (r : ℚ → ℚ) (e : Engine) : ℚ := r (60 / bpmValue e)

/-- The function `pruneTimelines(nowSec)`, rounded. -/
def pruneTimelinesF (r : ℚ → ℚ) (e : Engine) (nowSec : ℚ) : Engine :=
  let keepSec := r (beatDurSecF r e * 12)
  { e with
    beatTimeline := e.beatTimeline.dropWhile (fun b => decide (b.tSec < r (nowSec - keepSec))),
    hitTimeline := e.hitTimeline.dropWhile (fun h => decide (h.tSec < r (nowSec - keepSec))) }

/-- The error `Math.abs(h.tSec - t) * 1000`, rounded. -/
def errMsOfF (r : ℚ → ℚ) (h : Hit) (t : ℚ) : ℚ := r (|r (h.tSec - t)| * 1000)

/-- The inner loop of `scoreFromWindow` over the hit timeline, rounded. -/
def collectCandidatesF (r : ℚ → ℚ) (usedHitIdx : List Nat) (t : ℚ) :
    List Hit → Nat → List Candidate
  | [], _ => []
  | h :: rest, hi =>
    if hi ∈ usedHitIdx then collectCandidatesF r usedHitIdx t rest (hi + 1)
    else if errMsOfF r h t ≤ MATCH_MAX_MS then
      { hi := hi, h := h, errMs := errMsOfF r h t } ::
        collectCandidatesF r usedHitIdx t rest (hi + 1)
    else collectCandidatesF r usedHitIdx t rest (hi + 1)

/-- The call `candidates.sort((a, b2) => a.errMs - b2.errMs)`, rounded: a
candidate stays before a later one unless the rounded difference is positive. -/
def sortCandidatesF (r : ℚ → ℚ) (cs : List Candidate) : List Candidate :=
  cs.insertionSort (fun a b => r (a.errMs - b.errMs) ≤ 0)

/-- The sorted `candidates` array of one iteration of the beat loop, rounded. -/
def candidatesForF (r : ℚ → ℚ) (hitTimeline : List Hit) (usedHitIdx : List Nat) (t : ℚ) :
    List Candidate :=
  sortCandidatesF r (collectCandidatesF r usedHitIdx t hitTimeline 0)

/-- One iteration of `for (const b of windowBeats)`, rounded. -/
def matchBeatF (r : ℚ → ℚ) (hitTimeline : List Hit) (st : MatchState) (b : Beat) : MatchState :=
  let candidates := candidatesForF r hitTimeline st.usedHitIdx b.tSec
  match b.expected with
  | none =>
    match candidates with
    | c :: _ =>
      { usedHitIdx := c.hi :: st.usedHitIdx, misses := st.misses,
        extras := st.extras + 1, errs := st.errs ++ [MATCH_MAX_MS] }
    | [] => { st with errs := st.errs ++ [0] }
  | some expected =>
    match candidates with
    | [] => { st with misses := st.misses + 1, errs := st.errs ++ [MATCH_MAX_MS] }
    | best :: _ =>
      let extras1 :=
        if candidates.length > 1 then st.extras + (candidates.length - 1) else st.extras
      if best.h.i ≠ expected then
        { usedHitIdx := best.hi :: st.usedHitIdx, misses := st.misses + 1,
          extras := extras1, errs := st.errs ++ [MATCH_MAX_MS] }
      else
        { usedHitIdx := best.hi :: st.usedHitIdx, misses := st.misses,
          extras := extras1, errs := st.errs ++ [best.errMs] }

/-- The whole beat loop of `scoreFromWindow`, rounded. -/
def matchLoopF (r : ℚ → ℚ) (hitTimeline : List Hit) (st : MatchState)
    (windowBeats : List Beat) : MatchState :=
  windowBeats.foldl (matchBeatF r hitTimeline) st

/-- Lines 550-564 of `scoreFromWindow`, rounded; the sum
`errs.reduce((s, x) => s + x, 0)` is rounded after every addition. -/
def finishScoreF (r : ℚ → ℚ) (st : MatchState) (windowLength : Nat) : ScoreResult :=
  let avgErrMs : ℚ :=
    if st.errs.length ≠ 0 then r (st.errs.foldl (fun s x => r (s + x)) 0 / st.errs.length)
    else MATCH_MAX_MS
  let totalExpected : ℚ := max 1 (windowLength : ℚ)
  let missPenalty : ℚ := r (st.misses / totalExpected)
  let extraPenalty : ℚ := r (st.extras / totalExpected)
  let effectiveErr : ℚ :=
    r (avgErrMs *
      r (r (1 + r (r (85 / 100) * missPenalty)) + r (r (55 / 100) * extraPenalty)))
  { score := tierOf effectiveErr st.misses st.extras, avgErrMs := avgErrMs,
    effectiveErr := effectiveErr, misses := st.misses, extras := st.extras }

/-- The function `scoreFromWindow(windowBeats)`, rounded. -/
def scoreFromWindowF (r : ℚ → ℚ) (hitTimeline : List Hit) (windowBeats : List Beat) :
    ScoreResult :=
  finishScoreF r (matchLoopF r hitTimeline MatchState.init windowBeats) windowBeats.length

/-- The function `isTrackingActive(ctxNowSec)`, rounded: the difference and
the quotient `beatsSince` are each rounded. -/
def isTrackingActiveF (r : ℚ → ℚ) (e : Engine) (ctxNowSec : ℚ) : Bool :=
  if !e.hasEverHit then false
  else
    match e.lastInputTimeSec with
    | none => false
    | some lastInput =>
      decide (r (r (ctxNowSec - lastInput) / beatDurSecF r e) < INPUT_IDLE_BEATS)

/-- The function `onTrackingResume(ctxNowSec)`, rounded. -/
def onTrackingResumeF (r : ℚ → ℚ) (e : Engine) (ctxNowSec : ℚ) : Engine :=
  let e1 := pruneTimelinesF r { e with trackingActive := true, hitTimeline := [] } ctxNowSec
  let eligible :=
    e1.beatTimeline.filter
      (fun b => decide (b.tSec ≤ r (ctxNowSec - r (LIVE_EVAL_DELAY_BEATS * beatDurSecF r e1))))
  let lastIdx :=
    match eligible.getLast? with
    | some b => b.idx
    | none => e1.globalBeatIndex - 1
  { e1 with lastEvaluatedBeatIdx := lastIdx }

/-- The body of the `while` loop of `scheduleTick`, rounded:
`nextBeatTimeSec += bd` rounds the sum. -/
def scheduleBeatF (r : ℚ → ℚ) (bd : ℚ) (rhythm : List (Option Instrument)) (e : Engine) :
    Engine :=
  { e with
    beatTimeline := e.beatTimeline ++
      [{ idx := e.globalBeatIndex, tSec := e.nextBeatTimeSec,
         expected := expectedAt rhythm e.globalBeatIndex }],
    globalBeatIndex := e.globalBeatIndex + 1,
    nextBeatTimeSec := r (e.nextBeatTimeSec + bd) }

/-- The loop `while (nextBeatTimeSec < ctx.currentTime + SCHED_AHEAD_SEC)`,
rounded and cut off after `fuel` iterations; `horizon` is the rounded sum
`ctx.currentTime + SCHED_AHEAD_SEC`. -/
def scheduleLoopF (r : ℚ → ℚ) (bd : ℚ) (rhythm : List (Option Instrument)) (horizon : ℚ) :
    Nat → Engine → Engine
  | 0, e => e
  | fuel + 1, e =>
    if e.nextBeatTimeSec < horizon then
      scheduleLoopF r bd rhythm horizon fuel (scheduleBeatF r bd rhythm e)
    else e

/-- A number of iterations after which the rounded scheduling loop has left its
condition false, for clock values in the range of an audio clock
(`scheduleDueF_exact`): twice the number that exact arithmetic needs. -/
def scheduleFuelF (bd horizon nextBeatTimeSec : ℚ) : Nat :=
  Int.toNat ⌈(horizon - nextBeatTimeSec) / bd * 2⌉

/-- Lines 673-695 of `scheduleTick`, rounded: the scheduling loop run to its
exit. -/
def scheduleDueF (r : ℚ → ℚ) (e : Engine) (now : ℚ) : Engine :=
  scheduleLoopF r (beatDurSecF r e) (selectedRhythm e) (r (now + r (14 / 100)))
    (scheduleFuelF (beatDurSecF r e) (r (now + r (14 / 100))) e.nextBeatTimeSec) e

/-- Lines 722-730, rounded: the session-stats update for one window result. -/
def applyResultF (r : ℚ → ℚ) (s : ScoreState) (res : ScoreResult) : ScoreState :=
  let beats := s.beats + 1
  let totalScore := s.totalScore + res.score
  let totalAvgErrMs := r (s.totalAvgErrMs + res.avgErrMs)
  { beats := beats, last := some res.score, totalScore := totalScore,
    avg := r ((totalScore : ℚ) / beats), totalAvgErrMs := totalAvgErrMs,
    avgErrMs := r (totalAvgErrMs / beats),
    bestErrMs :=
      match s.bestErrMs with
      | none => some res.avgErrMs
      | some best => some (min best res.avgErrMs) }

/-- One iteration of `for (const b of eligible)` (lines 716-733), rounded. -/
def evaluateBeatF (r : ℚ → ℚ) (eligible : List Beat) (e : Engine) (b : Beat) : Engine :=
  if b.idx ≤ e.lastEvaluatedBeatIdx then e
  else
    let lastN := lastRolling (eligible.filter (fun x => decide (x.idx ≤ b.idx)))
    let res := scoreFromWindowF r e.hitTimeline lastN
    { e with scoreState := applyResultF r e.scoreState res, lastEvaluatedBeatIdx := b.idx }

/-- Lines 699-702 of `scheduleTick`, rounded: the gate update, given
`activeNow`. -/
def updateGateF (r : ℚ → ℚ) (e : Engine) (now : ℚ) (activeNow : Bool) : Engine :=
  let e1 := if !e.trackingActive && activeNow then onTrackingResumeF r e now else e
  if e1.trackingActive && !activeNow then { e1 with trackingActive := false } else e1

/-- Lines 699-733 of `scheduleTick`, rounded; `bd` is the beat duration read at
the start of the tick. -/
def scoreDueF (r : ℚ → ℚ) (e : Engine) (now bd : ℚ) : Engine :=
  let activeNow := isTrackingActiveF r e now
  let e2 := updateGateF r e now activeNow
  if !activeNow then e2
  else
    let cutoff := r (now - r (LIVE_EVAL_DELAY_BEATS * bd))
    let eligible := e2.beatTimeline.filter (fun b => decide (b.tSec ≤ cutoff))
    if eligible.isEmpty then e2
    else eligible.foldl (evaluateBeatF r eligible) e2

/-- The function `scheduleTick()`, rounded, with `ctx.currentTime = now`. -/
def scheduleTickF (r : ℚ → ℚ) (e : Engine) (now : ℚ) : Engine :=
  if !e.started || e.paused then e
  else scoreDueF r (pruneTimelinesF r (scheduleDueF r e now) now) now (beatDurSecF r e)

/-- The function `registerHit(i)`, rounded, with `ctx.currentTime = now`. -/
def registerHitF (r : ℚ → ℚ) (e : Engine) (now : ℚ) (i : Instrument) : Engine :=
  if !e.started || e.paused then e
  else
    pruneTimelinesF r
      { e with hasEverHit := true, lastInputTimeSec := some now,
               hitTimeline := e.hitTimeline ++ [{ tSec := now, i := i }] } now

/-- The function `beginGame()`, rounded, with `ctx.currentTime = now`. -/
def beginGameF (r : ℚ → ℚ) (e : Engine) (now : ℚ) : Engine :=
  { e with
    started := true, paused := false,
    nextBeatTimeSec := r (now + r (10 / 100)), globalBeatIndex := 0, lastEvaluatedBeatIdx := -1,
    beatTimeline := [], hitTimeline := [], scoreState := ScoreState.init,
    hasEverHit := false, lastInputTimeSec := none, trackingActive := false }

/-- The function `syncBpmInputs(from)`, rounded, with `ctx.currentTime = now`. -/
def syncBpmInputsF (r : ℚ → ℚ) (e : Engine) (now : ℚ) (v : Option ℚ) : Engine :=
  let e1 := { e with bpmNum := v.map (fun x => clamp x 40 140) }
  if e1.started && !e1.paused then
    { e1 with nextBeatTimeSec := max e1.nextBeatTimeSec (r (now + r (5 / 100))) }
  else e1

/-- The handler that runs for an event, rounded. -/
def stepF (r : ℚ → ℚ) (e : Engine) : Event → Engine
  | .tick now => scheduleTickF r e now
  | .hit now i => registerHitF r e now i
  | .begin now => beginGameF r e now
  | .stop => if e.started then resetStateToIdle e else e
  | .pauseToggle => togglePause e
  | .bpmInput now v => syncBpmInputsF r e now v
  | .rhythmSelect rid => { e with rhythmSel := rid }

/-- The state after a sequence of events, rounded. -/
def runF (r : ℚ → ℚ) (e : Engine) (evs : List Event) : Engine := evs.foldl (stepF r) e

/-- The anchor of the rounded scheduling loop after `k` iterations from the
anchor `a`: the sum `nextBeatTimeSec += bd` rounded `k` times. -/
def anchorF (r : ℚ → ℚ) (bd : ℚ) (a : ℚ) : Nat → ℚ
  | 0 => a
  | k + 1 => r (anchorF r bd a k + bd)

/-- The `n` consecutive beats that the rounded scheduling loop appends from
index `g` and anchor `a`. -/
def beatsFromF (r : ℚ → ℚ) (rhythm : List (Option Instrument)) (bd : ℚ) (g : Int) (a : ℚ)
    (n : Nat) : List Beat :=
  (List.range n).map (fun (k : Nat) =>
    { idx := g + (k : Int), tSec := anchorF r bd a k,
      expected := expectedAt rhythm (g + (k : Int)) })

/-- The beats appended to the beat timeline by the rounded scheduling loop of a
tick at clock value `now`. -/
def scheduledByF (r : ℚ → ℚ) (e : Engine) (now : ℚ) : List Beat :=
  (scheduleDueF r e now).beatTimeline.drop e.beatTimeline.length

/-- The clock value of the last `registerHit` call that took effect while the
events were handled, rounded, from state `e`. -/
def lastRegisteredHitF (r : ℚ → ℚ) (e : Engine) : List Event → Option ℚ
  | [] => none
  | ev :: evs => (lastRegisteredHitF r (stepF r e ev) evs).or (registeredAt e ev)

/-- The indices of the beat timeline increase along it and stay below the
scheduler's counter. -/
def IndicesOrdered (e : Engine) : Prop :=
  e.beatTimeline.Pairwise (fun a b => a.idx < b.idx) ∧
  ∀ b ∈ e.beatTimeline, b.idx < e.globalBeatIndex

/-! # Theorems -/

/-! ## Candidate collection -/

theorem mem_collectCandidates (used : List Nat) (t : ℚ) (hits : List Hit) (k : Nat)
    (c : Candidate) :
    c ∈ collectCandidates used t hits k ↔
      ∃ j h, hits[j]? = some h ∧ c = { hi := k + j, h := h, errMs := errMsOf h t } ∧
        k + j ∉ used ∧ errMsOf h t ≤ MATCH_MAX_MS := by
  induction hits generalizing k with
  | nil => simp [collectCandidates]
  | cons x rest ih =>
    have key : (∃ j h, (x :: rest)[j]? = some h ∧
          c = { hi := k + j, h := h, errMs := errMsOf h t } ∧
          k + j ∉ used ∧ errMsOf h t ≤ MATCH_MAX_MS) ↔
        ((c = { hi := k, h := x, errMs := errMsOf x t } ∧ k ∉ used ∧
            errMsOf x t ≤ MATCH_MAX_MS) ∨
          ∃ j h, rest[j]? = some h ∧ c = { hi := k + 1 + j, h := h, errMs := errMsOf h t } ∧
            k + 1 + j ∉ used ∧ errMsOf h t ≤ MATCH_MAX_MS) := by
      constructor
      · rintro ⟨j, h, hj, hc, hu, he⟩
        cases j with
        | zero =>
          simp only [List.getElem?_cons_zero, Option.some.injEq] at hj
          subst hj
          exact Or.inl ⟨by simpa using hc, by simpa using hu, he⟩
        | succ j =>
          simp only [List.getElem?_cons_succ] at hj
          refine Or.inr ⟨j, h, hj, ?_, ?_, he⟩
          · rw [hc]; congr 1; omega
          · rw [show k + 1 + j = k + (j + 1) by omega]; exact hu
      · rintro (⟨hc, hu, he⟩ | ⟨j, h, hj, hc, hu, he⟩)
        · exact ⟨0, x, by simp, by simpa using hc, by simpa using hu, he⟩
        · refine ⟨j + 1, h, by simpa using hj, ?_, ?_, he⟩
          · rw [hc]; congr 1; omega
          · rw [show k + (j + 1) = k + 1 + j by omega]; exact hu
    rw [key]
    unfold collectCandidates
    by_cases hu : k ∈ used
    · simp [hu, ih]
    · by_cases he : errMsOf x t ≤ MATCH_MAX_MS
      · simp [hu, he, ih]
      · simp [hu, he, ih]

theorem mem_candidatesFor (hits : List Hit) (used : List Nat) (t : ℚ) (c : Candidate) :
    c ∈ candidatesFor hits used t ↔
      ∃ h, hits[c.hi]? = some h ∧ c = { hi := c.hi, h := h, errMs := errMsOf h t } ∧
        c.hi ∉ used ∧ errMsOf h t ≤ MATCH_MAX_MS := by
  unfold candidatesFor sortCandidates
  rw [(List.perm_insertionSort _ _).mem_iff, mem_collectCandidates]
  constructor
  · rintro ⟨j, h, hj, hc, hu, he⟩
    subst hc
    exact ⟨h, by simpa using hj, by simp, by simpa using hu, he⟩
  · rintro ⟨h, hj, hc, hu, he⟩
    exact ⟨c.hi, h, hj, by simpa using hc, by simpa using hu, he⟩


theorem candidatesFor_sorted (hits : List Hit) (used : List Nat) (t : ℚ) :
    (candidatesFor hits used t).Sorted (fun a b => a.errMs ≤ b.errMs) := by
  haveI : IsTotal Candidate (fun a b => a.errMs ≤ b.errMs) := ⟨fun a b => le_total _ _⟩
  haveI : IsTrans Candidate (fun a b => a.errMs ≤ b.errMs) := ⟨fun _ _ _ h1 h2 => le_trans h1 h2⟩
  exact List.sorted_insertionSort _ _

theorem candidatesFor_head_le {hits : List Hit} {used : List Nat} {t : ℚ}
    {best : Candidate} {more : List Candidate}
    (h : candidatesFor hits used t = best :: more) :
    ∀ c ∈ candidatesFor hits used t, best.errMs ≤ c.errMs := by
  have hs := candidatesFor_sorted hits used t
  rw [h] at hs ⊢
  intro c hc
  rcases List.mem_cons.1 hc with rfl | hc
  · exact le_refl _
  · exact List.rel_of_sorted_cons hs c hc

/-- What one iteration of the beat loop does to `usedHitIdx`: the head of the
sorted candidates, if there is one, is added, whatever the slot expects. -/
theorem matchBeat_usedHitIdx (hits : List Hit) (st : MatchState) (b : Beat) :
    (matchBeat hits st b).usedHitIdx =
      match candidatesFor hits st.usedHitIdx b.tSec with
      | [] => st.usedHitIdx
      | c :: _ => c.hi :: st.usedHitIdx := by
  unfold matchBeat
  cases hexp : b.expected with
  | none =>
    cases hc : candidatesFor hits st.usedHitIdx b.tSec with
    | nil => simp
    | cons c more => simp
  | some ex =>
    cases hc : candidatesFor hits st.usedHitIdx b.tSec with
    | nil => simp
    | cons c more =>
      by_cases hi : c.h.i = ex
      · simp [hi]
      · simp [hi]

theorem matchBeat_usedHitIdx_cases (hits : List Hit) (st : MatchState) (b : Beat) :
    (matchBeat hits st b).usedHitIdx = st.usedHitIdx ∨
      ∃ hi, hi < hits.length ∧ hi ∉ st.usedHitIdx ∧
        (matchBeat hits st b).usedHitIdx = hi :: st.usedHitIdx := by
  rw [matchBeat_usedHitIdx]
  cases hc : candidatesFor hits st.usedHitIdx b.tSec with
  | nil => exact Or.inl rfl
  | cons c more =>
    right
    have hm : c ∈ candidatesFor hits st.usedHitIdx b.tSec := by rw [hc]; simp
    obtain ⟨h, hj, -, hu, -⟩ := (mem_candidatesFor _ _ _ _).1 hm
    refine ⟨c.hi, ?_, hu, rfl⟩
    exact (List.getElem?_eq_some_iff.1 hj).1

theorem matchLoop_append (hits : List Hit) (st : MatchState) (l1 l2 : List Beat) :
    matchLoop hits st (l1 ++ l2) = matchLoop hits (matchLoop hits st l1) l2 := by
  simp [matchLoop, List.foldl_append]

theorem matchLoop_snoc (hits : List Hit) (st : MatchState) (l : List Beat) (b : Beat) :
    matchLoop hits st (l ++ [b]) = matchBeat hits (matchLoop hits st l) b := by
  simp [matchLoop, List.foldl_append]

theorem matchLoop_used_nodup (hits : List Hit) (window : List Beat) (st : MatchState)
    (hst : st.usedHitIdx.Nodup) : (matchLoop hits st window).usedHitIdx.Nodup := by
  induction window generalizing st with
  | nil => simpa [matchLoop] using hst
  | cons b rest ih =>
    have : matchLoop hits st (b :: rest) = matchLoop hits (matchBeat hits st b) rest := rfl
    rw [this]
    apply ih
    rcases matchBeat_usedHitIdx_cases hits st b with h | ⟨hi, -, hu, h⟩
    · rw [h]; exact hst
    · rw [h]; exact List.nodup_cons.2 ⟨hu, hst⟩

theorem matchLoop_used_suffix (hits : List Hit) (window : List Beat) (st : MatchState) :
    st.usedHitIdx <:+ (matchLoop hits st window).usedHitIdx := by
  induction window generalizing st with
  | nil => exact List.suffix_refl _
  | cons b rest ih =>
    have : matchLoop hits st (b :: rest) = matchLoop hits (matchBeat hits st b) rest := rfl
    rw [this]
    refine List.IsSuffix.trans ?_ (ih _)
    rcases matchBeat_usedHitIdx_cases hits st b with h | ⟨hi, -, -, h⟩
    · rw [h]
    · rw [h]; exact List.suffix_cons _ _


theorem stateAfter_succ (hits : List Hit) (window : List Beat) (k : Nat) (hk : k < window.length) :
    stateAfter hits window (k + 1) = matchBeat hits (stateAfter hits window k) window[k] := by
  unfold stateAfter
  have h : window.take (k + 1) = window.take k ++ [window[k]] := by
    rw [List.take_succ, List.getElem?_eq_getElem hk]
    rfl
  rw [h, matchLoop_snoc]

theorem stateAfter_of_le (hits : List Hit) (window : List Beat) (k : Nat)
    (hk : window.length ≤ k) : stateAfter hits window k = stateAfter hits window window.length := by
  unfold stateAfter
  rw [List.take_of_length_le hk, List.take_length]

theorem stateAfter_length (hits : List Hit) (window : List Beat) :
    stateAfter hits window window.length = matchLoop hits MatchState.init window := by
  unfold stateAfter
  rw [List.take_length]

theorem stateAfter_used_suffix (hits : List Hit) (window : List Beat) {j k : Nat} (hjk : j ≤ k) :
    (stateAfter hits window j).usedHitIdx <:+ (stateAfter hits window k).usedHitIdx := by
  unfold stateAfter
  have h1 : (window.take k).take j = window.take j := by
    rw [List.take_take, Nat.min_eq_left hjk]
  have h2 : window.take k = window.take j ++ (window.take k).drop j :=
    calc window.take k = (window.take k).take j ++ (window.take k).drop j :=
          (List.take_append_drop j (window.take k)).symm
      _ = window.take j ++ (window.take k).drop j := by rw [h1]
  rw [h2, matchLoop_append]
  exact matchLoop_used_suffix _ _ _

theorem stateAfter_used_nodup (hits : List Hit) (window : List Beat) (k : Nat) :
    (stateAfter hits window k).usedHitIdx.Nodup :=
  matchLoop_used_nodup hits _ _ (by simp [MatchState.init])

theorem stateAfter_used_lt (hits : List Hit) (window : List Beat) (k : Nat) :
    ∀ hi ∈ (stateAfter hits window k).usedHitIdx, hi < hits.length := by
  induction k with
  | zero => simp [stateAfter, matchLoop, MatchState.init]
  | succ k ih =>
    by_cases hk : k < window.length
    · rw [stateAfter_succ _ _ _ hk]
      rcases matchBeat_usedHitIdx_cases hits (stateAfter hits window k) window[k] with
        h | ⟨hi, hlt, -, h⟩
      · rw [h]; exact ih
      · rw [h]
        intro x hx
        rcases List.mem_cons.1 hx with rfl | hx
        · exact hlt
        · exact ih x hx
    · rw [stateAfter_of_le _ _ _ (by omega), ← stateAfter_of_le _ _ k (by omega)]
      exact ih

/-- C1. In one pass of `scoreFromWindow` no hit is claimed twice: the log of
`usedHitIdx.add` calls has no repeated entry and holds only positions of the
hit timeline, every beat adds at most one entry to it, and two different beats
of the window never claim the same hit position (whether the claim is a
correct match, a wrong-instrument miss or a rest-slot extra). -/
theorem hit_claimed_by_at_most_one_beat (hits : List Hit) (window : List Beat) :
    (matchLoop hits MatchState.init window).usedHitIdx.Nodup ∧
    (∀ hi ∈ (matchLoop hits MatchState.init window).usedHitIdx, hi < hits.length) ∧
    (∀ k, (stateAfter hits window (k + 1)).usedHitIdx = (stateAfter hits window k).usedHitIdx ∨
      ∃ hi, hi ∉ (stateAfter hits window k).usedHitIdx ∧
        (stateAfter hits window (k + 1)).usedHitIdx = hi :: (stateAfter hits window k).usedHitIdx) ∧
    (∀ j k a, j ≠ k → claimedHit hits window j = some a → claimedHit hits window k ≠ some a) := by
  have hstep : ∀ k,
      (stateAfter hits window (k + 1)).usedHitIdx = (stateAfter hits window k).usedHitIdx ∨
      ∃ hi, hi ∉ (stateAfter hits window k).usedHitIdx ∧
        (stateAfter hits window (k + 1)).usedHitIdx =
          hi :: (stateAfter hits window k).usedHitIdx := by
    intro k
    by_cases hk : k < window.length
    · rw [stateAfter_succ _ _ _ hk]
      rcases matchBeat_usedHitIdx_cases hits (stateAfter hits window k) window[k] with
        h | ⟨hi, -, hu, h⟩
      · exact Or.inl h
      · exact Or.inr ⟨hi, hu, h⟩
    · left
      rw [stateAfter_of_le _ _ _ (by omega), ← stateAfter_of_le _ _ k (by omega)]
  have hclaim : ∀ k a, claimedHit hits window k = some a →
      a ∉ (stateAfter hits window k).usedHitIdx ∧
        a ∈ (stateAfter hits window (k + 1)).usedHitIdx := by
    intro k a hka
    unfold claimedHit at hka
    simp only at hka
    split at hka
    · rename_i hlen
      rcases hstep k with h | ⟨hi, hu, h⟩
      · rw [h] at hlen; omega
      · rw [h] at hka ⊢
        simp only [List.head?_cons, Option.some.injEq] at hka
        subst hka
        exact ⟨hu, by simp⟩
    · exact absurd hka (by simp)
  have hlt : ∀ j k a, j < k → claimedHit hits window j = some a →
      claimedHit hits window k ≠ some a := by
    intro j k a hjk hj hk
    have h1 := (hclaim j a hj).2
    have h2 := (hclaim k a hk).1
    exact h2 ((stateAfter_used_suffix hits window (show j + 1 ≤ k by omega)).subset h1)
  refine ⟨?_, ?_, hstep, ?_⟩
  · rw [← stateAfter_length]; exact stateAfter_used_nodup _ _ _
  · rw [← stateAfter_length]; exact stateAfter_used_lt _ _ _
  · intro j k a hjk hj hk
    rcases Nat.lt_or_gt_of_ne hjk with h | h
    · exact hlt j k a h hj hk
    · exact hlt k j a h hk hj


/-- The claims made over `sampleHits` by the three slots of `sampleWindow`: the
first takes the nearer kick (position 1), the second the snare at its time
(position 2, a wrong-instrument miss), the third finds nothing. -/
theorem claimedHit_sample :
    claimedHit sampleHits sampleWindow 0 = some 1 ∧
    claimedHit sampleHits sampleWindow 1 = some 2 ∧
    claimedHit sampleHits sampleWindow 2 = none := by
  decide!

/-! ## Extras -/

theorem collectCandidates_length (used : List Nat) (t : ℚ) (hits : List Hit) (k : Nat) :
    (collectCandidates used t hits k).length =
      (hits.enumFrom k).countP
        (fun p => decide (p.1 ∉ used ∧ errMsOf p.2 t ≤ MATCH_MAX_MS)) := by
  induction hits generalizing k with
  | nil => simp [collectCandidates]
  | cons x rest ih =>
    unfold collectCandidates
    rw [List.enumFrom_cons, List.countP_cons]
    by_cases hu : k ∈ used
    · simp [hu, ih]
    · by_cases he : errMsOf x t ≤ MATCH_MAX_MS
      · simp [hu, he, ih]
      · simp [hu, he, ih]

theorem candidatesFor_length (hits : List Hit) (used : List Nat) (t : ℚ) :
    (candidatesFor hits used t).length = unclaimedNear hits used t := by
  unfold candidatesFor sortCandidates unclaimedNear
  rw [List.length_insertionSort, collectCandidates_length]
  rfl

/-- What one iteration of the beat loop does to `extras`. -/
theorem matchBeat_extras (hits : List Hit) (st : MatchState) (b : Beat) :
    (matchBeat hits st b).extras =
      st.extras +
        (match b.expected with
         | none => if 0 < unclaimedNear hits st.usedHitIdx b.tSec then 1 else 0
         | some _ => unclaimedNear hits st.usedHitIdx b.tSec - 1) := by
  rw [← candidatesFor_length]
  unfold matchBeat
  cases hexp : b.expected with
  | none =>
    cases hc : candidatesFor hits st.usedHitIdx b.tSec with
    | nil => simp
    | cons c more => simp
  | some ex =>
    cases hc : candidatesFor hits st.usedHitIdx b.tSec with
    | nil => simp
    | cons c more =>
      by_cases hi : c.h.i = ex
      · by_cases hm : more = []
        · simp [hi, hm]
        · have : 0 < more.length := List.length_pos.2 hm
          simp [hi, this]
      · by_cases hm : more = []
        · simp [hi, hm]
        · have : 0 < more.length := List.length_pos.2 hm
          simp [hi, this]

theorem stateAfter_extras (hits : List Hit) (window : List Beat) (n : Nat)
    (hn : n ≤ window.length) :
    (stateAfter hits window n).extras =
      (List.range n).countP (fun k =>
        match window[k]? with
        | some b => b.expected.isNone && decide (0 < nearAt hits window k)
        | none => false) +
      ((List.range n).map (fun k =>
        match window[k]? with
        | some b => if b.expected.isSome then nearAt hits window k - 1 else 0
        | none => 0)).sum := by
  induction n with
  | zero => simp [stateAfter, matchLoop, MatchState.init]
  | succ n ih =>
    have hlt : n < window.length := by omega
    rw [stateAfter_succ _ _ _ hlt, matchBeat_extras, ih (by omega), List.range_succ]
    have hget : window[n]? = some window[n] := List.getElem?_eq_getElem hlt
    have hnear : nearAt hits window n =
        unclaimedNear hits (stateAfter hits window n).usedHitIdx window[n].tSec := by
      simp [nearAt, hget]
    simp only [List.countP_append, List.map_append, List.sum_append, List.countP_cons,
      List.countP_nil, List.map_cons, List.map_nil, List.sum_cons, List.sum_nil, hget, hnear]
    cases hexp : window[n].expected with
    | none =>
      by_cases h0 : 0 < unclaimedNear hits (stateAfter hits window n).usedHitIdx window[n].tSec
      · simp [h0]; omega
      · simp [h0]
    | some ex => simp; omega


/-! ## A hit out of reach of every beat of the window -/

theorem bump_injective (p : Nat) : Function.Injective (bump p) := by
  intro a b h
  unfold bump at h
  split at h <;> split at h <;> omega

theorem bump_mem (p a : Nat) (used : List Nat) :
    bump p a ∈ used.map (bump p) ↔ a ∈ used :=
  List.mem_map_of_injective (bump_injective p)

theorem collectCandidates_after (used : List Nat) (t : ℚ) (p : Nat) (l : List Hit)
    (m : Nat) (hm : p ≤ m) :
    collectCandidates (used.map (bump p)) t l (m + 1) =
      (collectCandidates used t l m).map (fun c => { c with hi := bump p c.hi }) := by
  induction l generalizing m with
  | nil => simp [collectCandidates]
  | cons h rest ih =>
    have hb : bump p m = m + 1 := by unfold bump; split <;> omega
    have hmem : m + 1 ∈ used.map (bump p) ↔ m ∈ used := by rw [← hb]; exact bump_mem p m used
    unfold collectCandidates
    by_cases hu : m ∈ used
    · rw [if_pos (hmem.2 hu), if_pos hu]; exact ih (m + 1) (by omega)
    · rw [if_neg (fun h' => hu (hmem.1 h')), if_neg hu]
      by_cases he : errMsOf h t ≤ MATCH_MAX_MS
      · rw [if_pos he, if_pos he, List.map_cons, ih (m + 1) (by omega), hb]
      · rw [if_neg he, if_neg he]; exact ih (m + 1) (by omega)

theorem collectCandidates_insert (used : List Nat) (t : ℚ) (x : Hit)
    (hx : MATCH_MAX_MS < errMsOf x t) (l1 l2 : List Hit) (k : Nat) :
    collectCandidates (used.map (bump (k + l1.length))) t (l1 ++ x :: l2) k =
      (collectCandidates used t (l1 ++ l2) k).map
        (fun c => { c with hi := bump (k + l1.length) c.hi }) := by
  induction l1 generalizing k with
  | nil =>
    simp only [List.nil_append, List.length_nil, Nat.add_zero]
    rw [← collectCandidates_after used t k l2 k (le_refl _)]
    conv_lhs => unfold collectCandidates
    by_cases hu : k ∈ used.map (bump k)
    · rw [if_pos hu]
    · rw [if_neg hu, if_neg (not_le.2 hx)]
  | cons h rest ih =>
    have hp : k + (h :: rest).length = (k + 1) + rest.length := by simp; omega
    rw [hp]
    have hb : bump (k + 1 + rest.length) k = k := by unfold bump; split <;> omega
    have hmem : k ∈ used.map (bump (k + 1 + rest.length)) ↔ k ∈ used := by
      have h0 := bump_mem (k + 1 + rest.length) k used
      rw [hb] at h0
      exact h0
    simp only [List.cons_append]
    unfold collectCandidates
    by_cases hu : k ∈ used
    · rw [if_pos (hmem.2 hu), if_pos hu]; exact ih (k + 1)
    · rw [if_neg (fun h' => hu (hmem.1 h')), if_neg hu]
      by_cases he : errMsOf h t ≤ MATCH_MAX_MS
      · rw [if_pos he, if_pos he, List.map_cons, ih (k + 1), hb]
      · rw [if_neg he, if_neg he]; exact ih (k + 1)

theorem candidatesFor_insert (used : List Nat) (t : ℚ) (x : Hit)
    (hx : MATCH_MAX_MS < errMsOf x t) (pre post : List Hit) :
    candidatesFor (pre ++ x :: post) (used.map (bump pre.length)) t =
      (candidatesFor (pre ++ post) used t).map (fun c => { c with hi := bump pre.length c.hi }) := by
  unfold candidatesFor sortCandidates
  have h := collectCandidates_insert used t x hx pre post 0
  simp only [Nat.zero_add] at h
  rw [h]
  exact (List.map_insertionSort (fun a b : Candidate => a.errMs ≤ b.errMs)
    (fun a b : Candidate => a.errMs ≤ b.errMs)
    (fun c : Candidate => { c with hi := bump pre.length c.hi }) _
    (fun a _ b _ => Iff.rfl)).symm

theorem matchBeat_insert (st : MatchState) (b : Beat) (x : Hit)
    (hx : MATCH_MAX_MS < errMsOf x b.tSec) (pre post : List Hit) :
    matchBeat (pre ++ x :: post) (bumpState pre.length st) b =
      bumpState pre.length (matchBeat (pre ++ post) st b) := by
  have hc := candidatesFor_insert st.usedHitIdx b.tSec x hx pre post
  unfold matchBeat
  simp only [bumpState] at hc ⊢
  rw [hc]
  cases hexp : b.expected with
  | none =>
    cases hcs : candidatesFor (pre ++ post) st.usedHitIdx b.tSec with
    | nil => simp
    | cons c more => simp
  | some ex =>
    cases hcs : candidatesFor (pre ++ post) st.usedHitIdx b.tSec with
    | nil => simp
    | cons c more =>
      by_cases hi : c.h.i = ex
      · simp [hi]
      · simp [hi]

theorem matchLoop_insert (window : List Beat) (st : MatchState) (x : Hit)
    (hx : ∀ b ∈ window, MATCH_MAX_MS < errMsOf x b.tSec) (pre post : List Hit) :
    matchLoop (pre ++ x :: post) (bumpState pre.length st) window =
      bumpState pre.length (matchLoop (pre ++ post) st window) := by
  induction window generalizing st with
  | nil => rfl
  | cons b rest ih =>
    have h1 : ∀ hits s, matchLoop hits s (b :: rest) = matchLoop hits (matchBeat hits s b) rest :=
      fun _ _ => rfl
    rw [h1, h1, matchBeat_insert st b x (hx b (by simp)) pre post]
    exact ih _ (fun b' hb' => hx b' (by simp [hb']))

theorem scoreFromWindow_insert_far (window : List Beat) (x : Hit)
    (hx : ∀ b ∈ window, MATCH_MAX_MS < errMsOf x b.tSec) (pre post : List Hit) :
    scoreFromWindow (pre ++ x :: post) window = scoreFromWindow (pre ++ post) window := by
  unfold scoreFromWindow
  have h := matchLoop_insert window MatchState.init x hx pre post
  have h0 : bumpState pre.length MatchState.init = MatchState.init := by
    simp [bumpState, MatchState.init]
  rw [h0] at h
  rw [h]
  simp [finishScore, bumpState]


/-- What one iteration of the beat loop does at a rest slot. -/
theorem matchBeat_rest (hits : List Hit) (st : MatchState) (b : Beat) (hb : b.expected = none) :
    (unclaimedNear hits st.usedHitIdx b.tSec = 0 →
      matchBeat hits st b = { st with errs := st.errs ++ [0] }) ∧
    (0 < unclaimedNear hits st.usedHitIdx b.tSec →
      ∃ hi h, hits[hi]? = some h ∧ hi ∉ st.usedHitIdx ∧ errMsOf h b.tSec ≤ MATCH_MAX_MS ∧
        matchBeat hits st b =
          { usedHitIdx := hi :: st.usedHitIdx, misses := st.misses,
            extras := st.extras + 1, errs := st.errs ++ [MATCH_MAX_MS] }) := by
  rw [← candidatesFor_length]
  cases hc : candidatesFor hits st.usedHitIdx b.tSec with
  | nil =>
    refine ⟨fun _ => ?_, fun h => absurd h (by simp)⟩
    simp [matchBeat, hb, hc]
  | cons c more =>
    refine ⟨fun h => absurd h (by simp), fun _ => ?_⟩
    have hm : c ∈ candidatesFor hits st.usedHitIdx b.tSec := by rw [hc]; simp
    obtain ⟨h, hj, -, hu, he⟩ := (mem_candidatesFor _ _ _ _).1 hm
    exact ⟨c.hi, h, hj, hu, he, by simp [matchBeat, hb, hc]⟩

/-- C2 as stated fails: with two kick hits 50 ms apart at a beat that expects a
kick, the window has no rest slot, yet `extras` is 1; the second hit is claimed
by no slot (the only claim is position 0) and still changes the extras count,
which is 0 without it. -/
theorem extras_not_only_rest_slots :
    (scoreFromWindow [⟨0, .K⟩, ⟨5 / 100, .K⟩] [⟨0, 0, some .K⟩]).extras = 1 ∧
    restSlotsWithHit [⟨0, .K⟩, ⟨5 / 100, .K⟩] [⟨0, 0, some .K⟩] = 0 ∧
    (matchLoop [⟨0, .K⟩, ⟨5 / 100, .K⟩] MatchState.init [⟨0, 0, some .K⟩]).usedHitIdx = [0] ∧
    (scoreFromWindow [⟨0, .K⟩] [⟨0, 0, some .K⟩]).extras = 0 := by
  decide!


/-- A window with a kick slot and a rest slot: the kick slot has one surplus
candidate, the rest slot has a hit in reach, and `extras` is 2. -/
theorem extras_sample :
    (scoreFromWindow [⟨0, .K⟩, ⟨5 / 100, .K⟩, ⟨1, .S⟩]
        [⟨0, 0, some .K⟩, ⟨1, 1, none⟩]).extras = 2 ∧
    restSlotsWithHit [⟨0, .K⟩, ⟨5 / 100, .K⟩, ⟨1, .S⟩]
        [⟨0, 0, some .K⟩, ⟨1, 1, none⟩] = 1 ∧
    surplusCandidates [⟨0, .K⟩, ⟨5 / 100, .K⟩, ⟨1, .S⟩]
        [⟨0, 0, some .K⟩, ⟨1, 1, none⟩] = 1 := by
  decide!

/-! ## The nearest candidate -/

theorem collectCandidates_hi_ge (used : List Nat) (t : ℚ) (hits : List Hit) (k : Nat) :
    ∀ c ∈ collectCandidates used t hits k, k ≤ c.hi := by
  intro c hc
  obtain ⟨j, h, -, rfl, -, -⟩ := (mem_collectCandidates _ _ _ _ _).1 hc
  exact Nat.le_add_right _ _

theorem collectCandidates_pairwise (used : List Nat) (t : ℚ) (hits : List Hit) (k : Nat) :
    (collectCandidates used t hits k).Pairwise (fun a b => a.hi < b.hi) := by
  induction hits generalizing k with
  | nil => simp [collectCandidates]
  | cons x rest ih =>
    unfold collectCandidates
    by_cases hu : k ∈ used
    · rw [if_pos hu]; exact ih _
    · rw [if_neg hu]
      by_cases he : errMsOf x t ≤ MATCH_MAX_MS
      · rw [if_pos he]
        refine List.pairwise_cons.2 ⟨?_, ih _⟩
        intro c hc
        have := collectCandidates_hi_ge used t rest (k + 1) c hc
        simp only
        omega
      · rw [if_neg he]; exact ih _

theorem pair_sublist_of_pairwise {l : List Candidate}
    (hl : l.Pairwise (fun a b => a.hi < b.hi)) {a b : Candidate} (ha : a ∈ l) (hb : b ∈ l)
    (hab : a.hi < b.hi) : List.Sublist [a, b] l := by
  induction l with
  | nil => simp at ha
  | cons x rest ih =>
    obtain ⟨hx, hrest⟩ := List.pairwise_cons.1 hl
    rcases List.mem_cons.1 ha with rfl | ha'
    · rcases List.mem_cons.1 hb with rfl | hb'
      · omega
      · exact List.Sublist.cons₂ _ (List.singleton_sublist.2 hb')
    · rcases List.mem_cons.1 hb with rfl | hb'
      · have := hx a ha'
        omega
      · exact List.Sublist.cons _ (ih hrest ha' hb')

/-- The first of the sorted candidates has the least error, and among the
candidates with that error the least position in the hit timeline. -/
theorem candidatesFor_head_first {hits : List Hit} {used : List Nat} {t : ℚ}
    {best : Candidate} {more : List Candidate}
    (h : candidatesFor hits used t = best :: more) :
    ∀ c ∈ candidatesFor hits used t, c.errMs = best.errMs → best.hi ≤ c.hi := by
  intro c hc hce
  by_contra hlt
  have hlt : c.hi < best.hi := by omega
  haveI : IsTrans Candidate (fun a b => a.errMs ≤ b.errMs) := ⟨fun _ _ _ h1 h2 => le_trans h1 h2⟩
  have hpw := collectCandidates_pairwise used t hits 0
  have hperm : (candidatesFor hits used t).Perm (collectCandidates used t hits 0) :=
    List.perm_insertionSort _ _
  have hbm : best ∈ collectCandidates used t hits 0 := hperm.mem_iff.1 (by rw [h]; simp)
  have hcm : c ∈ collectCandidates used t hits 0 := hperm.mem_iff.1 hc
  have hsub : List.Sublist [c, best]
      (List.insertionSort (fun a b : Candidate => a.errMs ≤ b.errMs)
        (collectCandidates used t hits 0)) :=
    List.pair_sublist_insertionSort (le_of_eq hce) (pair_sublist_of_pairwise hpw hcm hbm hlt)
  have hsub : List.Sublist [c, best] (candidatesFor hits used t) := hsub
  have hnd : (candidatesFor hits used t).Nodup := by
    refine hperm.nodup_iff.2 (hpw.imp ?_)
    intro a b hab hEq
    rw [hEq] at hab
    exact lt_irrefl _ hab
  rw [h] at hsub hnd
  obtain ⟨hnb, -⟩ := List.nodup_cons.1 hnd
  cases hsub with
  | cons _ h' => exact hnb (h'.subset (by simp))
  | cons₂ _ h' => exact lt_irrefl _ hlt


/-- What one iteration of the beat loop does at a slot that expects the
instrument `ex`. -/
theorem matchBeat_expected (hits : List Hit) (st : MatchState) (b : Beat) (ex : Instrument)
    (hb : b.expected = some ex) :
    ((∀ hi h, hits[hi]? = some h → hi ∉ st.usedHitIdx → MATCH_MAX_MS < errMsOf h b.tSec) →
      matchBeat hits st b =
        { st with misses := st.misses + 1, errs := st.errs ++ [MATCH_MAX_MS] }) ∧
    ((∃ hi h, hits[hi]? = some h ∧ hi ∉ st.usedHitIdx ∧ errMsOf h b.tSec ≤ MATCH_MAX_MS) →
      ∃ hi h, hits[hi]? = some h ∧ hi ∉ st.usedHitIdx ∧ errMsOf h b.tSec ≤ MATCH_MAX_MS ∧
        (∀ hi' h', hits[hi']? = some h' → hi' ∉ st.usedHitIdx →
          errMsOf h' b.tSec ≤ MATCH_MAX_MS →
            errMsOf h b.tSec ≤ errMsOf h' b.tSec ∧
              (errMsOf h' b.tSec = errMsOf h b.tSec → hi ≤ hi')) ∧
        (matchBeat hits st b).usedHitIdx = hi :: st.usedHitIdx ∧
        (h.i ≠ ex → (matchBeat hits st b).misses = st.misses + 1 ∧
          (matchBeat hits st b).errs = st.errs ++ [MATCH_MAX_MS]) ∧
        (h.i = ex → (matchBeat hits st b).misses = st.misses ∧
          (matchBeat hits st b).errs = st.errs ++ [errMsOf h b.tSec])) := by
  cases hc : candidatesFor hits st.usedHitIdx b.tSec with
  | nil =>
    constructor
    · intro _
      simp [matchBeat, hb, hc]
    · rintro ⟨hi, h, hj, hu, he⟩
      have : (⟨hi, h, errMsOf h b.tSec⟩ : Candidate) ∈ candidatesFor hits st.usedHitIdx b.tSec :=
        (mem_candidatesFor _ _ _ _).2 ⟨h, hj, rfl, hu, he⟩
      rw [hc] at this
      simp at this
  | cons best more =>
    have hm : best ∈ candidatesFor hits st.usedHitIdx b.tSec := by rw [hc]; simp
    obtain ⟨h, hj, hbest, hu, he⟩ := (mem_candidatesFor _ _ _ _).1 hm
    have herr : best.errMs = errMsOf h b.tSec := by rw [hbest]
    have hh : best.h = h := by rw [hbest]
    constructor
    · intro hfar
      exact absurd he (not_le.2 (hfar _ _ hj hu))
    · intro _
      refine ⟨best.hi, h, hj, hu, he, ?_, ?_, ?_, ?_⟩
      · intro hi' h' hj' hu' he'
        have hm' : (⟨hi', h', errMsOf h' b.tSec⟩ : Candidate) ∈
            candidatesFor hits st.usedHitIdx b.tSec :=
          (mem_candidatesFor _ _ _ _).2 ⟨h', hj', rfl, hu', he'⟩
        constructor
        · have := candidatesFor_head_le hc _ hm'
          rw [herr] at this
          exact this
        · intro heq
          exact candidatesFor_head_first hc _ hm' (by rw [herr]; exact heq)
      · rw [matchBeat_usedHitIdx, hc]
      · intro hne
        have hne' : ¬ best.h.i = ex := by rw [hh]; exact hne
        simp [matchBeat, hb, hc, hne']
      · intro heq
        have heq' : best.h.i = ex := by rw [hh]; exact heq
        simp [matchBeat, hb, hc, heq', herr]

/-- C3. A slot of the window that expects an instrument is decided from the
nearest not-yet-claimed hit within 180 ms. If there is no such hit the slot is
a miss contributing 180 ms and no hit is claimed. Otherwise the hit chosen has
the least error among the not-yet-claimed hits within 180 ms (the earliest of
them in the timeline when several have that error) and is marked claimed; if
its instrument differs from the expected one the slot is a miss contributing
180 ms, and if not the slot contributes exactly that hit's error and is not a
miss. -/
theorem expected_slot_decided_by_nearest_hit (hits : List Hit) (window : List Beat) (k : Nat)
    (b : Beat) (ex : Instrument) (hk : window[k]? = some b) (hb : b.expected = some ex) :
    ((∀ hi h, hits[hi]? = some h → hi ∉ (stateAfter hits window k).usedHitIdx →
        MATCH_MAX_MS < errMsOf h b.tSec) →
      (stateAfter hits window (k + 1)).usedHitIdx = (stateAfter hits window k).usedHitIdx ∧
      (stateAfter hits window (k + 1)).misses = (stateAfter hits window k).misses + 1 ∧
      (stateAfter hits window (k + 1)).errs =
        (stateAfter hits window k).errs ++ [MATCH_MAX_MS]) ∧
    ((∃ hi h, hits[hi]? = some h ∧ hi ∉ (stateAfter hits window k).usedHitIdx ∧
        errMsOf h b.tSec ≤ MATCH_MAX_MS) →
      ∃ hi h, hits[hi]? = some h ∧ hi ∉ (stateAfter hits window k).usedHitIdx ∧
        errMsOf h b.tSec ≤ MATCH_MAX_MS ∧
        (∀ hi' h', hits[hi']? = some h' → hi' ∉ (stateAfter hits window k).usedHitIdx →
          errMsOf h' b.tSec ≤ MATCH_MAX_MS →
            errMsOf h b.tSec ≤ errMsOf h' b.tSec ∧
              (errMsOf h' b.tSec = errMsOf h b.tSec → hi ≤ hi')) ∧
        (stateAfter hits window (k + 1)).usedHitIdx =
          hi :: (stateAfter hits window k).usedHitIdx ∧
        (h.i ≠ ex →
          (stateAfter hits window (k + 1)).misses = (stateAfter hits window k).misses + 1 ∧
          (stateAfter hits window (k + 1)).errs =
            (stateAfter hits window k).errs ++ [MATCH_MAX_MS]) ∧
        (h.i = ex →
          (stateAfter hits window (k + 1)).misses = (stateAfter hits window k).misses ∧
          (stateAfter hits window (k + 1)).errs =
            (stateAfter hits window k).errs ++ [errMsOf h b.tSec])) := by
  obtain ⟨hlt, hbk⟩ := List.getElem?_eq_some_iff.1 hk
  subst hbk
  rw [stateAfter_succ _ _ _ hlt]
  obtain ⟨h1, h2⟩ := matchBeat_expected hits (stateAfter hits window k) window[k] ex hb
  refine ⟨fun hfar => ?_, h2⟩
  rw [h1 hfar]
  exact ⟨rfl, rfl, rfl⟩

/-- A worked instance: the first slot of `sampleWindow` over `sampleHits`, where
two kick hits are in reach and the second one (10 ms early) is the nearer. -/
theorem expected_slot_decided_by_nearest_hit_witness :
    sampleWindow[0]? = some ⟨0, 0, some .K⟩ ∧
    ∃ hi h, sampleHits[hi]? = some h ∧ hi ∉ (stateAfter sampleHits sampleWindow 0).usedHitIdx ∧
      errMsOf h 0 ≤ MATCH_MAX_MS ∧
      (∀ hi' h', sampleHits[hi']? = some h' →
        hi' ∉ (stateAfter sampleHits sampleWindow 0).usedHitIdx →
        errMsOf h' 0 ≤ MATCH_MAX_MS →
          errMsOf h 0 ≤ errMsOf h' 0 ∧ (errMsOf h' 0 = errMsOf h 0 → hi ≤ hi')) ∧
      (stateAfter sampleHits sampleWindow (0 + 1)).usedHitIdx =
        hi :: (stateAfter sampleHits sampleWindow 0).usedHitIdx ∧
      (h.i ≠ Instrument.K →
        (stateAfter sampleHits sampleWindow (0 + 1)).misses =
          (stateAfter sampleHits sampleWindow 0).misses + 1 ∧
        (stateAfter sampleHits sampleWindow (0 + 1)).errs =
          (stateAfter sampleHits sampleWindow 0).errs ++ [MATCH_MAX_MS]) ∧
      (h.i = Instrument.K →
        (stateAfter sampleHits sampleWindow (0 + 1)).misses =
          (stateAfter sampleHits sampleWindow 0).misses ∧
        (stateAfter sampleHits sampleWindow (0 + 1)).errs =
          (stateAfter sampleHits sampleWindow 0).errs ++ [errMsOf h 0]) :=
  ⟨by decide!,
    (expected_slot_decided_by_nearest_hit sampleHits sampleWindow 0 ⟨0, 0, some .K⟩ .K
      (by decide!) rfl).2 ⟨1, ⟨-1 / 100, .K⟩, by decide!, by decide!, by decide!⟩⟩


/-! ## Tiers -/

theorem tierOf_spec (eff : ℚ) (misses extras : Nat) :
    (1 ≤ tierOf eff misses extras ∧ tierOf eff misses extras ≤ 5) ∧
    (tierOf eff misses extras = 5 ↔ eff ≤ 25 ∧ misses = 0 ∧ extras = 0) ∧
    (tierOf eff misses extras = 4 ↔ ¬(eff ≤ 25 ∧ misses = 0 ∧ extras = 0) ∧ eff ≤ 60) ∧
    (tierOf eff misses extras = 3 ↔ ¬(eff ≤ 60) ∧ eff ≤ 95) ∧
    (tierOf eff misses extras = 2 ↔ ¬(eff ≤ 95) ∧ eff ≤ 135) ∧
    (tierOf eff misses extras = 1 ↔ ¬(eff ≤ 135)) := by
  unfold tierOf TIER_5_MS TIER_4_MS TIER_3_MS TIER_2_MS
  by_cases h5 : eff ≤ 25 ∧ misses = 0 ∧ extras = 0
  · have h25 := h5.1
    have h60 : eff ≤ 60 := by linarith
    have h95 : eff ≤ 95 := by linarith
    have h135 : eff ≤ 135 := by linarith
    simp [h5, h60, h95, h135]
  · by_cases h60 : eff ≤ 60
    · have h95 : eff ≤ 95 := by linarith
      have h135 : eff ≤ 135 := by linarith
      simp [h5, h60, h95, h135]
    · by_cases h95 : eff ≤ 95
      · have h135 : eff ≤ 135 := by linarith
        simp [h5, h60, h95, h135]
      · by_cases h135 : eff ≤ 135
        · simp [h5, h60, h95, h135]
        · simp [h5, h60, h95, h135]

theorem scoreFromWindow_score (hits : List Hit) (window : List Beat) :
    (scoreFromWindow hits window).score =
      tierOf (scoreFromWindow hits window).effectiveErr (scoreFromWindow hits window).misses
        (scoreFromWindow hits window).extras := rfl

theorem scoreFromWindow_effectiveErr (hits : List Hit) (window : List Beat) :
    (scoreFromWindow hits window).effectiveErr =
      (scoreFromWindow hits window).avgErrMs *
        (1 + 85 / 100 * (scoreFromWindow hits window).misses / max 1 (window.length : ℚ) +
          55 / 100 * (scoreFromWindow hits window).extras / max 1 (window.length : ℚ)) := by
  simp only [scoreFromWindow, finishScore]
  ring

/-- C4. The tier returned by `scoreFromWindow` is one of 1..5 and is given by
the first matching rule on the returned `effectiveErr`, `misses` and `extras`:
5 iff `effectiveErr ≤ 25` with no miss and no extra, otherwise 4 iff
`effectiveErr ≤ 60`, otherwise 3 iff `≤ 95`, otherwise 2 iff `≤ 135`, otherwise
1; and `effectiveErr = avgErrMs * (1 + 0.85 * misses / n + 0.55 * extras / n)`
with `n = max 1 (window length)`. -/
theorem tier_is_first_matching_rule (hits : List Hit) (window : List Beat) :
    (scoreFromWindow hits window).effectiveErr =
      (scoreFromWindow hits window).avgErrMs *
        (1 + 85 / 100 * (scoreFromWindow hits window).misses / max 1 (window.length : ℚ) +
          55 / 100 * (scoreFromWindow hits window).extras / max 1 (window.length : ℚ)) ∧
    (1 ≤ (scoreFromWindow hits window).score ∧ (scoreFromWindow hits window).score ≤ 5) ∧
    ((scoreFromWindow hits window).score = 5 ↔
      (scoreFromWindow hits window).effectiveErr ≤ 25 ∧
        (scoreFromWindow hits window).misses = 0 ∧ (scoreFromWindow hits window).extras = 0) ∧
    ((scoreFromWindow hits window).score = 4 ↔
      ¬((scoreFromWindow hits window).effectiveErr ≤ 25 ∧
        (scoreFromWindow hits window).misses = 0 ∧ (scoreFromWindow hits window).extras = 0) ∧
      (scoreFromWindow hits window).effectiveErr ≤ 60) ∧
    ((scoreFromWindow hits window).score = 3 ↔
      ¬((scoreFromWindow hits window).effectiveErr ≤ 60) ∧
      (scoreFromWindow hits window).effectiveErr ≤ 95) ∧
    ((scoreFromWindow hits window).score = 2 ↔
      ¬((scoreFromWindow hits window).effectiveErr ≤ 95) ∧
      (scoreFromWindow hits window).effectiveErr ≤ 135) ∧
    ((scoreFromWindow hits window).score = 1 ↔
      ¬((scoreFromWindow hits window).effectiveErr ≤ 135)) := by
  refine ⟨scoreFromWindow_effectiveErr hits window, ?_⟩
  rw [scoreFromWindow_score]
  exact tierOf_spec _ _ _

/-! ## Two windows of four beats -/

theorem matchBeat_no_candidate (hits : List Hit) (st : MatchState) (b : Beat)
    (hb : b.expected ≠ none) (hfar : ∀ h ∈ hits, MATCH_MAX_MS < errMsOf h b.tSec) :
    matchBeat hits st b =
      { st with misses := st.misses + 1, errs := st.errs ++ [MATCH_MAX_MS] } := by
  cases hx : b.expected with
  | none => exact absurd hx hb
  | some ex =>
    refine (matchBeat_expected hits st b ex hx).1 ?_
    intro hi h hj _
    exact hfar h (List.getElem?_mem hj)

theorem matchLoop_all_missed (hits : List Hit) (window : List Beat) (st : MatchState)
    (hexp : ∀ b ∈ window, b.expected ≠ none)
    (hfar : ∀ b ∈ window, ∀ h ∈ hits, MATCH_MAX_MS < errMsOf h b.tSec) :
    matchLoop hits st window =
      { st with misses := st.misses + window.length,
                errs := st.errs ++ List.replicate window.length MATCH_MAX_MS } := by
  induction window generalizing st with
  | nil => simp [matchLoop]
  | cons b rest ih =>
    have h1 : matchLoop hits st (b :: rest) = matchLoop hits (matchBeat hits st b) rest := rfl
    rw [h1, matchBeat_no_candidate hits st b (hexp b (by simp)) (hfar b (by simp)),
      ih _ (fun b' hb' => hexp b' (by simp [hb'])) (fun b' hb' => hfar b' (by simp [hb']))]
    simp only [List.length_cons, List.replicate_succ, List.append_assoc, List.singleton_append,
      MatchState.mk.injEq, true_and, and_true]
    omega

/-- C6. A window of four beats that all expect an instrument, with no hit within
180 ms of any of them, scores four misses, no extra, an average error of
exactly 180 ms, an effective error of exactly 333 ms and tier 1. -/
theorem four_misses_score_tier_one (hits : List Hit) (window : List Beat)
    (hlen : window.length = 4) (hexp : ∀ b ∈ window, b.expected ≠ none)
    (hfar : ∀ b ∈ window, ∀ h ∈ hits, 180 < |h.tSec - b.tSec| * 1000) :
    scoreFromWindow hits window =
      { score := 1, avgErrMs := 180, effectiveErr := 333, misses := 4, extras := 0 } := by
  unfold scoreFromWindow
  rw [matchLoop_all_missed hits window _ hexp hfar, hlen]
  simp only [finishScore, MatchState.init, List.nil_append, List.length_replicate,
    List.replicate, List.sum_cons, List.sum_nil, MATCH_MAX_MS, tierOf, TIER_5_MS, TIER_4_MS,
    TIER_3_MS, TIER_2_MS]
  norm_num

/-- A worked instance: four beats one second apart and a single hit half a
second after the first. -/
theorem four_misses_score_tier_one_witness :
    scoreFromWindow [⟨1 / 2, .K⟩]
        [⟨0, 0, some .K⟩, ⟨1, 1, some .S⟩, ⟨2, 2, some .K⟩, ⟨3, 3, some .S⟩] =
      { score := 1, avgErrMs := 180, effectiveErr := 333, misses := 4, extras := 0 } :=
  four_misses_score_tier_one [⟨1 / 2, .K⟩]
    [⟨0, 0, some .K⟩, ⟨1, 1, some .S⟩, ⟨2, 2, some .K⟩, ⟨3, 3, some .S⟩] rfl
    (by decide!) (by decide!)

theorem length_le_one_of_same_hi {l : List Candidate}
    (hl : l.Pairwise (fun a b => a.hi < b.hi)) (o : Nat) (ho : ∀ c ∈ l, c.hi = o) :
    l.length ≤ 1 := by
  match l, hl, ho with
  | [], _, _ => simp
  | [_], _, _ => simp
  | a :: b :: rest, hl, ho =>
    have h1 := ho a (by simp)
    have h2 := ho b (by simp)
    have h3 : a.hi < b.hi := (List.pairwise_cons.1 hl).1 b (by simp)
    omega

/-- One iteration of the beat loop at a slot whose only not-yet-claimed hit
within reach is the hit at position `o`, of the expected instrument. -/
theorem matchBeat_single (hits : List Hit) (st : MatchState) (b : Beat) (o : Nat) (h : Hit)
    (hb : b.expected = some h.i) (ho : hits[o]? = some h) (hu : o ∉ st.usedHitIdx)
    (he : errMsOf h b.tSec ≤ MATCH_MAX_MS)
    (honly : ∀ j h', hits[j]? = some h' → j ≠ o → MATCH_MAX_MS < errMsOf h' b.tSec) :
    matchBeat hits st b =
      { usedHitIdx := o :: st.usedHitIdx, misses := st.misses, extras := st.extras,
        errs := st.errs ++ [errMsOf h b.tSec] } := by
  have hall : ∀ c ∈ candidatesFor hits st.usedHitIdx b.tSec, c.hi = o := by
    intro c hc
    obtain ⟨h', hj, -, -, he'⟩ := (mem_candidatesFor _ _ _ _).1 hc
    by_contra hne
    exact absurd he' (not_le.2 (honly _ _ hj hne))
  have hlen : unclaimedNear hits st.usedHitIdx b.tSec ≤ 1 := by
    rw [← candidatesFor_length]
    unfold candidatesFor sortCandidates
    rw [List.length_insertionSort]
    refine length_le_one_of_same_hi (collectCandidates_pairwise _ _ _ _) o ?_
    intro c hc
    exact hall c ((List.perm_insertionSort _ _).mem_iff.2 hc)
  obtain ⟨hi, h', hj, -, he', -, hused, -, hright⟩ :=
    (matchBeat_expected hits st b h.i hb).2 ⟨o, h, ho, hu, he⟩
  have hio : hi = o := by
    by_contra hne
    exact absurd he' (not_le.2 (honly _ _ hj hne))
  subst hio
  have hh : h' = h := by
    rw [ho] at hj
    exact (Option.some.inj hj).symm
  subst hh
  obtain ⟨hm, herrs⟩ := hright rfl
  have hex := matchBeat_extras hits st b
  rw [hb] at hex
  simp only at hex
  have hex' : (matchBeat hits st b).extras = st.extras := by omega
  cases hmb : matchBeat hits st b with
  | mk u m x es =>
    rw [hmb] at hused hm herrs hex'
    simp only at hused hm herrs hex'
    rw [hused, hm, herrs, hex']

theorem stateAfter_all_hit (hits : List Hit) (window : List Beat) (own : Nat → Nat)
    (hown : ∀ k (hk : k < window.length), ∃ h, hits[own k]? = some h ∧
      window[k].expected = some h.i ∧ errMsOf h window[k].tSec ≤ 10)
    (hinj : ∀ j k, j < window.length → k < window.length → own j = own k → j = k)
    (hfar : ∀ k (hk : k < window.length) j h, hits[j]? = some h → j ≠ own k →
      MATCH_MAX_MS < errMsOf h window[k].tSec)
    (n : Nat) (hn : n ≤ window.length) :
    (∀ x, x ∈ (stateAfter hits window n).usedHitIdx ↔ ∃ j, j < n ∧ x = own j) ∧
    (stateAfter hits window n).misses = 0 ∧
    (stateAfter hits window n).extras = 0 ∧
    (stateAfter hits window n).errs.length = n ∧
    (∀ e ∈ (stateAfter hits window n).errs, 0 ≤ e ∧ e ≤ 10) := by
  induction n with
  | zero => simp [stateAfter, matchLoop, MatchState.init]
  | succ n ih =>
    have hlt : n < window.length := by omega
    obtain ⟨hused, hm, hx, hlen, herr⟩ := ih (by omega)
    obtain ⟨h, ho, hexp, he⟩ := hown n hlt
    have hu : own n ∉ (stateAfter hits window n).usedHitIdx := by
      intro hmem
      obtain ⟨j, hj, hjn⟩ := (hused _).1 hmem
      have := hinj n j hlt (by omega) hjn
      omega
    have he180 : errMsOf h window[n].tSec ≤ MATCH_MAX_MS := by
      unfold MATCH_MAX_MS
      linarith
    rw [stateAfter_succ _ _ _ hlt,
      matchBeat_single hits _ window[n] (own n) h hexp ho hu he180 (hfar n hlt)]
    refine ⟨?_, hm, hx, ?_, ?_⟩
    · intro x
      simp only [List.mem_cons, hused]
      constructor
      · rintro (rfl | ⟨j, hj, rfl⟩)
        · exact ⟨n, by omega, rfl⟩
        · exact ⟨j, by omega, rfl⟩
      · rintro ⟨j, hj, rfl⟩
        by_cases hjn : j = n
        · left; rw [hjn]
        · right; exact ⟨j, by omega, rfl⟩
    · simp [hlen]
    · intro e hmem
      rcases List.mem_append.1 hmem with h1 | h1
      · exact herr e h1
      · simp only [List.mem_singleton] at h1
        subst h1
        refine ⟨?_, he⟩
        unfold errMsOf
        positivity

/-- A window of four beats that all expect an instrument, where every beat
has its own hit of the expected instrument within 10 ms and, for every beat, no
hit other than its own lies within 180 ms of it, scores no miss, no extra, an
average error of at most 10 ms and tier 5. -/
theorem tier_five_of_isolated_hits (hits : List Hit) (window : List Beat)
    (own : Nat → Nat) (hlen : window.length = 4)
    (hown : ∀ k (hk : k < window.length), ∃ h, hits[own k]? = some h ∧
      window[k].expected = some h.i ∧ |h.tSec - window[k].tSec| * 1000 ≤ 10)
    (hinj : ∀ j k, j < window.length → k < window.length → own j = own k → j = k)
    (hfar : ∀ k (hk : k < window.length) j h, hits[j]? = some h → j ≠ own k →
      180 < |h.tSec - window[k].tSec| * 1000) :
    (scoreFromWindow hits window).misses = 0 ∧
    (scoreFromWindow hits window).extras = 0 ∧
    (scoreFromWindow hits window).avgErrMs ≤ 10 ∧
    (scoreFromWindow hits window).score = 5 := by
  obtain ⟨-, hm, hx, hl, herr⟩ :=
    stateAfter_all_hit hits window own hown hinj hfar window.length (le_refl _)
  rw [stateAfter_length] at hm hx hl herr
  have hsum : (matchLoop hits MatchState.init window).errs.sum ≤
      (matchLoop hits MatchState.init window).errs.length • (10 : ℚ) :=
    List.sum_le_card_nsmul _ _ (fun e he => (herr e he).2)
  have hsum0 : 0 ≤ (matchLoop hits MatchState.init window).errs.sum :=
    List.sum_nonneg (fun e he => (herr e he).1)
  rw [hl, hlen] at hsum
  have havg : (scoreFromWindow hits window).avgErrMs ≤ 10 := by
    simp only [scoreFromWindow, finishScore, hl, hlen]
    norm_num at hsum ⊢
    linarith
  have havg0 : 0 ≤ (scoreFromWindow hits window).avgErrMs := by
    simp only [scoreFromWindow, finishScore, hl, hlen]
    norm_num
    linarith
  have hm' : (scoreFromWindow hits window).misses = 0 := hm
  have hx' : (scoreFromWindow hits window).extras = 0 := hx
  have heff : (scoreFromWindow hits window).effectiveErr =
      (scoreFromWindow hits window).avgErrMs := by
    rw [scoreFromWindow_effectiveErr hits window, hm', hx']
    simp
  refine ⟨hm, hx, havg, ?_⟩
  rw [scoreFromWindow_score]
  refine ((tierOf_spec _ _ _).2.1).2 ⟨?_, hm', hx'⟩
  rw [heff]
  linarith


/-! ## Frame lemmas for the engine -/

theorem SameControl.refl (e : Engine) : SameControl e e :=
  ⟨rfl, rfl, rfl, rfl, rfl, rfl, rfl, rfl⟩

theorem SameControl.trans {a b c : Engine} (h1 : SameControl a b) (h2 : SameControl b c) :
    SameControl a c := by
  obtain ⟨a1, a2, a3, a4, a5, a6, a7, a8⟩ := h1
  obtain ⟨b1, b2, b3, b4, b5, b6, b7, b8⟩ := h2
  exact ⟨b1.trans a1, b2.trans a2, b3.trans a3, b4.trans a4, b5.trans a5, b6.trans a6,
    b7.trans a7, b8.trans a8⟩

theorem beatDurSec_congr {e e' : Engine} (h : e'.bpmNum = e.bpmNum) :
    beatDurSec e' = beatDurSec e := by
  simp [beatDurSec, bpmValue, h]

theorem pruneTimelines_sameControl (e : Engine) (now : ℚ) :
    SameControl e (pruneTimelines e now) :=
  ⟨rfl, rfl, rfl, rfl, rfl, rfl, rfl, rfl⟩

theorem onTrackingResume_sameControl (e : Engine) (now : ℚ) :
    SameControl e (onTrackingResume e now) :=
  ⟨rfl, rfl, rfl, rfl, rfl, rfl, rfl, rfl⟩

theorem updateGate_sameControl (e : Engine) (now : ℚ) (activeNow : Bool) :
    SameControl e (updateGate e now activeNow) := by
  unfold updateGate
  simp only
  split_ifs
  · exact ⟨rfl, rfl, rfl, rfl, rfl, rfl, rfl, rfl⟩
  · exact onTrackingResume_sameControl e now
  · exact ⟨rfl, rfl, rfl, rfl, rfl, rfl, rfl, rfl⟩
  · exact SameControl.refl e

theorem evaluateBeat_sameControl (eligible : List Beat) (e : Engine) (b : Beat) :
    SameControl e (evaluateBeat eligible e b) := by
  unfold evaluateBeat
  split
  · exact SameControl.refl e
  · exact ⟨rfl, rfl, rfl, rfl, rfl, rfl, rfl, rfl⟩

theorem foldl_evaluateBeat_sameControl (eligible l : List Beat) (e : Engine) :
    SameControl e (l.foldl (evaluateBeat eligible) e) := by
  induction l generalizing e with
  | nil => exact SameControl.refl e
  | cons b rest ih =>
    exact SameControl.trans (evaluateBeat_sameControl eligible e b) (ih _)

theorem scoreDue_sameControl (e : Engine) (now bd : ℚ) :
    SameControl e (scoreDue e now bd) := by
  unfold scoreDue
  simp only
  split
  · exact updateGate_sameControl _ _ _
  · split
    · exact updateGate_sameControl _ _ _
    · exact SameControl.trans (updateGate_sameControl _ _ _)
        (foldl_evaluateBeat_sameControl _ _ _)

/-! ## The scheduling loop -/

theorem beatsFrom_succ (rhythm : List (Option Instrument)) (bd : ℚ) (g : Int) (a : ℚ) (n : Nat) :
    beatsFrom rhythm bd g a (n + 1) =
      { idx := g, tSec := a, expected := expectedAt rhythm g } ::
        beatsFrom rhythm bd (g + 1) (a + bd) n := by
  unfold beatsFrom
  rw [List.range_succ_eq_map, List.map_cons, List.map_map]
  congr 1
  · simp
  · apply List.map_congr_left
    intro k _
    simp only [Function.comp, Nat.succ_eq_add_one, Nat.cast_add, Nat.cast_one]
    have h1 : g + 1 + (k : ℤ) = g + ((k : ℤ) + 1) := by ring
    have h2 : a + bd + (k : ℚ) * bd = a + ((k : ℚ) + 1) * bd := by ring
    rw [h1, h2]

theorem length_beatsFrom (rhythm : List (Option Instrument)) (bd : ℚ) (g : Int) (a : ℚ)
    (n : Nat) : (beatsFrom rhythm bd g a n).length = n := by
  simp [beatsFrom]

/-- What the scheduling loop leaves alone, and how it changes the rest: it
appends consecutive beats one beat duration apart and advances the counter
and the anchor past them. -/
theorem scheduleLoop_beats (bd : ℚ) (rhythm : List (Option Instrument)) (horizon : ℚ)
    (fuel : Nat) (e : Engine) :
    ∃ n : Nat,
      scheduleLoop bd rhythm horizon fuel e =
        { e with
          beatTimeline := e.beatTimeline ++
            beatsFrom rhythm bd e.globalBeatIndex e.nextBeatTimeSec n,
          globalBeatIndex := e.globalBeatIndex + n,
          nextBeatTimeSec := e.nextBeatTimeSec + n * bd } := by
  induction fuel generalizing e with
  | zero => exact ⟨0, by simp [scheduleLoop, beatsFrom]⟩
  | succ fuel ih =>
    unfold scheduleLoop
    split
    · obtain ⟨n, hn⟩ := ih (scheduleBeat bd rhythm e)
      refine ⟨n + 1, ?_⟩
      rw [hn, beatsFrom_succ]
      simp only [scheduleBeat, List.append_assoc, List.singleton_append,
        Nat.cast_add, Nat.cast_one]
      congr 1
      · ring
      · ring
    · exact ⟨0, by simp [beatsFrom]⟩

/-- With a positive beat duration, `scheduleFuel` iterations are enough: the
loop ends because its condition is false, not because it is cut off. -/
theorem scheduleLoop_exit (bd : ℚ) (hbd : 0 < bd) (rhythm : List (Option Instrument))
    (horizon : ℚ) (fuel : Nat) (e : Engine)
    (hfuel : (horizon - e.nextBeatTimeSec) / bd ≤ fuel) :
    ¬ (scheduleLoop bd rhythm horizon fuel e).nextBeatTimeSec < horizon := by
  induction fuel generalizing e with
  | zero =>
    simp only [scheduleLoop, not_lt]
    have h0 : (horizon - e.nextBeatTimeSec) / bd ≤ 0 := by simpa using hfuel
    have := (div_le_iff₀ hbd).1 h0
    linarith
  | succ fuel ih =>
    unfold scheduleLoop
    split
    · apply ih
      simp only [scheduleBeat]
      have h1 := (div_le_iff₀ hbd).1 hfuel
      rw [div_le_iff₀ hbd]
      push_cast at h1
      linarith
    · assumption

theorem bpmValue_bounds (e : Engine) : 40 ≤ bpmValue e ∧ bpmValue e ≤ 140 := by
  unfold bpmValue clamp
  constructor
  · exact le_max_left _ _
  · exact max_le (by norm_num) (min_le_left _ _)

theorem beatDurSec_pos (e : Engine) : 0 < beatDurSec e := by
  unfold beatDurSec
  have := (bpmValue_bounds e).1
  positivity

theorem scheduleFuel_enough (bd horizon next : ℚ) :
    (horizon - next) / bd ≤ (scheduleFuel bd horizon next : ℚ) := by
  unfold scheduleFuel
  have h1 : (horizon - next) / bd ≤ (⌈(horizon - next) / bd⌉ : ℚ) := Int.le_ceil _
  have h2 : (⌈(horizon - next) / bd⌉ : ℤ) ≤ ((⌈(horizon - next) / bd⌉).toNat : ℤ) :=
    Int.self_le_toNat _
  have h3 : ((⌈(horizon - next) / bd⌉ : ℤ) : ℚ) ≤ (((⌈(horizon - next) / bd⌉).toNat : ℤ) : ℚ) :=
    Int.cast_le.2 h2
  calc (horizon - next) / bd ≤ (⌈(horizon - next) / bd⌉ : ℚ) := h1
    _ ≤ (((⌈(horizon - next) / bd⌉).toNat : ℤ) : ℚ) := h3
    _ = ((⌈(horizon - next) / bd⌉).toNat : ℚ) := by norm_cast

/-- The scheduling loop of a tick terminates with the next beat at or beyond
the look-ahead horizon. -/
theorem scheduleDue_exit (e : Engine) (now : ℚ) :
    now + SCHED_AHEAD_SEC ≤ (scheduleDue e now).nextBeatTimeSec := by
  have := scheduleLoop_exit (beatDurSec e) (beatDurSec_pos e) (selectedRhythm e)
    (now + SCHED_AHEAD_SEC) _ e (scheduleFuel_enough _ _ _)
  exact not_lt.1 this

theorem scheduleDue_frame (e : Engine) (now : ℚ) :
    scheduledBy e now =
      beatsFrom (selectedRhythm e) (beatDurSec e) e.globalBeatIndex e.nextBeatTimeSec
        (scheduledBy e now).length ∧
    scheduleDue e now =
      { e with beatTimeline := e.beatTimeline ++ scheduledBy e now,
               globalBeatIndex := e.globalBeatIndex + (scheduledBy e now).length,
               nextBeatTimeSec :=
                 e.nextBeatTimeSec + (scheduledBy e now).length * beatDurSec e } := by
  obtain ⟨n, hn⟩ := scheduleLoop_beats (beatDurSec e) (selectedRhythm e)
    (now + SCHED_AHEAD_SEC) (scheduleFuel (beatDurSec e) (now + SCHED_AHEAD_SEC)
      e.nextBeatTimeSec) e
  have hs : scheduledBy e now =
      beatsFrom (selectedRhythm e) (beatDurSec e) e.globalBeatIndex e.nextBeatTimeSec n := by
    unfold scheduledBy scheduleDue
    rw [hn]
    simp
  rw [hs, length_beatsFrom]
  exact ⟨rfl, hn⟩

theorem scheduleDue_sameControl_fields (e : Engine) (now : ℚ) :
    (scheduleDue e now).bpmNum = e.bpmNum ∧ (scheduleDue e now).rhythmSel = e.rhythmSel ∧
    (scheduleDue e now).started = e.started ∧ (scheduleDue e now).paused = e.paused ∧
    (scheduleDue e now).hasEverHit = e.hasEverHit ∧
    (scheduleDue e now).lastInputTimeSec = e.lastInputTimeSec ∧
    (scheduleDue e now).trackingActive = e.trackingActive ∧
    (scheduleDue e now).hitTimeline = e.hitTimeline ∧
    (scheduleDue e now).scoreState = e.scoreState ∧
    (scheduleDue e now).lastEvaluatedBeatIdx = e.lastEvaluatedBeatIdx := by
  rw [(scheduleDue_frame e now).2]
  exact ⟨rfl, rfl, rfl, rfl, rfl, rfl, rfl, rfl, rfl, rfl⟩

/-! ## Constant tempo -/

theorem mem_beatsFrom {rhythm : List (Option Instrument)} {bd : ℚ} {g : Int} {a : ℚ} {n : Nat}
    {b : Beat} (hb : b ∈ beatsFrom rhythm bd g a n) :
    ∃ k : Nat, k < n ∧ b.idx = g + k ∧ b.tSec = a + k * bd ∧
      b.expected = expectedAt rhythm (g + k) := by
  unfold beatsFrom at hb
  obtain ⟨k, hk, rfl⟩ := List.mem_map.1 hb
  exact ⟨k, List.mem_range.1 hk, rfl, rfl, rfl⟩

theorem scheduleTick_running (e : Engine) (now : ℚ) (hs : e.started = true)
    (hp : e.paused = false) :
    scheduleTick e now = scoreDue (pruneTimelines (scheduleDue e now) now) now (beatDurSec e) := by
  simp [scheduleTick, hs, hp]

theorem scheduleTick_idle (e : Engine) (now : ℚ) (h : ¬(e.started = true ∧ e.paused = false)) :
    scheduleTick e now = e := by
  unfold scheduleTick
  by_cases hs : e.started = true
  · have hp : e.paused = true := by
      by_contra hp
      exact h ⟨hs, by simpa using hp⟩
    simp [hs, hp]
  · simp [hs]

theorem appendedBy_idle (e : Engine) (now : ℚ) (h : ¬(e.started = true ∧ e.paused = false)) :
    appendedBy e (.tick now) = [] := by
  unfold appendedBy
  by_cases hs : e.started = true
  · have hp : e.paused = true := by
      by_contra hp
      exact h ⟨hs, by simpa using hp⟩
    simp [hs, hp]
  · simp [hs]

theorem step_onGrid (a0 : ℚ) (e : Engine) (ev : Event) (hev : ev.keepsTempo = true)
    (hg : OnGrid a0 (beatDurSec e) e.bpmNum e) :
    OnGrid a0 (beatDurSec e) e.bpmNum (step e ev) ∧
    ∀ b ∈ appendedBy e ev, b.tSec = a0 + b.idx * beatDurSec e := by
  obtain ⟨-, hnext⟩ := hg
  cases ev with
  | tick now =>
    by_cases hrun : e.started = true ∧ e.paused = false
    · obtain ⟨hform, hframe⟩ := scheduleDue_frame e now
      have hsc := scoreDue_sameControl (pruneTimelines (scheduleDue e now) now) now (beatDurSec e)
      obtain ⟨c1, -, -, -, c5, c6, -, -⟩ := hsc
      have hstep : step e (.tick now) =
          scoreDue (pruneTimelines (scheduleDue e now) now) now (beatDurSec e) :=
        scheduleTick_running e now hrun.1 hrun.2
      refine ⟨⟨?_, ?_⟩, ?_⟩
      · rw [hstep, c1]
        exact (scheduleDue_sameControl_fields e now).1
      · rw [hstep, c5, c6]
        simp only [pruneTimelines]
        rw [hframe]
        simp only
        rw [hnext]
        push_cast
        ring
      · intro b hb
        have hb' : b ∈ scheduledBy e now := by
          simpa [appendedBy, hrun.1, hrun.2] using hb
        rw [hform] at hb'
        obtain ⟨k, -, hidx, ht, -⟩ := mem_beatsFrom hb'
        rw [ht, hidx, hnext]
        push_cast
        ring
    · have hstep : step e (.tick now) = e := scheduleTick_idle e now hrun
      rw [hstep, appendedBy_idle e now hrun]
      exact ⟨⟨rfl, hnext⟩, by simp⟩
  | hit now i =>
    refine ⟨⟨?_, ?_⟩, by simp [appendedBy]⟩
    · simp only [step, registerHit]
      split <;> rfl
    · simp only [step, registerHit]
      split
      · exact hnext
      · exact hnext
  | pauseToggle =>
    refine ⟨⟨?_, ?_⟩, by simp [appendedBy]⟩
    · simp only [step, togglePause]
      split <;> rfl
    · simp only [step, togglePause]
      split
      · exact hnext
      · exact hnext
  | rhythmSelect r => exact ⟨⟨rfl, hnext⟩, by simp [appendedBy]⟩
  | begin now => simp [Event.keepsTempo] at hev
  | stop => simp [Event.keepsTempo] at hev
  | bpmInput now v => simp [Event.keepsTempo] at hev

theorem appendedDuring_onGrid (a0 bd : ℚ) (bpmNum : Option ℚ) (evs : List Event) (e : Engine)
    (hevs : ∀ ev ∈ evs, ev.keepsTempo = true) (hbd : beatDurSec e = bd)
    (hg : OnGrid a0 bd bpmNum e) :
    ∀ b ∈ appendedDuring e evs, b.tSec = a0 + b.idx * bd := by
  induction evs generalizing e with
  | nil => simp [appendedDuring]
  | cons ev rest ih =>
    have hb0 : e.bpmNum = bpmNum := hg.1
    subst hbd
    subst hb0
    obtain ⟨hg', happ⟩ := step_onGrid a0 e ev (hevs ev (by simp)) hg
    intro b hb
    rcases List.mem_append.1 hb with h | h
    · exact happ b h
    · exact ih (step e ev) (fun ev' h' => hevs ev' (by simp [h'])) (beatDurSec_congr hg'.1) hg'
        b h

/-- C7. From `beginGame` on, as long as no BPM input event occurs (and the
session is not restarted or reset), any two beats ever appended to the beat
timeline are `(j - i) * 60 / BPM` apart, `i` and `j` being their indices,
whatever the clock values of the ticks and hits were. -/
theorem constant_bpm_beats_evenly_spaced (e0 : Engine) (t0 : ℚ) (evs : List Event)
    (hevs : ∀ ev ∈ evs, ev.keepsTempo = true) (b1 b2 : Beat)
    (h1 : b1 ∈ appendedDuring (beginGame e0 t0) evs)
    (h2 : b2 ∈ appendedDuring (beginGame e0 t0) evs) :
    b2.tSec - b1.tSec = ((b2.idx - b1.idx : ℤ) : ℚ) * (60 / bpmValue e0) := by
  have hbd : beatDurSec (beginGame e0 t0) = 60 / bpmValue e0 := rfl
  have hg : OnGrid (t0 + 10 / 100) (60 / bpmValue e0) e0.bpmNum (beginGame e0 t0) := by
    refine ⟨rfl, ?_⟩
    simp [beginGame]
  have := appendedDuring_onGrid _ _ _ evs _ hevs hbd hg
  rw [this b1 h1, this b2 h2]
  push_cast
  ring

/-- A worked instance: a session at BPM 90 with ticks at 0 s and 2 s and a hit
in between; the beats of index 0 (at 0.1 s) and index 3 (at 2.1 s) are
appended, three periods of 2/3 s apart. -/
theorem constant_bpm_beats_evenly_spaced_witness :
    (⟨3, 21 / 10, none⟩ : Beat).tSec - (⟨0, 1 / 10, some .K⟩ : Beat).tSec =
      (((⟨3, 21 / 10, none⟩ : Beat).idx - (⟨0, 1 / 10, some .K⟩ : Beat).idx : ℤ) : ℚ) *
        (60 / bpmValue Engine.init) :=
  constant_bpm_beats_evenly_spaced Engine.init 0 [.tick 0, .hit 1 .K, .tick 2]
    (by decide!) ⟨0, 1 / 10, some .K⟩ ⟨3, 21 / 10, none⟩ (by decide!) (by decide!)

/-! ## The tracking gate -/

theorem evaluateBeat_timelines (eligible : List Beat) (e : Engine) (b : Beat) :
    (evaluateBeat eligible e b).trackingActive = e.trackingActive ∧
    (evaluateBeat eligible e b).beatTimeline = e.beatTimeline ∧
    (evaluateBeat eligible e b).hitTimeline = e.hitTimeline := by
  unfold evaluateBeat
  split <;> exact ⟨rfl, rfl, rfl⟩

theorem foldl_evaluateBeat_timelines (eligible l : List Beat) (e : Engine) :
    (l.foldl (evaluateBeat eligible) e).trackingActive = e.trackingActive ∧
    (l.foldl (evaluateBeat eligible) e).beatTimeline = e.beatTimeline ∧
    (l.foldl (evaluateBeat eligible) e).hitTimeline = e.hitTimeline := by
  induction l generalizing e with
  | nil => exact ⟨rfl, rfl, rfl⟩
  | cons b rest ih =>
    obtain ⟨a1, a2, a3⟩ := ih (evaluateBeat eligible e b)
    obtain ⟨b1, b2, b3⟩ := evaluateBeat_timelines eligible e b
    exact ⟨a1.trans b1, a2.trans b2, a3.trans b3⟩

theorem updateGate_trackingActive (e : Engine) (now : ℚ) (activeNow : Bool) :
    (updateGate e now activeNow).trackingActive = activeNow := by
  unfold updateGate
  cases hta : e.trackingActive <;> cases activeNow <;> simp [hta, onTrackingResume, pruneTimelines]

theorem scoreDue_trackingActive (e : Engine) (now bd : ℚ) :
    (scoreDue e now bd).trackingActive = isTrackingActive e now := by
  unfold scoreDue
  simp only
  split
  · exact updateGate_trackingActive _ _ _
  · split
    · exact updateGate_trackingActive _ _ _
    · rw [(foldl_evaluateBeat_timelines _ _ _).1]
      exact updateGate_trackingActive _ _ _

theorem isTrackingActive_congr {e e' : Engine} (h1 : e'.bpmNum = e.bpmNum)
    (h2 : e'.hasEverHit = e.hasEverHit) (h3 : e'.lastInputTimeSec = e.lastInputTimeSec)
    (now : ℚ) : isTrackingActive e' now = isTrackingActive e now := by
  unfold isTrackingActive
  rw [h2, h3, beatDurSec_congr h1]

theorem isTrackingActive_iff (e : Engine) (now : ℚ) :
    isTrackingActive e now = true ↔
      e.hasEverHit = true ∧
        ∃ last, e.lastInputTimeSec = some last ∧ now - last < 8 * (60 / bpmValue e) := by
  unfold isTrackingActive
  have hbd := beatDurSec_pos e
  cases hh : e.hasEverHit with
  | false => simp
  | true =>
    cases hl : e.lastInputTimeSec with
    | none => simp
    | some last =>
      simp only [Bool.not_true, Bool.false_eq_true, if_false, decide_eq_true_eq, true_and,
        Option.some.injEq, exists_eq_left', INPUT_IDLE_BEATS]
      rw [div_lt_iff₀ hbd]
      rfl

/-- A tick leaves the settings, the lifecycle flags and the input record as
they are. -/
theorem scheduleTick_control (e : Engine) (now : ℚ) :
    (scheduleTick e now).bpmNum = e.bpmNum ∧ (scheduleTick e now).rhythmSel = e.rhythmSel ∧
    (scheduleTick e now).started = e.started ∧ (scheduleTick e now).paused = e.paused ∧
    (scheduleTick e now).hasEverHit = e.hasEverHit ∧
    (scheduleTick e now).lastInputTimeSec = e.lastInputTimeSec := by
  by_cases hrun : e.started = true ∧ e.paused = false
  · rw [scheduleTick_running e now hrun.1 hrun.2]
    obtain ⟨c1, c2, c3, c4, -, -, c7, c8⟩ :=
      scoreDue_sameControl (pruneTimelines (scheduleDue e now) now) now (beatDurSec e)
    obtain ⟨d1, d2, d3, d4, d5, d6, -⟩ := scheduleDue_sameControl_fields e now
    exact ⟨c1.trans d1, c2.trans d2, c3.trans d3, c4.trans d4, c7.trans d5, c8.trans d6⟩
  · rw [scheduleTick_idle e now hrun]
    exact ⟨rfl, rfl, rfl, rfl, rfl, rfl⟩

/-- After a tick that runs, the gate flag is the value of `isTrackingActive`
for the state the tick started from. -/
theorem scheduleTick_trackingActive (e : Engine) (now : ℚ) (hs : e.started = true)
    (hp : e.paused = false) :
    (scheduleTick e now).trackingActive = isTrackingActive e now := by
  rw [scheduleTick_running e now hs hp, scoreDue_trackingActive]
  obtain ⟨d1, -, -, -, d5, d6, -⟩ := scheduleDue_sameControl_fields e now
  exact isTrackingActive_congr d1 d5 d6 now

theorem step_started (e : Engine) (ev : Event) (hev : ev.keepsSession = true) :
    (step e ev).started = e.started := by
  cases ev with
  | tick now => exact (scheduleTick_control e now).2.2.1
  | hit now i =>
    simp only [step, registerHit]
    split <;> rfl
  | pauseToggle =>
    simp only [step, togglePause]
    split <;> rfl
  | rhythmSelect r => rfl
  | bpmInput now v =>
    simp only [step, syncBpmInputs]
    split <;> rfl
  | begin now => simp [Event.keepsSession] at hev
  | stop => simp [Event.keepsSession] at hev

/-- How one event changes the input record: only a hit that takes effect
writes it. -/
theorem step_input (e : Engine) (ev : Event) (hev : ev.keepsSession = true) :
    (step e ev).lastInputTimeSec = (registeredAt e ev).or e.lastInputTimeSec ∧
    (step e ev).hasEverHit = ((registeredAt e ev).isSome || e.hasEverHit) := by
  cases ev with
  | tick now =>
    exact ⟨(scheduleTick_control e now).2.2.2.2.2, (scheduleTick_control e now).2.2.2.2.1⟩
  | hit now i =>
    simp only [step, registerHit, registeredAt]
    cases hs : e.started <;> cases hp : e.paused <;> simp [pruneTimelines]
  | pauseToggle =>
    simp only [step, togglePause, registeredAt]
    split <;> exact ⟨rfl, rfl⟩
  | rhythmSelect r => exact ⟨rfl, rfl⟩
  | bpmInput now v =>
    simp only [step, syncBpmInputs, registeredAt]
    split <;> exact ⟨rfl, rfl⟩
  | begin now => simp [Event.keepsSession] at hev
  | stop => simp [Event.keepsSession] at hev

theorem run_input (evs : List Event) (e : Engine)
    (hevs : ∀ ev ∈ evs, ev.keepsSession = true) :
    (run e evs).started = e.started ∧
    (run e evs).lastInputTimeSec = (lastRegisteredHit e evs).or e.lastInputTimeSec ∧
    (run e evs).hasEverHit = ((lastRegisteredHit e evs).isSome || e.hasEverHit) := by
  induction evs generalizing e with
  | nil => simp [run, lastRegisteredHit]
  | cons ev rest ih =>
    have hev := hevs ev (by simp)
    obtain ⟨i1, i2, i3⟩ := ih (step e ev) (fun ev' h' => hevs ev' (by simp [h']))
    obtain ⟨s1, s2⟩ := step_input e ev hev
    have hrun : run e (ev :: rest) = run (step e ev) rest := rfl
    have hlast : lastRegisteredHit e (ev :: rest) =
        (lastRegisteredHit (step e ev) rest).or (registeredAt e ev) := rfl
    rw [hrun, hlast, i2, i3, s1, s2]
    refine ⟨i1.trans (step_started e ev hev), ?_, ?_⟩
    · cases lastRegisteredHit (step e ev) rest <;> cases registeredAt e ev <;> rfl
    · cases lastRegisteredHit (step e ev) rest <;> cases registeredAt e ev <;> simp

/-- The tracking gate in exact arithmetic. After every tick that runs, the
tracking gate is active if and only if
a hit has been registered since `beginGame` and the clock is less than eight
beat durations (at the BPM read by that tick) past the last registered hit. At
BPM 90 the gate is inactive at every tick 16/3 s or more after the last hit
and active at every tick less than 16/3 s after it. -/
theorem gate_exact_arithmetic (e0 : Engine) (t0 : ℚ) (evs : List Event) (now : ℚ)
    (hevs : ∀ ev ∈ evs, ev.keepsSession = true)
    (hp : (run (beginGame e0 t0) evs).paused = false) :
    ((scheduleTick (run (beginGame e0 t0) evs) now).trackingActive = true ↔
      ∃ t, lastRegisteredHit (beginGame e0 t0) evs = some t ∧
        now - t < 8 * (60 / bpmValue (run (beginGame e0 t0) evs))) ∧
    (bpmValue (run (beginGame e0 t0) evs) = 90 →
      ∀ t, lastRegisteredHit (beginGame e0 t0) evs = some t →
        (16 / 3 ≤ now - t →
          (scheduleTick (run (beginGame e0 t0) evs) now).trackingActive = false) ∧
        (now - t < 16 / 3 →
          (scheduleTick (run (beginGame e0 t0) evs) now).trackingActive = true)) := by
  obtain ⟨hst, hlast, hever⟩ := run_input evs (beginGame e0 t0) hevs
  have hs : (run (beginGame e0 t0) evs).started = true := hst
  have hl : (run (beginGame e0 t0) evs).lastInputTimeSec =
      lastRegisteredHit (beginGame e0 t0) evs := by
    rw [hlast]
    cases lastRegisteredHit (beginGame e0 t0) evs <;> rfl
  have hh : (run (beginGame e0 t0) evs).hasEverHit =
      (lastRegisteredHit (beginGame e0 t0) evs).isSome := by
    rw [hever]
    simp [beginGame]
  have key : (scheduleTick (run (beginGame e0 t0) evs) now).trackingActive = true ↔
      ∃ t, lastRegisteredHit (beginGame e0 t0) evs = some t ∧
        now - t < 8 * (60 / bpmValue (run (beginGame e0 t0) evs)) := by
    rw [scheduleTick_trackingActive _ now hs hp, isTrackingActive_iff, hl, hh]
    constructor
    · rintro ⟨-, t, ht, hlt⟩
      exact ⟨t, ht, hlt⟩
    · rintro ⟨t, ht, hlt⟩
      exact ⟨by simp [ht], t, ht, hlt⟩
  refine ⟨key, ?_⟩
  intro h90 t ht
  rw [h90] at key
  constructor
  · intro hge
    cases hta : (scheduleTick (run (beginGame e0 t0) evs) now).trackingActive with
    | false => rfl
    | true =>
      obtain ⟨t', ht', hlt⟩ := key.1 hta
      rw [ht] at ht'
      have : t' = t := (Option.some.inj ht').symm
      subst this
      norm_num at hlt
      linarith
  · intro hlt
    exact key.2 ⟨t, ht, by norm_num; linarith⟩

/-! ## Idle stretches -/

theorem isTrackingActive_later (e : Engine) (now1 now : ℚ) (h : isTrackingActive e now1 = false)
    (hle : now1 ≤ now) : isTrackingActive e now = false := by
  cases hact : isTrackingActive e now with
  | false => rfl
  | true =>
    obtain ⟨hh, last, hl, hlt⟩ := (isTrackingActive_iff e now).1 hact
    have : isTrackingActive e now1 = true :=
      (isTrackingActive_iff e now1).2 ⟨hh, last, hl, by linarith⟩
    rw [h] at this
    exact absurd this (by simp)

theorem updateGate_inactive (e : Engine) (now : ℚ) :
    (updateGate e now false).scoreState = e.scoreState ∧
    (updateGate e now false).lastEvaluatedBeatIdx = e.lastEvaluatedBeatIdx := by
  unfold updateGate
  cases hta : e.trackingActive <;> simp [hta]

theorem scoreDue_inactive (e : Engine) (now bd : ℚ) (h : isTrackingActive e now = false) :
    (scoreDue e now bd).scoreState = e.scoreState ∧
    (scoreDue e now bd).lastEvaluatedBeatIdx = e.lastEvaluatedBeatIdx := by
  unfold scoreDue
  simp only [h, Bool.not_false, if_true]
  exact updateGate_inactive e now

/-- A tick that finds the gate inactive aggregates nothing and leaves the
scoring cursor where it is. -/
theorem scheduleTick_inactive (e : Engine) (now : ℚ) (h : isTrackingActive e now = false) :
    (scheduleTick e now).scoreState = e.scoreState ∧
    (scheduleTick e now).lastEvaluatedBeatIdx = e.lastEvaluatedBeatIdx ∧
    ((scheduleTick e now).trackingActive = true → e.trackingActive = true) := by
  by_cases hrun : e.started = true ∧ e.paused = false
  · have htr := scheduleTick_trackingActive e now hrun.1 hrun.2
    rw [scheduleTick_running e now hrun.1 hrun.2] at htr ⊢
    obtain ⟨d1, -, -, -, d5, d6, -, -, d9, d10⟩ := scheduleDue_sameControl_fields e now
    have h' : isTrackingActive (pruneTimelines (scheduleDue e now) now) now = false := by
      rw [← h]
      exact isTrackingActive_congr d1 d5 d6 now
    obtain ⟨a1, a2⟩ := scoreDue_inactive _ now (beatDurSec e) h'
    refine ⟨a1.trans d9, a2.trans d10, ?_⟩
    intro hta
    rw [htr, h] at hta
    exact absurd hta (by simp)
  · rw [scheduleTick_idle e now hrun]
    exact ⟨rfl, rfl, id⟩

theorem run_quiet (now1 : ℚ) (evs : List Event) (e : Engine)
    (hidle : isTrackingActive e now1 = false) (hta : e.trackingActive = false)
    (hevs : ∀ ev ∈ evs, ev.quietSince now1 = true) :
    (run e evs).scoreState = e.scoreState ∧
    (run e evs).lastEvaluatedBeatIdx = e.lastEvaluatedBeatIdx ∧
    (run e evs).trackingActive = false := by
  induction evs generalizing e with
  | nil => exact ⟨rfl, rfl, hta⟩
  | cons ev rest ih =>
    have hev := hevs ev (by simp)
    have hrun : run e (ev :: rest) = run (step e ev) rest := rfl
    have hstep : isTrackingActive (step e ev) now1 = false ∧
        (step e ev).trackingActive = false ∧
        (step e ev).scoreState = e.scoreState ∧
        (step e ev).lastEvaluatedBeatIdx = e.lastEvaluatedBeatIdx := by
      cases ev with
      | tick now =>
        have hle : now1 ≤ now := by simpa [Event.quietSince] using hev
        obtain ⟨c1, -, -, -, c5, c6⟩ := scheduleTick_control e now
        obtain ⟨a1, a2, a3⟩ := scheduleTick_inactive e now (isTrackingActive_later e now1 now hidle hle)
        refine ⟨?_, ?_, a1, a2⟩
        · rw [← hidle]
          exact isTrackingActive_congr c1 c5 c6 now1
        · cases hx : (step e (.tick now)).trackingActive with
          | false => rfl
          | true =>
            have := a3 hx
            rw [hta] at this
            exact absurd this (by simp)
      | pauseToggle =>
        simp only [step, togglePause]
        split
        · exact ⟨hidle, hta, rfl, rfl⟩
        · exact ⟨hidle, hta, rfl, rfl⟩
      | rhythmSelect r => exact ⟨hidle, hta, rfl, rfl⟩
      | hit now i => simp [Event.quietSince] at hev
      | begin now => simp [Event.quietSince] at hev
      | stop => simp [Event.quietSince] at hev
      | bpmInput now v => simp [Event.quietSince] at hev
    obtain ⟨h1, h2, h3, h4⟩ := hstep
    obtain ⟨i1, i2, i3⟩ := ih (step e ev) h1 h2 (fun ev' h' => hevs ev' (by simp [h']))
    rw [hrun]
    exact ⟨i1.trans h3, i2.trans h4, i3⟩

/-- C10. At constant BPM, once a tick at clock value `now1` has found the gate
inactive, the session stats and the scoring cursor stay as they were before
that tick through every later tick (at `now1` or after) that comes before the
next hit, whatever beats those ticks schedule; pausing, resuming and changing
the rhythm in between make no difference, and the gate stays inactive. -/
theorem idle_ticks_leave_stats_alone (e : Engine) (now1 : ℚ) (evs : List Event)
    (hs : e.started = true) (hp : e.paused = false)
    (hidle : (scheduleTick e now1).trackingActive = false)
    (hevs : ∀ ev ∈ evs, ev.quietSince now1 = true) :
    (run (scheduleTick e now1) evs).scoreState = e.scoreState ∧
    (run (scheduleTick e now1) evs).lastEvaluatedBeatIdx = e.lastEvaluatedBeatIdx ∧
    (scheduleTick e now1).scoreState = e.scoreState ∧
    (scheduleTick e now1).lastEvaluatedBeatIdx = e.lastEvaluatedBeatIdx ∧
    (run (scheduleTick e now1) evs).trackingActive = false := by
  have h0 : isTrackingActive e now1 = false := by
    rw [← scheduleTick_trackingActive e now1 hs hp]
    exact hidle
  obtain ⟨a1, a2, -⟩ := scheduleTick_inactive e now1 h0
  obtain ⟨c1, -, -, -, c5, c6⟩ := scheduleTick_control e now1
  have h1 : isTrackingActive (scheduleTick e now1) now1 = false := by
    rw [← h0]
    exact isTrackingActive_congr c1 c5 c6 now1
  obtain ⟨i1, i2, i3⟩ := run_quiet now1 evs (scheduleTick e now1) h1 hidle hevs
  exact ⟨i1.trans a1, i2.trans a2, a1, a2, i3⟩

/-! ## Aggregation -/

theorem applyResult_beats (s : ScoreState) (res : ScoreResult) :
    (applyResult s res).beats = s.beats + 1 := rfl

theorem foldl_evaluateBeat_beats (eligible l : List Beat) (e : Engine) :
    (l.foldl (evaluateBeat eligible) e).scoreState.beats =
      e.scoreState.beats + (newlyEvaluated e.lastEvaluatedBeatIdx l).length := by
  induction l generalizing e with
  | nil => simp [newlyEvaluated]
  | cons b rest ih =>
    have hne : newlyEvaluated e.lastEvaluatedBeatIdx (b :: rest) =
        if b.idx ≤ e.lastEvaluatedBeatIdx then newlyEvaluated e.lastEvaluatedBeatIdx rest
        else b.idx :: newlyEvaluated b.idx rest := rfl
    simp only [List.foldl_cons]
    rw [ih, hne]
    by_cases hb : b.idx ≤ e.lastEvaluatedBeatIdx
    · simp [evaluateBeat, hb]
    · simp only [evaluateBeat, hb, if_false, applyResult_beats, List.length_cons]
      omega

/-- The beat counter of the session stats grows in a tick by the number of
beat indices that the tick aggregates. -/
theorem scheduleTick_beats (e : Engine) (now : ℚ) :
    (scheduleTick e now).scoreState.beats =
      e.scoreState.beats + (aggregatedBy e now).length := by
  unfold aggregatedBy
  by_cases hrun : e.started = true ∧ e.paused = false
  · rw [scheduleTick_running e now hrun.1 hrun.2]
    have hss : (pruneTimelines (scheduleDue e now) now).scoreState = e.scoreState :=
      (scheduleDue_sameControl_fields e now).2.2.2.2.2.2.2.2.1
    simp only [hrun.1, hrun.2, Bool.not_true, Bool.or_false, Bool.false_eq_true, if_false]
    cases hact : isTrackingActive (pruneTimelines (scheduleDue e now) now) now with
    | false =>
      rw [(scoreDue_inactive _ now (beatDurSec e) hact).1, hss]
      simp
    | true =>
      have hg : (updateGate (pruneTimelines (scheduleDue e now) now) now true).scoreState =
          e.scoreState := by
        rw [← hss]
        unfold updateGate
        cases hta : (pruneTimelines (scheduleDue e now) now).trackingActive <;>
          simp [hta, onTrackingResume, pruneTimelines]
      unfold scoreDue
      simp only [hact, Bool.not_true, Bool.false_eq_true, if_false]
      split
      · rename_i hemp
        rw [hg, List.isEmpty_iff.1 hemp]
        simp [newlyEvaluated]
      · rw [foldl_evaluateBeat_beats, hg]
  · rw [scheduleTick_idle e now hrun]
    have : (!e.started || e.paused) = true := by
      cases hs : e.started <;> cases hp : e.paused <;> simp_all
    simp [this]

/-- C8, where the code departs from it. In the session `sampleSession` followed
by `tempoDropEvents`, the tick at 4.9 s aggregates beat index 1; after the gate
has gone idle and the tempo has been lowered from BPM 120 to BPM 60, the tick
at 5.03 s resumes tracking and moves the scoring cursor back from 1 to 0, and
the tick at 5.1 s aggregates beat index 1 a second time: the stats count two
beats although one beat index only was ever evaluated. -/
theorem beat_index_aggregated_twice :
    aggregatedBy
        (run Engine.init
          [.bpmInput 0 (some 120), .begin 0, .hit 1 .K, .bpmInput 4 (some 120),
           .tick (445 / 100)]) (49 / 10) = [1] ∧
    sampleSession.scoreState.beats = 1 ∧
    sampleSession.lastEvaluatedBeatIdx = 1 ∧
    (run sampleSession (tempoDropEvents.take 1)).trackingActive = false ∧
    (run sampleSession (tempoDropEvents.take 3)).lastEvaluatedBeatIdx = 0 ∧
    aggregatedBy (run sampleSession (tempoDropEvents.take 3)) (51 / 10) = [1] ∧
    (run sampleSession tempoDropEvents).scoreState.beats = 2 ∧
    (run sampleSession tempoDropEvents).beatTimeline.map (fun b => b.idx) = [0, 1, 2] := by
  decide!

/-- A worked instance: `sampleSession` (one beat aggregated) with the idle tick
at 5.02 s, followed by ticks at 6 s and 10 s around a pause, a resume and a
change of rhythm. -/
theorem idle_ticks_leave_stats_alone_witness :
    (run (scheduleTick sampleSession (502 / 100))
        [.tick 6, .pauseToggle, .pauseToggle, .rhythmSelect .r4, .tick 10]).scoreState =
      sampleSession.scoreState ∧
    (run (scheduleTick sampleSession (502 / 100))
        [.tick 6, .pauseToggle, .pauseToggle, .rhythmSelect .r4, .tick 10]).lastEvaluatedBeatIdx =
      sampleSession.lastEvaluatedBeatIdx ∧
    (scheduleTick sampleSession (502 / 100)).scoreState = sampleSession.scoreState ∧
    (scheduleTick sampleSession (502 / 100)).lastEvaluatedBeatIdx =
      sampleSession.lastEvaluatedBeatIdx ∧
    (run (scheduleTick sampleSession (502 / 100))
        [.tick 6, .pauseToggle, .pauseToggle, .rhythmSelect .r4, .tick 10]).trackingActive =
      false :=
  idle_ticks_leave_stats_alone sampleSession (502 / 100)
    [.tick 6, .pauseToggle, .pauseToggle, .rhythmSelect .r4, .tick 10]
    (by decide!) (by decide!) (by decide!) (by decide!)

/-! ## The scheduling loop, exactly -/

/-- The beats appended by the scheduling loop are those whose time was below
the horizon when the loop condition was tested. -/
theorem scheduleLoop_beats_lt (bd : ℚ) (rhythm : List (Option Instrument)) (horizon : ℚ)
    (fuel : Nat) (e : Engine) :
    ∃ n : Nat,
      scheduleLoop bd rhythm horizon fuel e =
        { e with
          beatTimeline := e.beatTimeline ++
            beatsFrom rhythm bd e.globalBeatIndex e.nextBeatTimeSec n,
          globalBeatIndex := e.globalBeatIndex + n,
          nextBeatTimeSec := e.nextBeatTimeSec + n * bd } ∧
      ∀ m : Nat, m < n → e.nextBeatTimeSec + m * bd < horizon := by
  induction fuel generalizing e with
  | zero => exact ⟨0, by simp [scheduleLoop, beatsFrom], by simp⟩
  | succ fuel ih =>
    unfold scheduleLoop
    split
    · rename_i hlt
      obtain ⟨n, hn, hm⟩ := ih (scheduleBeat bd rhythm e)
      refine ⟨n + 1, ?_, ?_⟩
      · rw [hn, beatsFrom_succ]
        simp only [scheduleBeat, List.append_assoc, List.singleton_append,
          Nat.cast_add, Nat.cast_one]
        congr 1
        · ring
        · ring
      · intro m hmn
        cases m with
        | zero => simpa using hlt
        | succ m =>
          have := hm m (by omega)
          simp only [scheduleBeat] at this
          push_cast
          linarith
    · exact ⟨0, by simp [beatsFrom], by simp⟩

/-- Once the loop has left its condition false, more iterations change
nothing. -/
theorem scheduleLoop_more_fuel (bd : ℚ) (rhythm : List (Option Instrument)) (horizon : ℚ)
    (fuel k : Nat) (e : Engine)
    (hexit : ¬ (scheduleLoop bd rhythm horizon fuel e).nextBeatTimeSec < horizon) :
    scheduleLoop bd rhythm horizon (fuel + k) e = scheduleLoop bd rhythm horizon fuel e := by
  induction fuel generalizing e with
  | zero =>
    simp only [scheduleLoop] at hexit
    cases k with
    | zero => rfl
    | succ k =>
      rw [Nat.zero_add]
      simp [scheduleLoop, hexit]
  | succ fuel ih =>
    have hk : fuel + 1 + k = (fuel + k) + 1 := by omega
    rw [hk]
    unfold scheduleLoop
    unfold scheduleLoop at hexit
    by_cases hlt : e.nextBeatTimeSec < horizon
    · simp only [hlt, if_true] at hexit ⊢
      exact ih _ hexit
    · simp only [hlt, if_false]

/-- The scheduling loop of a tick, in full: the beats it appends, the counter
and the anchor afterwards, and the number of iterations as the least `n` with
`a + n * bd` at or beyond the horizon. -/
theorem scheduleDue_exact (e : Engine) (now : ℚ) :
    ∃ n : Nat,
      scheduledBy e now =
        beatsFrom (selectedRhythm e) (beatDurSec e) e.globalBeatIndex e.nextBeatTimeSec n ∧
      scheduleDue e now =
        { e with
          beatTimeline := e.beatTimeline ++
            beatsFrom (selectedRhythm e) (beatDurSec e) e.globalBeatIndex e.nextBeatTimeSec n,
          globalBeatIndex := e.globalBeatIndex + n,
          nextBeatTimeSec := e.nextBeatTimeSec + n * beatDurSec e } ∧
      now + SCHED_AHEAD_SEC ≤ e.nextBeatTimeSec + n * beatDurSec e ∧
      ∀ m : Nat, m < n → e.nextBeatTimeSec + m * beatDurSec e < now + SCHED_AHEAD_SEC := by
  obtain ⟨n, hn, hm⟩ := scheduleLoop_beats_lt (beatDurSec e) (selectedRhythm e)
    (now + SCHED_AHEAD_SEC) (scheduleFuel (beatDurSec e) (now + SCHED_AHEAD_SEC)
      e.nextBeatTimeSec) e
  have hdue : scheduleDue e now =
      { e with
        beatTimeline := e.beatTimeline ++
          beatsFrom (selectedRhythm e) (beatDurSec e) e.globalBeatIndex e.nextBeatTimeSec n,
        globalBeatIndex := e.globalBeatIndex + n,
        nextBeatTimeSec := e.nextBeatTimeSec + n * beatDurSec e } := hn
  refine ⟨n, ?_, hdue, ?_, hm⟩
  · unfold scheduledBy
    rw [hdue]
    simp
  · have := scheduleDue_exit e now
    rw [hdue] at this
    exact this

theorem scheduleDue_any_fuel (e : Engine) (now : ℚ) (k : Nat) :
    scheduleLoop (beatDurSec e) (selectedRhythm e) (now + SCHED_AHEAD_SEC)
        (scheduleFuel (beatDurSec e) (now + SCHED_AHEAD_SEC) e.nextBeatTimeSec + k) e =
      scheduleDue e now :=
  scheduleLoop_more_fuel _ _ _ _ k e (not_lt.2 (scheduleDue_exit e now))

theorem tmod_four (i : Int) : Int.tmod (Int.tmod i 4 + 4) 4 = i % 4 := by
  cases i with
  | ofNat n =>
    have h1 : Int.tmod (Int.ofNat n) 4 = ((n % 4 : Nat) : Int) := rfl
    rw [h1, Int.tmod_eq_emod (by omega) (by omega)]
    simp only [Int.ofNat_eq_coe]
    omega
  | negSucc n =>
    have h1 : Int.tmod (Int.negSucc n) 4 = -(((n + 1) % 4 : Nat) : Int) := rfl
    rw [h1, Int.tmod_eq_emod (by omega) (by omega), Int.negSucc_eq]
    omega

/-- The position in the bar is the index modulo 4. -/
theorem inBarIdx_eq (i : Int) : inBarIdx i = (i % 4).toNat := by
  unfold inBarIdx
  rw [tmod_four]

/-! ## The beat timeline only grows at the end and shrinks at the front -/

theorem pruneTimelines_suffix (e : Engine) (now : ℚ) :
    (pruneTimelines e now).beatTimeline <:+ e.beatTimeline ∧
    (pruneTimelines e now).hitTimeline <:+ e.hitTimeline :=
  ⟨List.dropWhile_suffix _, List.dropWhile_suffix _⟩

theorem onTrackingResume_beatTimeline (e : Engine) (now : ℚ) :
    (onTrackingResume e now).beatTimeline <:+ e.beatTimeline ∧
    (onTrackingResume e now).hitTimeline = [] := by
  constructor
  · exact List.dropWhile_suffix _
  · simp [onTrackingResume, pruneTimelines]

theorem updateGate_timelines (e : Engine) (now : ℚ) (activeNow : Bool) :
    (updateGate e now activeNow).beatTimeline <:+ e.beatTimeline ∧
    (updateGate e now activeNow).hitTimeline <:+ e.hitTimeline := by
  unfold updateGate
  simp only
  split_ifs
  · exact ⟨(onTrackingResume_beatTimeline e now).1, by
      rw [show ({ onTrackingResume e now with trackingActive := false } : Engine).hitTimeline =
        (onTrackingResume e now).hitTimeline from rfl, (onTrackingResume_beatTimeline e now).2]
      exact List.nil_suffix⟩
  · exact ⟨(onTrackingResume_beatTimeline e now).1, by
      rw [(onTrackingResume_beatTimeline e now).2]
      exact List.nil_suffix⟩
  · exact ⟨List.suffix_refl _, List.suffix_refl _⟩
  · exact ⟨List.suffix_refl _, List.suffix_refl _⟩

theorem scoreDue_timelines (e : Engine) (now bd : ℚ) :
    (scoreDue e now bd).beatTimeline <:+ e.beatTimeline ∧
    (scoreDue e now bd).hitTimeline <:+ e.hitTimeline := by
  unfold scoreDue
  simp only
  split
  · exact updateGate_timelines _ _ _
  · split
    · exact updateGate_timelines _ _ _
    · obtain ⟨-, h2, h3⟩ := foldl_evaluateBeat_timelines
        ((updateGate e now (isTrackingActive e now)).beatTimeline.filter
          (fun b => decide (b.tSec ≤ now - LIVE_EVAL_DELAY_BEATS * bd)))
        ((updateGate e now (isTrackingActive e now)).beatTimeline.filter
          (fun b => decide (b.tSec ≤ now - LIVE_EVAL_DELAY_BEATS * bd)))
        (updateGate e now (isTrackingActive e now))
      rw [h2, h3]
      exact updateGate_timelines _ _ _

/-- The beat timeline after a tick is a suffix of the timeline before followed
by the beats the tick has scheduled. -/
theorem scheduleTick_beatTimeline (e : Engine) (now : ℚ) (hs : e.started = true)
    (hp : e.paused = false) :
    (scheduleTick e now).beatTimeline <:+ e.beatTimeline ++ scheduledBy e now := by
  rw [scheduleTick_running e now hs hp]
  refine (scoreDue_timelines _ _ _).1.trans ?_
  refine (pruneTimelines_suffix _ _).1.trans ?_
  rw [(scheduleDue_frame e now).2]

/-- What the handler of an event does to the beat timeline: it drops entries at
the front and appends the newly scheduled beats at the end. -/
theorem step_beatTimeline (e : Engine) (ev : Event) :
    (step e ev).beatTimeline <:+ e.beatTimeline ++ appendedBy e ev := by
  cases ev with
  | tick now =>
    by_cases hrun : e.started = true ∧ e.paused = false
    · have : appendedBy e (.tick now) = scheduledBy e now := by
        simp [appendedBy, hrun.1, hrun.2]
      rw [this]
      exact scheduleTick_beatTimeline e now hrun.1 hrun.2
    · have hstep : step e (.tick now) = e := scheduleTick_idle e now hrun
      rw [hstep, appendedBy_idle e now hrun, List.append_nil]
  | hit now i =>
    simp only [step, registerHit, appendedBy, List.append_nil]
    split
    · exact List.suffix_refl _
    · exact List.dropWhile_suffix _
  | begin now => exact List.nil_suffix
  | stop =>
    simp only [step, appendedBy, List.append_nil]
    split
    · exact List.nil_suffix
    · exact List.suffix_refl _
  | pauseToggle =>
    simp only [step, togglePause, appendedBy, List.append_nil]
    split <;> exact List.suffix_refl _
  | bpmInput now v =>
    simp only [step, syncBpmInputs, appendedBy, List.append_nil]
    split <;> exact List.suffix_refl _
  | rhythmSelect r => simp [step, appendedBy]

/-! ## Order of the beat timeline -/

theorem beatsFrom_ordered (rhythm : List (Option Instrument)) (bd : ℚ) (hbd : 0 < bd) (g : Int)
    (a : ℚ) (n : Nat) :
    (beatsFrom rhythm bd g a n).Pairwise (fun x y => x.idx < y.idx ∧ x.tSec < y.tSec) := by
  induction n generalizing g a with
  | zero => simp [beatsFrom]
  | succ n ih =>
    rw [beatsFrom_succ]
    refine List.pairwise_cons.2 ⟨?_, ih _ _⟩
    intro b hb
    obtain ⟨k, -, hidx, ht, -⟩ := mem_beatsFrom hb
    simp only
    constructor
    · omega
    · rw [ht]
      have : 0 ≤ (k : ℚ) * bd := by positivity
      linarith

theorem timelineOrdered_of_suffix {e e' : Engine} (h : TimelineOrdered e)
    (hsuf : e'.beatTimeline <:+ e.beatTimeline) (hg : e'.globalBeatIndex = e.globalBeatIndex)
    (hn : e.nextBeatTimeSec ≤ e'.nextBeatTimeSec) : TimelineOrdered e' := by
  refine ⟨h.1.sublist hsuf.sublist, ?_⟩
  intro b hb
  obtain ⟨h1, h2⟩ := h.2 b (hsuf.subset hb)
  exact ⟨by rw [hg]; exact h1, lt_of_lt_of_le h2 hn⟩

theorem scheduleDue_ordered (e : Engine) (now : ℚ) (h : TimelineOrdered e) :
    TimelineOrdered (scheduleDue e now) := by
  obtain ⟨n, -, hdue, -, -⟩ := scheduleDue_exact e now
  have hbd := beatDurSec_pos e
  rw [hdue]
  refine ⟨?_, ?_⟩
  · simp only
    refine List.pairwise_append.2 ⟨h.1, beatsFrom_ordered _ _ hbd _ _ _, ?_⟩
    intro a ha b hb
    obtain ⟨k, -, hidx, ht, -⟩ := mem_beatsFrom hb
    obtain ⟨h1, h2⟩ := h.2 a ha
    have : 0 ≤ (k : ℚ) * beatDurSec e := by positivity
    exact ⟨by omega, by rw [ht]; linarith⟩
  · intro b hb
    simp only at hb ⊢
    rcases List.mem_append.1 hb with hb | hb
    · obtain ⟨h1, h2⟩ := h.2 b hb
      have : 0 ≤ (n : ℚ) * beatDurSec e := by positivity
      exact ⟨by omega, by linarith⟩
    · obtain ⟨k, hk, hidx, ht, -⟩ := mem_beatsFrom hb
      have hkn : (k : ℚ) < n := by exact_mod_cast hk
      have : (k : ℚ) * beatDurSec e < n * beatDurSec e := by
        exact mul_lt_mul_of_pos_right hkn hbd
      exact ⟨by omega, by rw [ht]; linarith⟩

/-- Every handler keeps the beat timeline in scheduling order. -/
theorem step_ordered (e : Engine) (ev : Event) (h : TimelineOrdered e) :
    TimelineOrdered (step e ev) := by
  cases ev with
  | tick now =>
    by_cases hrun : e.started = true ∧ e.paused = false
    · have hstep : step e (.tick now) =
          scoreDue (pruneTimelines (scheduleDue e now) now) now (beatDurSec e) :=
        scheduleTick_running e now hrun.1 hrun.2
      rw [hstep]
      obtain ⟨-, -, -, -, c5, c6, -, -⟩ :=
        scoreDue_sameControl (pruneTimelines (scheduleDue e now) now) now (beatDurSec e)
      refine timelineOrdered_of_suffix (scheduleDue_ordered e now h)
        ((scoreDue_timelines _ _ _).1.trans (pruneTimelines_suffix _ _).1) c6 (le_of_eq c5.symm)
    · have hstep : step e (.tick now) = e := scheduleTick_idle e now hrun
      rw [hstep]
      exact h
  | hit now i =>
    simp only [step, registerHit]
    split
    · exact h
    · exact timelineOrdered_of_suffix h (List.dropWhile_suffix _) rfl (le_refl _)
  | begin now => exact ⟨by simp [step, beginGame], by simp [step, beginGame]⟩
  | stop =>
    simp only [step]
    split
    · exact ⟨by simp [resetStateToIdle], by simp [resetStateToIdle]⟩
    · exact h
  | pauseToggle =>
    simp only [step, togglePause]
    split
    · exact h
    · exact h
  | bpmInput now v =>
    simp only [step, syncBpmInputs]
    split
    · exact timelineOrdered_of_suffix h (List.suffix_refl _) rfl (le_max_left _ _)
    · exact h
  | rhythmSelect r => exact h

theorem init_ordered : TimelineOrdered Engine.init :=
  ⟨by simp [Engine.init], by simp [Engine.init]⟩

theorem run_ordered (evs : List Event) (e : Engine) (h : TimelineOrdered e) :
    TimelineOrdered (run e evs) := by
  induction evs generalizing e with
  | nil => exact h
  | cons ev rest ih => exact ih (step e ev) (step_ordered e ev h)

theorem beatDurSec_bounds (e : Engine) : 3 / 7 ≤ beatDurSec e ∧ beatDurSec e ≤ 3 / 2 := by
  obtain ⟨h1, h2⟩ := bpmValue_bounds e
  unfold beatDurSec
  constructor
  · rw [le_div_iff₀ (by linarith)]
    linarith
  · rw [div_le_iff₀ (by linarith)]
    linarith

theorem expectedAt_eq (rhythm : List (Option Instrument)) (i : Int) :
    expectedAt rhythm i = (rhythm[(i % 4).toNat]?).join := by
  unfold expectedAt
  rw [inBarIdx_eq, List.get?_eq_getElem?]
  cases rhythm[(i % 4).toNat]? <;> rfl

theorem scheduleTick_anchor (e : Engine) (now : ℚ) (hs : e.started = true)
    (hp : e.paused = false) :
    (scheduleTick e now).globalBeatIndex = (scheduleDue e now).globalBeatIndex ∧
    (scheduleTick e now).nextBeatTimeSec = (scheduleDue e now).nextBeatTimeSec := by
  rw [scheduleTick_running e now hs hp]
  obtain ⟨-, -, -, -, c5, c6, -, -⟩ :=
    scoreDue_sameControl (pruneTimelines (scheduleDue e now) now) now (beatDurSec e)
  exact ⟨c6, c5⟩

/-- The scheduling loop in exact arithmetic. In a started, unpaused state with
anchor `a`, counter `g` and period `bd = 60 / BPM` (at least 3/7 s), the
scheduling loop of a tick at clock value `now` terminates and appends exactly
the beats with index `g + k`, time
`a + k * bd` and expected instrument `pattern[(g + k) mod 4]` for `k < n`, in
that order, where `n` is the least natural number with
`a + n * bd ≥ now + 0.14`; afterwards the anchor is `a + n * bd` and the counter
is `g + n`. Position 0 of the bar is where the index is 0 modulo 4, and in
every reachable state the beat indices of the timeline strictly increase. -/
theorem scheduling_loop_exact_arithmetic (e : Engine) (now : ℚ) (hs : e.started = true)
    (hp : e.paused = false) :
    (∃ n : Nat,
      appendedBy e (.tick now) =
        (List.range n).map (fun (k : Nat) =>
          ({ idx := e.globalBeatIndex + (k : Int),
             tSec := e.nextBeatTimeSec + (k : ℚ) * (60 / bpmValue e),
             expected :=
               ((RHYTHMS e.rhythmSel)[((e.globalBeatIndex + (k : Int)) % 4).toNat]?).join } :
            Beat)) ∧
      (scheduleDue e now).beatTimeline = e.beatTimeline ++ appendedBy e (.tick now) ∧
      now + 14 / 100 ≤ e.nextBeatTimeSec + n * (60 / bpmValue e) ∧
      (∀ m : Nat, m < n → e.nextBeatTimeSec + m * (60 / bpmValue e) < now + 14 / 100) ∧
      (scheduleTick e now).nextBeatTimeSec = e.nextBeatTimeSec + n * (60 / bpmValue e) ∧
      (scheduleTick e now).globalBeatIndex = e.globalBeatIndex + n) ∧
    (∀ k : Nat,
      scheduleLoop (beatDurSec e) (selectedRhythm e) (now + SCHED_AHEAD_SEC)
          (scheduleFuel (beatDurSec e) (now + SCHED_AHEAD_SEC) e.nextBeatTimeSec + k) e =
        scheduleDue e now) ∧
    3 / 7 ≤ 60 / bpmValue e ∧
    (∀ i : Int, inBarIdx i = 0 ↔ i % 4 = 0) ∧
    (∀ evs : List Event,
      (run Engine.init evs).beatTimeline.Pairwise (fun a b => a.idx < b.idx)) := by
  refine ⟨?_, scheduleDue_any_fuel e now, (beatDurSec_bounds e).1, ?_, ?_⟩
  · obtain ⟨n, hsched, hdue, hexit, hlt⟩ := scheduleDue_exact e now
    obtain ⟨a1, a2⟩ := scheduleTick_anchor e now hs hp
    have happ : appendedBy e (.tick now) = scheduledBy e now := by
      simp [appendedBy, hs, hp]
    refine ⟨n, ?_, ?_, hexit, hlt, ?_, ?_⟩
    · rw [happ, hsched]
      unfold beatsFrom
      apply List.map_congr_left
      intro k _
      rw [expectedAt_eq]
      rfl
    · rw [happ, (scheduleDue_frame e now).2]
    · rw [a2, hdue]
      rfl
    · rw [a1, hdue]
  · intro i
    rw [inBarIdx_eq]
    omega
  · intro evs
    exact (run_ordered evs Engine.init init_ordered).1.imp (fun h => h.1)

/-- C16. No handler alters a beat that is in the timeline: after every event
the beat timeline is a contiguous suffix of the timeline before followed by the
beats the event has appended, so entries are only dropped at the front and
added at the end. A BPM input leaves the timeline as it is, and the beats a
tick appends are spaced by the period `60 / BPM` of the BPM in force at that
tick, so a new period shows only in beats appended after the change. -/
theorem beats_never_altered (e : Engine) (ev : Event) :
    (step e ev).beatTimeline <:+ e.beatTimeline ++ appendedBy e ev ∧
    (∀ now v, (step e (.bpmInput now v)).beatTimeline = e.beatTimeline ∧
      appendedBy e (.bpmInput now v) = []) ∧
    (∀ now i, appendedBy e (.hit now i) = []) ∧
    (∀ now, ∃ n : Nat,
      scheduledBy e now =
        beatsFrom (selectedRhythm e) (60 / bpmValue e) e.globalBeatIndex
          e.nextBeatTimeSec n) := by
  refine ⟨step_beatTimeline e ev, ?_, fun _ _ => rfl, ?_⟩
  · intro now v
    refine ⟨?_, rfl⟩
    simp only [step, syncBpmInputs]
    split <;> rfl
  · intro now
    obtain ⟨n, hsched, -⟩ := scheduleDue_exact e now
    exact ⟨n, hsched⟩

/-! ## Pruning -/

theorem dropWhile_eq_filter_of_sorted {α : Type} (t : α → ℚ) (c : ℚ) (l : List α)
    (hl : l.Pairwise (fun a b => t a ≤ t b)) :
    l.dropWhile (fun a => decide (t a < c)) = l.filter (fun a => decide (c ≤ t a)) := by
  induction l with
  | nil => rfl
  | cons a rest ih =>
    obtain ⟨ha, hrest⟩ := List.pairwise_cons.1 hl
    by_cases hlt : t a < c
    · have hn : ¬ c ≤ t a := not_le.2 hlt
      simp only [List.dropWhile_cons, List.filter_cons, hlt, hn, decide_True, decide_False,
        if_true, Bool.false_eq_true, if_false]
      exact ih hrest
    · have hle : c ≤ t a := not_lt.1 hlt
      have hall : rest.filter (fun a => decide (c ≤ t a)) = rest := by
        rw [List.filter_eq_self]
        intro b hb
        simp only [decide_eq_true_eq]
        exact le_trans hle (ha b hb)
      simp only [List.dropWhile_cons, List.filter_cons, hlt, hle, decide_True, decide_False,
        if_true, Bool.false_eq_true, if_false, hall]

theorem step_hitTimeline (e : Engine) (ev : Event) :
    (step e ev).hitTimeline <:+ e.hitTimeline ++ hitsAddedBy e ev := by
  cases ev with
  | tick now =>
    simp only [hitsAddedBy, List.append_nil]
    by_cases hrun : e.started = true ∧ e.paused = false
    · have hstep : step e (.tick now) =
          scoreDue (pruneTimelines (scheduleDue e now) now) now (beatDurSec e) :=
        scheduleTick_running e now hrun.1 hrun.2
      rw [hstep]
      refine (scoreDue_timelines _ _ _).2.trans ?_
      refine (pruneTimelines_suffix _ _).2.trans ?_
      rw [(scheduleDue_sameControl_fields e now).2.2.2.2.2.2.2.1]
    · have hstep : step e (.tick now) = e := scheduleTick_idle e now hrun
      rw [hstep]
  | hit now i =>
    simp only [step, registerHit, hitsAddedBy]
    split
    · simp
    · exact List.dropWhile_suffix _
  | begin now => exact List.nil_suffix
  | stop =>
    simp only [step, hitsAddedBy, List.append_nil]
    split
    · exact List.nil_suffix
    · exact List.suffix_refl _
  | pauseToggle =>
    simp only [step, togglePause, hitsAddedBy, List.append_nil]
    split <;> exact List.suffix_refl _
  | bpmInput now v =>
    simp only [step, syncBpmInputs, hitsAddedBy, List.append_nil]
    split <;> exact List.suffix_refl _
  | rhythmSelect r => simp [step, hitsAddedBy]

theorem mem_hitsAddedBy {e : Engine} {ev : Event} {h : Hit} (hh : h ∈ hitsAddedBy e ev) :
    ev.clock = some h.tSec := by
  cases ev with
  | hit now i =>
    simp only [hitsAddedBy] at hh
    split at hh
    · simp at hh
    · simp only [List.mem_singleton] at hh
      rw [hh]
      rfl
  | tick now => simp [hitsAddedBy] at hh
  | begin now => simp [hitsAddedBy] at hh
  | stop => simp [hitsAddedBy] at hh
  | pauseToggle => simp [hitsAddedBy] at hh
  | bpmInput now v => simp [hitsAddedBy] at hh
  | rhythmSelect r => simp [hitsAddedBy] at hh

/-- With a clock that does not run backwards, the hit timeline stays in time
order. -/
theorem run_hits_sorted (evs : List Event) (e : Engine) (hclock : clockNondecreasing evs)
    (hs : e.hitTimeline.Pairwise (fun a b => a.tSec ≤ b.tSec))
    (hb : ∀ h ∈ e.hitTimeline, ∀ t ∈ evs.filterMap Event.clock, h.tSec ≤ t) :
    (run e evs).hitTimeline.Pairwise (fun a b => a.tSec ≤ b.tSec) := by
  induction evs generalizing e with
  | nil => exact hs
  | cons ev rest ih =>
    have hrun : run e (ev :: rest) = run (step e ev) rest := rfl
    rw [hrun]
    have hsuf := step_hitTimeline e ev
    have hclock' : clockNondecreasing rest := by
      unfold clockNondecreasing at hclock ⊢
      cases hc : ev.clock with
      | none => simpa [List.filterMap_cons, hc] using hclock
      | some t =>
        rw [List.filterMap_cons, hc] at hclock
        exact (List.pairwise_cons.1 hclock).2
    have hsub : ∀ t ∈ rest.filterMap Event.clock, t ∈ (ev :: rest).filterMap Event.clock := by
      intro t ht
      rw [List.filterMap_cons]
      cases hc : ev.clock with
      | none => simpa using ht
      | some s => simp only [List.mem_cons]; exact Or.inr ht
    apply ih (step e ev) hclock'
    · refine List.Pairwise.sublist hsuf.sublist ?_
      refine List.pairwise_append.2 ⟨hs, ?_, ?_⟩
      · cases ev <;> simp [hitsAddedBy]
        split <;> simp
      · intro a ha b hbm
        have hc := mem_hitsAddedBy hbm
        refine hb a ha b.tSec ?_
        rw [List.filterMap_cons, hc]
        simp
    · intro h hh t ht
      rcases List.mem_append.1 (hsuf.subset hh) with h1 | h1
      · exact hb h h1 t (hsub t ht)
      · have hc := mem_hitsAddedBy h1
        unfold clockNondecreasing at hclock
        rw [List.filterMap_cons, hc] at hclock
        exact (List.pairwise_cons.1 hclock).1 t ht

/-- C13. In every state reached with a clock that does not run backwards, both
timelines are in time order, and `pruneTimelines(now)` keeps exactly the
entries with time `≥ now - 12 * 60 / BPM`, in their order: no entry older than
that is left, every entry that is not older is still there, and what is left
is the tail end of the timeline before. -/
theorem prune_keeps_exactly_the_recent (evs : List Event) (hclock : clockNondecreasing evs)
    (now : ℚ) :
    ((run Engine.init evs).beatTimeline.Pairwise (fun a b => a.tSec ≤ b.tSec) ∧
      (run Engine.init evs).hitTimeline.Pairwise (fun a b => a.tSec ≤ b.tSec)) ∧
    ((pruneTimelines (run Engine.init evs) now).beatTimeline =
        (run Engine.init evs).beatTimeline.filter
          (fun b => decide (now - 12 * (60 / bpmValue (run Engine.init evs)) ≤ b.tSec)) ∧
      (pruneTimelines (run Engine.init evs) now).hitTimeline =
        (run Engine.init evs).hitTimeline.filter
          (fun h => decide (now - 12 * (60 / bpmValue (run Engine.init evs)) ≤ h.tSec))) ∧
    ((∀ b ∈ (pruneTimelines (run Engine.init evs) now).beatTimeline,
        ¬ b.tSec < now - 12 * (60 / bpmValue (run Engine.init evs))) ∧
      (∀ h ∈ (pruneTimelines (run Engine.init evs) now).hitTimeline,
        ¬ h.tSec < now - 12 * (60 / bpmValue (run Engine.init evs)))) ∧
    ((∀ b ∈ (run Engine.init evs).beatTimeline,
        now - 12 * (60 / bpmValue (run Engine.init evs)) ≤ b.tSec →
          b ∈ (pruneTimelines (run Engine.init evs) now).beatTimeline) ∧
      (∀ h ∈ (run Engine.init evs).hitTimeline,
        now - 12 * (60 / bpmValue (run Engine.init evs)) ≤ h.tSec →
          h ∈ (pruneTimelines (run Engine.init evs) now).hitTimeline)) ∧
    ((pruneTimelines (run Engine.init evs) now).beatTimeline <:+
        (run Engine.init evs).beatTimeline ∧
      (pruneTimelines (run Engine.init evs) now).hitTimeline <:+
        (run Engine.init evs).hitTimeline) := by
  have hbs : (run Engine.init evs).beatTimeline.Pairwise (fun a b => a.tSec ≤ b.tSec) :=
    (run_ordered evs Engine.init init_ordered).1.imp (fun h => le_of_lt h.2)
  have hhs : (run Engine.init evs).hitTimeline.Pairwise (fun a b => a.tSec ≤ b.tSec) :=
    run_hits_sorted evs Engine.init hclock (by simp [Engine.init]) (by simp [Engine.init])
  have hcut : now - beatDurSec (run Engine.init evs) * 12 =
      now - 12 * (60 / bpmValue (run Engine.init evs)) := by
    unfold beatDurSec
    ring
  have hb : (pruneTimelines (run Engine.init evs) now).beatTimeline =
      (run Engine.init evs).beatTimeline.filter
        (fun b => decide (now - 12 * (60 / bpmValue (run Engine.init evs)) ≤ b.tSec)) := by
    rw [← hcut]
    exact dropWhile_eq_filter_of_sorted (fun b : Beat => b.tSec) _ _ hbs
  have hh : (pruneTimelines (run Engine.init evs) now).hitTimeline =
      (run Engine.init evs).hitTimeline.filter
        (fun h => decide (now - 12 * (60 / bpmValue (run Engine.init evs)) ≤ h.tSec)) := by
    rw [← hcut]
    exact dropWhile_eq_filter_of_sorted (fun h : Hit => h.tSec) _ _ hhs
  refine ⟨⟨hbs, hhs⟩, ⟨hb, hh⟩, ⟨?_, ?_⟩, ⟨?_, ?_⟩, pruneTimelines_suffix _ _⟩
  · intro b hbm
    rw [hb] at hbm
    have := (List.mem_filter.1 hbm).2
    simp only [decide_eq_true_eq] at this
    exact not_lt.2 this
  · intro h hhm
    rw [hh] at hhm
    have := (List.mem_filter.1 hhm).2
    simp only [decide_eq_true_eq] at this
    exact not_lt.2 this
  · intro b hbm hle
    rw [hb]
    exact List.mem_filter.2 ⟨hbm, by simpa using hle⟩
  · intro h hhm hle
    rw [hh]
    exact List.mem_filter.2 ⟨hhm, by simpa using hle⟩

/-! ## A bounded beat timeline at constant tempo -/

theorem beatsFrom_chain (rhythm : List (Option Instrument)) (bd : ℚ) (g : Int) (a : ℚ)
    (n : Nat) :
    (beatsFrom rhythm bd g a n).Chain' (fun x y => y.idx = x.idx + 1 ∧ y.tSec = x.tSec + bd) := by
  induction n generalizing g a with
  | zero => simp [beatsFrom]
  | succ n ih =>
    rw [beatsFrom_succ]
    refine List.Chain'.cons' (ih _ _) ?_
    intro y hy
    cases n with
    | zero => simp [beatsFrom] at hy
    | succ n =>
      rw [beatsFrom_succ] at hy
      simp only [List.head?_cons, Option.mem_def, Option.some.injEq] at hy
      subst hy
      exact ⟨rfl, rfl⟩

theorem beatsFrom_head (rhythm : List (Option Instrument)) (bd : ℚ) (g : Int) (a : ℚ)
    (n : Nat) : ∀ y ∈ (beatsFrom rhythm bd g a n).head?, y.idx = g ∧ y.tSec = a := by
  intro y hy
  cases n with
  | zero => simp [beatsFrom] at hy
  | succ n =>
    rw [beatsFrom_succ] at hy
    simp only [List.head?_cons, Option.mem_def, Option.some.injEq] at hy
    subst hy
    exact ⟨rfl, rfl⟩

theorem beatsFrom_getLast (rhythm : List (Option Instrument)) (bd : ℚ) (g : Int) (a : ℚ)
    (n : Nat) :
    ∀ y ∈ (beatsFrom rhythm bd g a n).getLast?,
      y.idx + 1 = g + n ∧ y.tSec + bd = a + n * bd := by
  intro y hy
  cases n with
  | zero => simp [beatsFrom] at hy
  | succ n =>
    unfold beatsFrom at hy
    rw [List.range_succ, List.map_append] at hy
    simp only [List.map_cons, List.map_nil, List.getLast?_append, List.getLast?_singleton,
      Option.or_some, Option.mem_def, Option.some.injEq] at hy
    subst hy
    simp only [Nat.cast_add, Nat.cast_one]
    constructor
    · ring
    · ring

theorem scheduleDue_contiguous (e : Engine) (now : ℚ) (h : BeatsContiguous (beatDurSec e) e) :
    BeatsContiguous (beatDurSec e) (scheduleDue e now) := by
  obtain ⟨n, -, hdue, -, -⟩ := scheduleDue_exact e now
  rw [hdue]
  obtain ⟨hc, hl⟩ := h
  refine ⟨?_, ?_⟩
  · simp only
    refine List.Chain'.append hc (beatsFrom_chain _ _ _ _ _) ?_
    intro x hx y hy
    obtain ⟨h1, h2⟩ := hl x hx
    obtain ⟨h3, h4⟩ := beatsFrom_head _ _ _ _ _ y hy
    exact ⟨by omega, by rw [h4, ← h2]⟩
  · intro b hb
    simp only [List.getLast?_append] at hb
    simp only
    cases hlast : (beatsFrom (selectedRhythm e) (beatDurSec e) e.globalBeatIndex
        e.nextBeatTimeSec n).getLast? with
    | some y =>
      rw [hlast] at hb
      simp only [Option.or_some, Option.mem_def, Option.some.injEq] at hb
      subst hb
      exact beatsFrom_getLast _ _ _ _ _ y hlast
    | none =>
      rw [hlast] at hb
      have hn : n = 0 := by
        have := List.getLast?_eq_none_iff.1 hlast
        have hlen := length_beatsFrom (selectedRhythm e) (beatDurSec e) e.globalBeatIndex
          e.nextBeatTimeSec n
        rw [this] at hlen
        simpa using hlen.symm
      subst hn
      simp only [Option.none_or] at hb
      obtain ⟨h1, h2⟩ := hl b hb
      simp only [Nat.cast_zero, add_zero, zero_mul]
      exact ⟨by simpa using h1, h2⟩

theorem contiguous_of_suffix {bd : ℚ} {e e' : Engine} (h : BeatsContiguous bd e)
    (hsuf : e'.beatTimeline <:+ e.beatTimeline) (hg : e'.globalBeatIndex = e.globalBeatIndex)
    (hn : e'.nextBeatTimeSec = e.nextBeatTimeSec) : BeatsContiguous bd e' := by
  refine ⟨h.1.suffix hsuf, ?_⟩
  intro b hb
  rw [hg, hn]
  apply h.2 b
  obtain ⟨pre, hpre⟩ := hsuf
  have hne : e'.beatTimeline ≠ [] := by
    intro hnil
    rw [hnil] at hb
    simp at hb
  rw [← hpre, List.getLast?_append_of_ne_nil _ hne]
  exact hb

/-- In an unbroken run of beats the `k`-th entry lies `k` periods after the
first. -/
theorem chain_tSec {bd : ℚ} :
    ∀ (l : List Beat) (a : Beat),
      (a :: l).Chain' (fun x y => y.idx = x.idx + 1 ∧ y.tSec = x.tSec + bd) →
      ∀ b ∈ (a :: l).getLast?, b.tSec = a.tSec + l.length * bd := by
  intro l
  induction l with
  | nil =>
    intro a _ b hb
    simp only [List.getLast?_singleton, Option.mem_def, Option.some.injEq] at hb
    subst hb
    simp
  | cons c rest ih =>
    intro a hch b hb
    obtain ⟨h1, h2⟩ := List.chain'_cons'.1 hch
    have hac := h1 c (by simp)
    have hb' : b ∈ (c :: rest).getLast? := by
      rw [List.getLast?_cons_cons] at hb
      exact hb
    rw [ih c h2 b hb', hac.2]
    simp only [List.length_cons]
    push_cast
    ring

/-- An unbroken run of beats, a period of at least 3/7 s apart, that fits
between `lo` and `lo + 12 * bd + 0.14` has at most 13 entries. -/
theorem chain_length_le (bd lo : ℚ) (hbd : 3 / 7 ≤ bd) (l : List Beat)
    (hch : l.Chain' (fun x y => y.idx = x.idx + 1 ∧ y.tSec = x.tSec + bd))
    (hin : ∀ b ∈ l, lo ≤ b.tSec ∧ b.tSec < lo + 12 * bd + 14 / 100) : l.length ≤ 13 := by
  cases l with
  | nil => simp
  | cons a rest =>
    cases hlast : (a :: rest).getLast? with
    | none => simp at hlast
    | some b =>
      have hbt := chain_tSec rest a hch b hlast
      have hbm : b ∈ a :: rest := List.mem_of_getLast?_eq_some hlast
      have h1 := (hin a (by simp)).1
      have h2 := (hin b hbm).2
      rw [hbt] at h2
      have h3 : (rest.length : ℚ) * bd < 12 * bd + 14 / 100 := by linarith
      have h4 : (rest.length : ℚ) < 13 := by
        by_contra hge
        have hge : (13 : ℚ) ≤ rest.length := not_lt.1 hge
        have : 13 * bd ≤ (rest.length : ℚ) * bd :=
          mul_le_mul_of_nonneg_right hge (by linarith)
        linarith
      have h5 : rest.length < 13 := by exact_mod_cast h4
      simp only [List.length_cons]
      omega

theorem prune_beats_ge (e : Engine) (now : ℚ) (h : TimelineOrdered e) :
    ∀ b ∈ (pruneTimelines e now).beatTimeline, now - beatDurSec e * 12 ≤ b.tSec := by
  have hs : e.beatTimeline.Pairwise (fun a b => a.tSec ≤ b.tSec) :=
    h.1.imp (fun h => le_of_lt h.2)
  have heq : (pruneTimelines e now).beatTimeline =
      e.beatTimeline.filter (fun b => decide (now - beatDurSec e * 12 ≤ b.tSec)) :=
    dropWhile_eq_filter_of_sorted (fun b : Beat => b.tSec) _ _ hs
  intro b hb
  rw [heq] at hb
  simpa using (List.mem_filter.1 hb).2

/-- A tick keeps the invariant of a session at constant tempo; what it leaves
in the beat timeline is not older than twelve periods, and each entry was
either there before or lies below the look-ahead horizon of this tick. -/
theorem scheduleTick_steady (bd : ℚ) (e : Engine) (now : ℚ) (hs : e.started = true)
    (hp : e.paused = false) (h : SteadySession bd e) :
    SteadySession bd (scheduleTick e now) ∧
    (∀ b ∈ (scheduleTick e now).beatTimeline, now - 12 * bd ≤ b.tSec) ∧
    (∀ b ∈ (scheduleTick e now).beatTimeline,
      b ∈ e.beatTimeline ∨ b.tSec < now + 14 / 100) := by
  obtain ⟨hbd, hord, hcont, hlen⟩ := h
  subst hbd
  obtain ⟨n, hsched, hdue, hexit, hlt⟩ := scheduleDue_exact e now
  have hord1 := scheduleDue_ordered e now hord
  have hcont1 := scheduleDue_contiguous e now hcont
  obtain ⟨a1, a2⟩ := scheduleTick_anchor e now hs hp
  obtain ⟨c1, -, -, -, -, -⟩ := scheduleTick_control e now
  have hd1 : beatDurSec (scheduleDue e now) = beatDurSec e :=
    beatDurSec_congr (scheduleDue_sameControl_fields e now).1
  have hsuf2 : (scheduleTick e now).beatTimeline <:+
      (pruneTimelines (scheduleDue e now) now).beatTimeline := by
    rw [scheduleTick_running e now hs hp]
    exact (scoreDue_timelines _ _ _).1
  have hsuf1 : (scheduleTick e now).beatTimeline <:+ (scheduleDue e now).beatTimeline :=
    hsuf2.trans (pruneTimelines_suffix _ _).1
  have hlow : ∀ b ∈ (scheduleTick e now).beatTimeline, now - 12 * beatDurSec e ≤ b.tSec := by
    intro b hb
    have := prune_beats_ge (scheduleDue e now) now hord1 b (hsuf2.subset hb)
    rw [hd1] at this
    linarith
  have hmem : ∀ b ∈ (scheduleDue e now).beatTimeline,
      b ∈ e.beatTimeline ∨ b.tSec < now + 14 / 100 := by
    intro b hb
    rw [hdue] at hb
    rcases List.mem_append.1 hb with h1 | h1
    · exact Or.inl h1
    · right
      obtain ⟨k, hk, -, ht, -⟩ := mem_beatsFrom h1
      rw [ht]
      exact hlt k hk
  have hlen' : (scheduleTick e now).beatTimeline.length ≤ 13 := by
    cases n with
    | zero =>
      have : (scheduleDue e now).beatTimeline = e.beatTimeline := by
        rw [hdue]
        simp [beatsFrom]
      rw [this] at hsuf1
      exact le_trans hsuf1.length_le hlen
    | succ n =>
      have hnext : e.nextBeatTimeSec < now + 14 / 100 := by
        have := hlt 0 (by omega)
        simpa using this
      refine chain_length_le (beatDurSec e) (now - 12 * beatDurSec e) (beatDurSec_bounds e).1 _
        (hcont1.1.suffix hsuf1) ?_
      intro b hb
      refine ⟨hlow b hb, ?_⟩
      have hup : b.tSec < now + 14 / 100 := by
        rcases hmem b (hsuf1.subset hb) with h1 | h1
        · exact lt_trans (hord.2 b h1).2 hnext
        · exact h1
      linarith
  refine ⟨⟨beatDurSec_congr c1, ?_, ?_, hlen'⟩, hlow, ?_⟩
  · exact timelineOrdered_of_suffix hord1 hsuf1 a1 (le_of_eq a2.symm)
  · exact contiguous_of_suffix hcont1 hsuf1 a1 a2
  · intro b hb
    exact hmem b (hsuf1.subset hb)

theorem step_steady (bd : ℚ) (e : Engine) (ev : Event) (hev : ev.keepsTempo = true)
    (h : SteadySession bd e) : SteadySession bd (step e ev) := by
  cases ev with
  | tick now =>
    by_cases hrun : e.started = true ∧ e.paused = false
    · exact (scheduleTick_steady bd e now hrun.1 hrun.2 h).1
    · have hstep : step e (.tick now) = e := scheduleTick_idle e now hrun
      rw [hstep]
      exact h
  | hit now i =>
    obtain ⟨hbd, hord, hcont, hlen⟩ := h
    simp only [step, registerHit]
    split
    · exact ⟨hbd, hord, hcont, hlen⟩
    · refine ⟨hbd, ?_, ?_, ?_⟩
      · exact timelineOrdered_of_suffix hord (List.dropWhile_suffix _) rfl (le_refl _)
      · exact contiguous_of_suffix hcont (List.dropWhile_suffix _) rfl rfl
      · exact le_trans (List.dropWhile_suffix _).length_le hlen
  | pauseToggle =>
    simp only [step, togglePause]
    split
    · exact h
    · exact h
  | rhythmSelect r => exact h
  | begin now => simp [Event.keepsTempo] at hev
  | stop => simp [Event.keepsTempo] at hev
  | bpmInput now v => simp [Event.keepsTempo] at hev

theorem run_steady (bd : ℚ) (evs : List Event) (e : Engine)
    (hevs : ∀ ev ∈ evs, ev.keepsTempo = true) (h : SteadySession bd e) :
    SteadySession bd (run e evs) := by
  induction evs generalizing e with
  | nil => exact h
  | cons ev rest ih =>
    exact ih (step e ev) (fun ev' h' => hevs ev' (by simp [h']))
      (step_steady bd e ev (hevs ev (by simp)) h)

theorem beginGame_steady (e0 : Engine) (t0 : ℚ) :
    SteadySession (60 / bpmValue e0) (beginGame e0 t0) :=
  ⟨rfl, ⟨by simp [beginGame], by simp [beginGame]⟩,
    ⟨by simp [beginGame], by simp [beginGame]⟩, by simp [beginGame]⟩

/-- Beats are scheduled below the look-ahead horizon of their tick: if no tick
of the run fired after clock value `now`, every beat of the timeline lies below
`now + 0.14`. -/
theorem run_below_horizon (now : ℚ) (evs : List Event) (e : Engine)
    (hticks : ∀ t, Event.tick t ∈ evs → t ≤ now)
    (hU : ∀ b ∈ e.beatTimeline, b.tSec < now + 14 / 100) :
    ∀ b ∈ (run e evs).beatTimeline, b.tSec < now + 14 / 100 := by
  induction evs generalizing e with
  | nil => exact hU
  | cons ev rest ih =>
    apply ih (step e ev) (fun t ht => hticks t (by simp [ht]))
    intro b hb
    rcases List.mem_append.1 ((step_beatTimeline e ev).subset hb) with h1 | h1
    · exact hU b h1
    · cases ev with
      | tick t =>
        have htn : t ≤ now := hticks t (by simp)
        by_cases hrun : e.started = true ∧ e.paused = false
        · have happ : appendedBy e (.tick t) = scheduledBy e t := by
            simp [appendedBy, hrun.1, hrun.2]
          rw [happ] at h1
          obtain ⟨n, hsched, -, -, hlt⟩ := scheduleDue_exact e t
          rw [hsched] at h1
          obtain ⟨k, hk, -, ht, -⟩ := mem_beatsFrom h1
          have := hlt k hk
          unfold SCHED_AHEAD_SEC at this
          rw [ht]
          linarith
        · rw [appendedBy_idle e t hrun] at h1
          simp at h1
      | hit t i => simp [appendedBy] at h1
      | begin t => simp [appendedBy] at h1
      | stop => simp [appendedBy] at h1
      | pauseToggle => simp [appendedBy] at h1
      | bpmInput t v => simp [appendedBy] at h1
      | rhythmSelect r => simp [appendedBy] at h1

theorem ticks_le_of_clock (evs : List Event) (now : ℚ)
    (hclock : clockNondecreasing (evs ++ [.tick now])) :
    ∀ t, Event.tick t ∈ evs → t ≤ now := by
  intro t ht
  unfold clockNondecreasing at hclock
  rw [List.filterMap_append] at hclock
  have h := (List.pairwise_append.1 hclock).2.2
  refine h t ?_ now ?_
  · exact List.mem_filterMap.2 ⟨.tick t, ht, rfl⟩
  · simp [Event.clock]

/-- C14. At a constant BPM (in [40,140]) and with a clock that does not run
backwards, the beat timeline after every tick holds at most 13 entries,
however long the session and whatever the gaps between ticks; its entries are
consecutive beats one period apart, and after a tick that runs they all lie in
`[now - 12 periods, now + 0.14 s)`. -/
theorem beat_timeline_at_most_thirteen (e0 : Engine) (t0 : ℚ) (evs : List Event) (now : ℚ)
    (hevs : ∀ ev ∈ evs, ev.keepsTempo = true)
    (hclock : clockNondecreasing (evs ++ [.tick now])) :
    (scheduleTick (run (beginGame e0 t0) evs) now).beatTimeline.length ≤ 13 ∧
    (scheduleTick (run (beginGame e0 t0) evs) now).beatTimeline.Chain'
      (fun a b => b.idx = a.idx + 1 ∧ b.tSec = a.tSec + 60 / bpmValue e0) ∧
    ((run (beginGame e0 t0) evs).paused = false →
      ∀ b ∈ (scheduleTick (run (beginGame e0 t0) evs) now).beatTimeline,
        now - 12 * (60 / bpmValue e0) ≤ b.tSec ∧ b.tSec < now + 14 / 100) ∧
    (40 ≤ bpmValue e0 ∧ bpmValue e0 ≤ 140) := by
  have hst := run_steady (60 / bpmValue e0) evs (beginGame e0 t0) hevs (beginGame_steady e0 t0)
  have hst' : SteadySession (60 / bpmValue e0) (scheduleTick (run (beginGame e0 t0) evs) now) :=
    step_steady _ _ (.tick now) rfl hst
  refine ⟨hst'.2.2.2, hst'.2.2.1.1, ?_, bpmValue_bounds e0⟩
  intro hp
  have hs : (run (beginGame e0 t0) evs).started = true := by
    have := (run_input evs (beginGame e0 t0) (fun ev hev => by
      have := hevs ev hev
      cases ev <;> simp_all [Event.keepsTempo, Event.keepsSession])).1
    rw [this]
    rfl
  obtain ⟨-, hlow, hmem⟩ := scheduleTick_steady _ _ now hs hp hst
  have hup := run_below_horizon now evs (beginGame e0 t0) (ticks_le_of_clock evs now hclock)
    (by simp [beginGame])
  intro b hb
  refine ⟨hlow b hb, ?_⟩
  rcases hmem b hb with h1 | h1
  · exact hup b h1
  · exact h1

/-- A worked instance: a session at BPM 90 whose last tick comes after a gap of
28 seconds. -/
theorem beat_timeline_at_most_thirteen_witness :
    (scheduleTick (run (beginGame Engine.init 0) [.tick 0, .hit 1 .K, .tick 2]) 30
      ).beatTimeline.length = 13 ∧
    (scheduleTick (run (beginGame Engine.init 0) [.tick 0, .hit 1 .K, .tick 2]) 30
      ).beatTimeline.length ≤ 13 :=
  ⟨by decide!,
    (beat_timeline_at_most_thirteen Engine.init 0 [.tick 0, .hit 1 .K, .tick 2] 30
      (by decide!) (by unfold clockNondecreasing; decide!)).1⟩

/-! ## The tick on which tracking resumes -/

theorem foldl_evaluateBeat_skip (eligible l : List Beat) (e : Engine)
    (h : ∀ b ∈ l, b.idx ≤ e.lastEvaluatedBeatIdx) :
    l.foldl (evaluateBeat eligible) e = e := by
  induction l with
  | nil => rfl
  | cons b rest ih =>
    have hb : b.idx ≤ e.lastEvaluatedBeatIdx := h b (by simp)
    have h1 : evaluateBeat eligible e b = e := by simp [evaluateBeat, hb]
    rw [List.foldl_cons, h1]
    exact ih (fun b' hb' => h b' (by simp [hb']))

theorem getLast_idx_max {l : List Beat} (hl : l.Pairwise (fun a b => a.idx < b.idx))
    {b : Beat} (hb : l.getLast? = some b) : ∀ x ∈ l, x.idx ≤ b.idx := by
  induction l with
  | nil => simp
  | cons a rest ih =>
    obtain ⟨ha, hrest⟩ := List.pairwise_cons.1 hl
    cases rest with
    | nil =>
      simp only [List.getLast?_singleton, Option.some.injEq] at hb
      subst hb
      simp
    | cons c rest' =>
      rw [List.getLast?_cons_cons] at hb
      intro x hx
      rcases List.mem_cons.1 hx with rfl | hx
      · exact le_of_lt (ha b (List.mem_of_getLast?_eq_some hb))
      · exact ih hrest hb x hx

/-- On a tick that finds tracking off and the gate active, the gate update is
`onTrackingResume`. -/
theorem updateGate_resume (e : Engine) (now : ℚ) (hoff : e.trackingActive = false) :
    updateGate e now true = onTrackingResume e now := by
  unfold updateGate
  simp [hoff, onTrackingResume, pruneTimelines]

/-- On the tick that resumes tracking in a state with an ordered beat timeline,
the aggregation loop finds nothing beyond the cursor: the tick ends in the state
that `onTrackingResume` has left. -/
theorem scoreDue_resume (e : Engine) (now bd : ℚ) (hbd : bd = beatDurSec e)
    (hord : TimelineOrdered e) (hoff : e.trackingActive = false)
    (hon : isTrackingActive e now = true) :
    scoreDue e now bd = onTrackingResume e now := by
  unfold scoreDue
  simp only [hon, Bool.not_true, Bool.false_eq_true, if_false]
  rw [updateGate_resume e now hoff]
  split
  · rfl
  · apply foldl_evaluateBeat_skip
    intro b hb
    have hpw : ((onTrackingResume e now).beatTimeline.filter
        (fun b => decide (b.tSec ≤ now - LIVE_EVAL_DELAY_BEATS * bd))).Pairwise
        (fun a b => a.idx < b.idx) := by
      refine List.Pairwise.sublist (List.filter_sublist _) ?_
      refine List.Pairwise.sublist (onTrackingResume_beatTimeline e now).1.sublist ?_
      exact hord.1.imp (fun h => h.1)
    subst hbd
    cases hlast : ((onTrackingResume e now).beatTimeline.filter
        (fun b => decide (b.tSec ≤ now - LIVE_EVAL_DELAY_BEATS * beatDurSec e))).getLast? with
    | none =>
      rw [List.getLast?_eq_none_iff.1 hlast] at hb
      simp at hb
    | some last =>
      have hcur : (onTrackingResume e now).lastEvaluatedBeatIdx = last.idx := by
        have hl' : ((pruneTimelines { e with trackingActive := true, hitTimeline := [] }
            now).beatTimeline.filter (fun b => decide (b.tSec ≤
              now - LIVE_EVAL_DELAY_BEATS *
                beatDurSec (pruneTimelines { e with trackingActive := true, hitTimeline := [] }
                  now)))).getLast? = some last := hlast
        simp only [onTrackingResume, hl']
      rw [hcur]
      exact getLast_idx_max hpw hlast b hb

theorem scheduleTick_resume (e : Engine) (now : ℚ) (hs : e.started = true)
    (hp : e.paused = false) (hord : TimelineOrdered e) (hoff : e.trackingActive = false)
    (hon : (scheduleTick e now).trackingActive = true) :
    scheduleTick e now = onTrackingResume (pruneTimelines (scheduleDue e now) now) now := by
  have hact : isTrackingActive e now = true := by
    rw [← scheduleTick_trackingActive e now hs hp]
    exact hon
  obtain ⟨d1, -, -, -, d5, d6, d7, -⟩ := scheduleDue_sameControl_fields e now
  rw [scheduleTick_running e now hs hp]
  apply scoreDue_resume
  · exact (beatDurSec_congr d1).symm
  · exact timelineOrdered_of_suffix (scheduleDue_ordered e now hord)
      (pruneTimelines_suffix _ _).1 rfl (le_refl _)
  · exact d7.trans hoff
  · rw [← hact]
    exact isTrackingActive_congr d1 d5 d6 now

/-- C12. On a tick where the gate goes from inactive to active, in any
reachable state, the scoring cursor is set to the index of the last beat of the
beat timeline whose time is `≤ now - half a beat period` (no eligible beat has
a greater index), or to `globalBeatIndex - 1` when there is no such beat, and
the tick aggregates nothing: the session stats are the same after it as
before. -/
theorem resume_tick_moves_cursor_and_aggregates_nothing (evs : List Event) (now : ℚ)
    (hs : (run Engine.init evs).started = true) (hp : (run Engine.init evs).paused = false)
    (hoff : (run Engine.init evs).trackingActive = false)
    (hon : (scheduleTick (run Engine.init evs) now).trackingActive = true) :
    (scheduleTick (run Engine.init evs) now).lastEvaluatedBeatIdx =
      (match ((scheduleTick (run Engine.init evs) now).beatTimeline.filter
          (fun b => decide (b.tSec ≤
            now - 1 / 2 * (60 / bpmValue (run Engine.init evs))))).getLast? with
       | some b => b.idx
       | none => (scheduleTick (run Engine.init evs) now).globalBeatIndex - 1) ∧
    (∀ b ∈ (scheduleTick (run Engine.init evs) now).beatTimeline,
      b.tSec ≤ now - 1 / 2 * (60 / bpmValue (run Engine.init evs)) →
        b.idx ≤ (scheduleTick (run Engine.init evs) now).lastEvaluatedBeatIdx) ∧
    (scheduleTick (run Engine.init evs) now).scoreState = (run Engine.init evs).scoreState ∧
    aggregatedBy (run Engine.init evs) now = [] := by
  have hord := run_ordered evs Engine.init init_ordered
  have hres := scheduleTick_resume _ now hs hp hord hoff hon
  have hbpm : bpmValue (pruneTimelines (scheduleDue (run Engine.init evs) now) now) =
      bpmValue (run Engine.init evs) := by
    have := (scheduleDue_sameControl_fields (run Engine.init evs) now).1
    simp [bpmValue, pruneTimelines, this]
  have hss : (scheduleTick (run Engine.init evs) now).scoreState =
      (run Engine.init evs).scoreState := by
    rw [hres]
    exact (scheduleDue_sameControl_fields (run Engine.init evs) now).2.2.2.2.2.2.2.2.1
  have hcur : (scheduleTick (run Engine.init evs) now).lastEvaluatedBeatIdx =
      (match ((scheduleTick (run Engine.init evs) now).beatTimeline.filter
          (fun b => decide (b.tSec ≤
            now - 1 / 2 * (60 / bpmValue (run Engine.init evs))))).getLast? with
       | some b => b.idx
       | none => (scheduleTick (run Engine.init evs) now).globalBeatIndex - 1) := by
    rw [hres, ← hbpm]
    rfl
  refine ⟨hcur, ?_, hss, ?_⟩
  · intro b hb hle
    have hord' : TimelineOrdered (scheduleTick (run Engine.init evs) now) :=
      step_ordered _ (.tick now) hord
    have hmem : b ∈ (scheduleTick (run Engine.init evs) now).beatTimeline.filter
        (fun b => decide (b.tSec ≤ now - 1 / 2 * (60 / bpmValue (run Engine.init evs)))) :=
      List.mem_filter.2 ⟨hb, by simpa using hle⟩
    rw [hcur]
    cases hlast : ((scheduleTick (run Engine.init evs) now).beatTimeline.filter
        (fun b => decide (b.tSec ≤
          now - 1 / 2 * (60 / bpmValue (run Engine.init evs))))).getLast? with
    | none =>
      rw [List.getLast?_eq_none_iff.1 hlast] at hmem
      simp at hmem
    | some last =>
      simp only
      refine getLast_idx_max ?_ hlast b hmem
      exact List.Pairwise.sublist (List.filter_sublist _) (hord'.1.imp (fun h => h.1))
  · have hb := scheduleTick_beats (run Engine.init evs) now
    rw [hss] at hb
    have : (aggregatedBy (run Engine.init evs) now).length = 0 := by omega
    exact List.length_eq_zero.1 this

/-- A worked instance: a session at BPM 90 with a tick at 0.5 s, a hit at 1 s
and the resuming tick at 2 s; the beats at 0.1 s, 0.767 s and 1.433 s are
eligible, so the cursor goes to index 2 and nothing is aggregated. -/
theorem resume_tick_moves_cursor_and_aggregates_nothing_witness :
    (scheduleTick (run Engine.init [.begin 0, .tick (1 / 2), .hit 1 .K]) 2
      ).lastEvaluatedBeatIdx = 2 ∧
    (scheduleTick (run Engine.init [.begin 0, .tick (1 / 2), .hit 1 .K]) 2).scoreState =
      (run Engine.init [.begin 0, .tick (1 / 2), .hit 1 .K]).scoreState ∧
    aggregatedBy (run Engine.init [.begin 0, .tick (1 / 2), .hit 1 .K]) 2 = [] :=
  ⟨by decide!,
    (resume_tick_moves_cursor_and_aggregates_nothing [.begin 0, .tick (1 / 2), .hit 1 .K] 2
      (by decide!) (by decide!) (by decide!) (by decide!)).2.2⟩

/-! ## Hits from before a resume -/

theorem scheduleLoop_hitTimeline (bd : ℚ) (rhythm : List (Option Instrument)) (horizon : ℚ)
    (fuel : Nat) (e : Engine) (hits : List Hit) :
    scheduleLoop bd rhythm horizon fuel { e with hitTimeline := hits } =
      { scheduleLoop bd rhythm horizon fuel e with hitTimeline := hits } := by
  induction fuel generalizing e with
  | zero => rfl
  | succ fuel ih =>
    unfold scheduleLoop
    by_cases hlt : e.nextBeatTimeSec < horizon
    · simp only [hlt, if_true]
      exact ih (scheduleBeat bd rhythm e)
    · simp only [hlt, if_false]

theorem scheduleDue_hitTimeline (e : Engine) (now : ℚ) (hits : List Hit) :
    scheduleDue { e with hitTimeline := hits } now =
      { scheduleDue e now with hitTimeline := hits } :=
  scheduleLoop_hitTimeline _ _ _ _ e hits

theorem scoreDue_hitTimeline_nil (e : Engine) (now bd : ℚ) (hoff : e.trackingActive = false)
    (hon : isTrackingActive e now = true) :
    scoreDue { e with hitTimeline := [] } now bd = scoreDue e now bd := by
  have h1 : isTrackingActive { e with hitTimeline := [] } now = isTrackingActive e now := rfl
  have h2 : updateGate { e with hitTimeline := [] } now true = updateGate e now true := by
    have ha : updateGate { e with hitTimeline := [] } now true =
        onTrackingResume { e with hitTimeline := [] } now := updateGate_resume _ now hoff
    rw [ha, updateGate_resume e now hoff]
    rfl
  unfold scoreDue
  simp only [h1, hon, h2]

theorem scoreDue_resume_hitTimeline (e : Engine) (now bd : ℚ) (hoff : e.trackingActive = false)
    (hon : isTrackingActive e now = true) : (scoreDue e now bd).hitTimeline = [] := by
  unfold scoreDue
  simp only [hon, Bool.not_true, Bool.false_eq_true, if_false]
  rw [updateGate_resume e now hoff]
  split
  · exact (onTrackingResume_beatTimeline e now).2
  · rw [(foldl_evaluateBeat_timelines _ _ _).2.2]
    exact (onTrackingResume_beatTimeline e now).2

theorem suffix_append_right {α : Type} {a b : List α} (c : List α) (h : a <:+ b) :
    a ++ c <:+ b ++ c := by
  obtain ⟨p, hp⟩ := h
  exact ⟨p, by rw [← hp, List.append_assoc]⟩

/-- The hit timeline holds nothing but hits that were there at the start or
were registered on the way, in that order. -/
theorem run_hitTimeline (evs : List Event) (e : Engine) :
    (run e evs).hitTimeline <:+ e.hitTimeline ++ hitsAddedDuring e evs := by
  induction evs generalizing e with
  | nil => simp [run, hitsAddedDuring]
  | cons ev rest ih =>
    have hrun : run e (ev :: rest) = run (step e ev) rest := rfl
    have hadd : hitsAddedDuring e (ev :: rest) =
        hitsAddedBy e ev ++ hitsAddedDuring (step e ev) rest := rfl
    rw [hrun, hadd, ← List.append_assoc]
    exact (ih (step e ev)).trans (suffix_append_right _ (step_hitTimeline e ev))

/-- C11. On a tick where the gate goes from inactive to active the hit timeline
is emptied before any scoring runs: the tick ends with an empty hit timeline
and its outcome is the same as if the timeline had been empty before it, so no
hit registered before that tick (the one that caused the resume included) is
claimed in its scoring pass; and in every later state the hit timeline holds
only hits registered after that tick, so none of the earlier hits can be
claimed in a later pass either. -/
theorem resume_discards_earlier_hits (e : Engine) (now : ℚ) (hs : e.started = true)
    (hp : e.paused = false) (hoff : e.trackingActive = false)
    (hon : (scheduleTick e now).trackingActive = true) :
    (scheduleTick e now).hitTimeline = [] ∧
    scheduleTick e now = scheduleTick { e with hitTimeline := [] } now ∧
    (∀ evs : List Event,
      (run (scheduleTick e now) evs).hitTimeline <:+
        hitsAddedDuring (scheduleTick e now) evs) := by
  have hact : isTrackingActive e now = true := by
    rw [← scheduleTick_trackingActive e now hs hp]
    exact hon
  obtain ⟨d1, -, -, -, d5, d6, d7, -⟩ := scheduleDue_sameControl_fields e now
  have hact1 : isTrackingActive (pruneTimelines (scheduleDue e now) now) now = true := by
    rw [← hact]
    exact isTrackingActive_congr d1 d5 d6 now
  have hoff1 : (pruneTimelines (scheduleDue e now) now).trackingActive = false := d7.trans hoff
  have hnil : (scheduleTick e now).hitTimeline = [] := by
    rw [scheduleTick_running e now hs hp]
    exact scoreDue_resume_hitTimeline _ now _ hoff1 hact1
  refine ⟨hnil, ?_, ?_⟩
  · rw [scheduleTick_running e now hs hp,
      scheduleTick_running { e with hitTimeline := [] } now hs hp,
      scheduleDue_hitTimeline e now []]
    have hprune : pruneTimelines { scheduleDue e now with hitTimeline := [] } now =
        { pruneTimelines (scheduleDue e now) now with hitTimeline := [] } := by
      simp [pruneTimelines, beatDurSec, bpmValue]
    rw [hprune, scoreDue_hitTimeline_nil _ now _ hoff1 hact1]
    rfl
  · intro evs
    have := run_hitTimeline evs (scheduleTick e now)
    rw [hnil, List.nil_append] at this
    exact this

/-- A worked instance: a hit at 1 s, the resuming tick at 2 s, then a hit at
2.5 s and a tick at 3 s; the hit timeline holds the later hit only. -/
theorem resume_discards_earlier_hits_witness :
    (run (scheduleTick (run Engine.init [.begin 0, .tick (1 / 2), .hit 1 .K]) 2)
        [.hit (5 / 2) .S, .tick 3]).hitTimeline = [⟨5 / 2, .S⟩] ∧
    (scheduleTick (run Engine.init [.begin 0, .tick (1 / 2), .hit 1 .K]) 2).hitTimeline = [] :=
  ⟨by decide!,
    (resume_discards_earlier_hits (run Engine.init [.begin 0, .tick (1 / 2), .hit 1 .K]) 2
      (by decide!) (by decide!) (by decide!) (by decide!)).1⟩

/-! ## Best error -/

theorem applyResult_statsOf (errs : List ℚ) (s : ScoreState) (res : ScoreResult)
    (h : StatsOf errs s) : StatsOf (errs ++ [res.avgErrMs]) (applyResult s res) := by
  obtain ⟨h1, h2, h3, h4, h5⟩ := h
  refine ⟨?_, ?_, ?_, ?_, ?_⟩
  · simp [applyResult, h1]
  · simp [applyResult, h2]
  · intro hnil
    simp at hnil
  · intro _
    by_cases hne : errs = []
    · subst hne
      refine ⟨res.avgErrMs, ?_, by simp, by simp⟩
      simp [applyResult, h3 rfl]
    · obtain ⟨best, hb, hmem, hmin⟩ := h4 hne
      refine ⟨min best res.avgErrMs, ?_, ?_, ?_⟩
      · simp [applyResult, hb]
      · rcases min_choice best res.avgErrMs with hc | hc
        · rw [hc]; simp [hmem]
        · rw [hc]; simp
      · intro x hx
        rcases List.mem_append.1 hx with h | h
        · exact le_trans (min_le_left _ _) (hmin x h)
        · simp only [List.mem_singleton] at h
          rw [h]
          exact min_le_right _ _
  · intro _
    simp [applyResult, h1, h2]

theorem bestNotAbove_refl (s : ScoreState) : BestNotAbove s s :=
  fun b hb => ⟨b, hb, le_refl _⟩

theorem bestNotAbove_trans {a b c : ScoreState} (h1 : BestNotAbove a b)
    (h2 : BestNotAbove b c) : BestNotAbove a c := by
  intro x hx
  obtain ⟨y, hy, hyx⟩ := h1 x hx
  obtain ⟨z, hz, hzy⟩ := h2 y hy
  exact ⟨z, hz, le_trans hzy hyx⟩

theorem applyResult_bestNotAbove (s : ScoreState) (res : ScoreResult) :
    BestNotAbove s (applyResult s res) := by
  intro b hb
  exact ⟨min b res.avgErrMs, by simp [applyResult, hb], min_le_left _ _⟩

theorem foldl_evaluateBeat_stats (eligible l : List Beat) (e : Engine) (errs : List ℚ)
    (h : StatsOf errs e.scoreState) :
    StatsOf (errs ++ evaluatedErrs eligible e.hitTimeline e.lastEvaluatedBeatIdx l)
      (l.foldl (evaluateBeat eligible) e).scoreState ∧
    BestNotAbove e.scoreState (l.foldl (evaluateBeat eligible) e).scoreState := by
  induction l generalizing e errs with
  | nil => exact ⟨by simpa [evaluatedErrs] using h, bestNotAbove_refl _⟩
  | cons b rest ih =>
    have hev : evaluatedErrs eligible e.hitTimeline e.lastEvaluatedBeatIdx (b :: rest) =
        if b.idx ≤ e.lastEvaluatedBeatIdx then
          evaluatedErrs eligible e.hitTimeline e.lastEvaluatedBeatIdx rest
        else
          (scoreFromWindow e.hitTimeline
            (lastRolling (eligible.filter (fun x => decide (x.idx ≤ b.idx))))).avgErrMs ::
            evaluatedErrs eligible e.hitTimeline b.idx rest := rfl
    rw [List.foldl_cons, hev]
    by_cases hb : b.idx ≤ e.lastEvaluatedBeatIdx
    · have h1 : evaluateBeat eligible e b = e := by simp [evaluateBeat, hb]
      rw [h1, if_pos hb]
      exact ih e errs h
    · rw [if_neg hb]
      have hstep := applyResult_statsOf errs e.scoreState
        (scoreFromWindow e.hitTimeline
          (lastRolling (eligible.filter (fun x => decide (x.idx ≤ b.idx))))) h
      have h1 : evaluateBeat eligible e b =
          { e with
            scoreState := applyResult e.scoreState
              (scoreFromWindow e.hitTimeline
                (lastRolling (eligible.filter (fun x => decide (x.idx ≤ b.idx))))),
            lastEvaluatedBeatIdx := b.idx } := by
        simp [evaluateBeat, hb]
      rw [h1]
      obtain ⟨i1, i2⟩ := ih
        ({ e with
            scoreState := applyResult e.scoreState
              (scoreFromWindow e.hitTimeline
                (lastRolling (eligible.filter (fun x => decide (x.idx ≤ b.idx))))),
            lastEvaluatedBeatIdx := b.idx } : Engine) _ hstep
      refine ⟨?_, bestNotAbove_trans (applyResult_bestNotAbove _ _) i2⟩
      simpa [List.append_assoc] using i1

theorem updateGate_scoreState (e : Engine) (now : ℚ) (activeNow : Bool) :
    (updateGate e now activeNow).scoreState = e.scoreState := by
  unfold updateGate
  cases hta : e.trackingActive <;> cases activeNow <;>
    simp [hta, onTrackingResume, pruneTimelines]

/-- What a tick does to the session stats: it appends the values it aggregates
and never raises the best error. -/
theorem scheduleTick_stats (e : Engine) (now : ℚ) (errs : List ℚ)
    (h : StatsOf errs e.scoreState) :
    StatsOf (errs ++ aggregatedErrsBy e now) (scheduleTick e now).scoreState ∧
    BestNotAbove e.scoreState (scheduleTick e now).scoreState := by
  unfold aggregatedErrsBy
  by_cases hrun : e.started = true ∧ e.paused = false
  · rw [scheduleTick_running e now hrun.1 hrun.2]
    have hss : (pruneTimelines (scheduleDue e now) now).scoreState = e.scoreState :=
      (scheduleDue_sameControl_fields e now).2.2.2.2.2.2.2.2.1
    simp only [hrun.1, hrun.2, Bool.not_true, Bool.or_false, Bool.false_eq_true, if_false]
    cases hact : isTrackingActive (pruneTimelines (scheduleDue e now) now) now with
    | false =>
      rw [(scoreDue_inactive _ now (beatDurSec e) hact).1, hss]
      simp only [Bool.not_false, if_true, List.append_nil]
      exact ⟨h, bestNotAbove_refl _⟩
    | true =>
      have hg : (updateGate (pruneTimelines (scheduleDue e now) now) now true).scoreState =
          e.scoreState := by
        rw [updateGate_scoreState, hss]
      unfold scoreDue
      simp only [hact, Bool.not_true, Bool.false_eq_true, if_false]
      split
      · rename_i hemp
        rw [hg, List.isEmpty_iff.1 hemp]
        simp only [evaluatedErrs, List.append_nil]
        exact ⟨h, bestNotAbove_refl _⟩
      · have := foldl_evaluateBeat_stats
          ((updateGate (pruneTimelines (scheduleDue e now) now) now true).beatTimeline.filter
            (fun b => decide (b.tSec ≤ now - LIVE_EVAL_DELAY_BEATS * beatDurSec e)))
          ((updateGate (pruneTimelines (scheduleDue e now) now) now true).beatTimeline.filter
            (fun b => decide (b.tSec ≤ now - LIVE_EVAL_DELAY_BEATS * beatDurSec e)))
          (updateGate (pruneTimelines (scheduleDue e now) now) now true) errs
          (by rw [hg]; exact h)
        rw [hg] at this
        exact this
  · rw [scheduleTick_idle e now hrun]
    have : (!e.started || e.paused) = true := by
      cases hs : e.started <;> cases hp : e.paused <;> simp_all
    simp only [this, if_true, List.append_nil]
    exact ⟨h, bestNotAbove_refl _⟩

theorem step_stats (e : Engine) (ev : Event) (hev : ev.keepsSession = true) (errs : List ℚ)
    (h : StatsOf errs e.scoreState) :
    StatsOf (errs ++ errsBy e ev) (step e ev).scoreState ∧
    BestNotAbove e.scoreState (step e ev).scoreState := by
  cases ev with
  | tick now => exact scheduleTick_stats e now errs h
  | hit now i =>
    have : (step e (.hit now i)).scoreState = e.scoreState := by
      simp only [step, registerHit]
      split <;> rfl
    rw [this]
    exact ⟨by simpa [errsBy] using h, bestNotAbove_refl _⟩
  | pauseToggle =>
    have : (step e .pauseToggle).scoreState = e.scoreState := by
      simp only [step, togglePause]
      split <;> rfl
    rw [this]
    exact ⟨by simpa [errsBy] using h, bestNotAbove_refl _⟩
  | rhythmSelect r => exact ⟨by simpa [errsBy] using h, bestNotAbove_refl _⟩
  | bpmInput now v =>
    have : (step e (.bpmInput now v)).scoreState = e.scoreState := by
      simp only [step, syncBpmInputs]
      split <;> rfl
    rw [this]
    exact ⟨by simpa [errsBy] using h, bestNotAbove_refl _⟩
  | begin now => simp [Event.keepsSession] at hev
  | stop => simp [Event.keepsSession] at hev

theorem run_stats (evs : List Event) (e : Engine) (hevs : ∀ ev ∈ evs, ev.keepsSession = true)
    (errs : List ℚ) (h : StatsOf errs e.scoreState) :
    StatsOf (errs ++ aggregatedErrsDuring e evs) (run e evs).scoreState := by
  induction evs generalizing e errs with
  | nil => simpa [run, aggregatedErrsDuring] using h
  | cons ev rest ih =>
    have hrun : run e (ev :: rest) = run (step e ev) rest := rfl
    have hagg : aggregatedErrsDuring e (ev :: rest) =
        errsBy e ev ++ aggregatedErrsDuring (step e ev) rest := rfl
    rw [hrun, hagg, ← List.append_assoc]
    exact ih (step e ev) (fun ev' h' => hevs ev' (by simp [h'])) _
      (step_stats e ev (hevs ev (by simp)) errs h).1

theorem least_le_mean (errs : List ℚ) (best : ℚ) (hne : errs ≠ [])
    (hmin : ∀ x ∈ errs, best ≤ x) : best ≤ errs.sum / errs.length := by
  have hlen : (0 : ℚ) < errs.length := by
    have := List.length_pos.2 hne
    exact_mod_cast this
  rw [le_div_iff₀ hlen]
  have := List.card_nsmul_le_sum errs best hmin
  simpa [nsmul_eq_mul, mul_comm] using this

/-- C17. Between two resets the best error starts unset and, as soon as a
window evaluation has been aggregated, is the least `avgErrMs` of all window
evaluations aggregated so far, hence not above the running mean `avgErrMs`;
the beat counter is the number of those evaluations. No event handled in
between raises the best error: once set it stays set and does not grow from
one tick to the next. -/
theorem best_error_is_least_aggregated (e0 : Engine) (t0 : ℚ) (evs : List Event)
    (hevs : ∀ ev ∈ evs, ev.keepsSession = true) :
    (beginGame e0 t0).scoreState.bestErrMs = none ∧
    (run (beginGame e0 t0) evs).scoreState.beats =
      (aggregatedErrsDuring (beginGame e0 t0) evs).length ∧
    ((run (beginGame e0 t0) evs).scoreState.beats = 0 →
      (run (beginGame e0 t0) evs).scoreState.bestErrMs = none) ∧
    (0 < (run (beginGame e0 t0) evs).scoreState.beats →
      ∃ best, (run (beginGame e0 t0) evs).scoreState.bestErrMs = some best ∧
        best ∈ aggregatedErrsDuring (beginGame e0 t0) evs ∧
        (∀ x ∈ aggregatedErrsDuring (beginGame e0 t0) evs, best ≤ x) ∧
        best ≤ (run (beginGame e0 t0) evs).scoreState.avgErrMs) ∧
    (∀ ev, ev.keepsSession = true → ∀ b,
      (run (beginGame e0 t0) evs).scoreState.bestErrMs = some b →
      ∃ b', (step (run (beginGame e0 t0) evs) ev).scoreState.bestErrMs = some b' ∧ b' ≤ b) := by
  have h0 : StatsOf [] (beginGame e0 t0).scoreState :=
    ⟨rfl, rfl, fun _ => rfl, fun h => absurd rfl h, fun h => absurd rfl h⟩
  have hst := run_stats evs (beginGame e0 t0) hevs [] h0
  rw [List.nil_append] at hst
  obtain ⟨h1, h2, h3, h4, h5⟩ := hst
  refine ⟨rfl, h1, ?_, ?_, ?_⟩
  · intro hz
    rw [h1] at hz
    exact h3 (List.length_eq_zero.1 hz)
  · intro hpos
    rw [h1] at hpos
    have hne : aggregatedErrsDuring (beginGame e0 t0) evs ≠ [] := List.length_pos.1 hpos
    obtain ⟨best, hb, hmem, hmin⟩ := h4 hne
    refine ⟨best, hb, hmem, hmin, ?_⟩
    rw [h5 hne]
    exact least_le_mean _ best hne hmin
  · intro ev hev b hb
    exact (step_stats _ ev hev _ ⟨h1, h2, h3, h4, h5⟩).2 b hb

/-- A worked instance: the session `sampleSession` read from its `beginGame`
on; one window evaluation with `avgErrMs = 90` has been aggregated. -/
theorem best_error_is_least_aggregated_witness :
    (run (beginGame (run Engine.init [.bpmInput 0 (some 120)]) 0)
        [.hit 1 .K, .bpmInput 4 (some 120), .tick (445 / 100), .tick (49 / 10)]
      ).scoreState.bestErrMs = some 90 ∧
    (run (beginGame (run Engine.init [.bpmInput 0 (some 120)]) 0)
        [.hit 1 .K, .bpmInput 4 (some 120), .tick (445 / 100), .tick (49 / 10)]
      ).scoreState.beats =
      (aggregatedErrsDuring (beginGame (run Engine.init [.bpmInput 0 (some 120)]) 0)
        [.hit 1 .K, .bpmInput 4 (some 120), .tick (445 / 100), .tick (49 / 10)]).length :=
  ⟨by decide!,
    (best_error_is_least_aggregated (run Engine.init [.bpmInput 0 (some 120)]) 0
      [.hit 1 .K, .bpmInput 4 (some 120), .tick (445 / 100), .tick (49 / 10)]
      (by decide!)).2.1⟩

/-! ## Pause and resume -/

theorem togglePause_twice (e : Engine) (hs : e.started = true) (hp : e.paused = false) :
    togglePause (togglePause e) = e := by
  cases e
  simp_all [togglePause]

theorem run_paused (evs : List Event) (e : Engine) (hp : e.paused = true)
    (hevs : ∀ ev ∈ evs, (∃ t, ev = .tick t) ∨ ∃ t i, ev = .hit t i) : run e evs = e := by
  induction evs with
  | nil => rfl
  | cons ev rest ih =>
    have hrun : run e (ev :: rest) = run (step e ev) rest := rfl
    have hstep : step e ev = e := by
      rcases hevs ev (by simp) with ⟨t, rfl⟩ | ⟨t, i, rfl⟩
      · exact scheduleTick_idle e t (by simp [hp])
      · simp [step, registerHit, hp]
    rw [hrun, hstep]
    exact ih (fun ev' h' => hevs ev' (by simp [h']))

theorem scheduledBy_ge_anchor (e : Engine) (now : ℚ) :
    (∀ b ∈ scheduledBy e now, e.nextBeatTimeSec ≤ b.tSec) ∧
    (∀ b, (scheduledBy e now).head? = some b → b.tSec = e.nextBeatTimeSec) := by
  obtain ⟨n, hsched, -, -, -⟩ := scheduleDue_exact e now
  rw [hsched]
  constructor
  · intro b hb
    obtain ⟨k, -, -, ht, -⟩ := mem_beatsFrom hb
    have hbd := beatDurSec_pos e
    have : 0 ≤ (k : ℚ) * beatDurSec e := by positivity
    rw [ht]
    linarith
  · intro b hb
    exact (beatsFrom_head _ _ _ _ _ b hb).2

theorem step_anchor_mono (e : Engine) (ev : Event) (hev : ev.keepsSession = true) :
    e.nextBeatTimeSec ≤ (step e ev).nextBeatTimeSec := by
  cases ev with
  | tick now =>
    by_cases hrun : e.started = true ∧ e.paused = false
    · have hstep : (step e (.tick now)).nextBeatTimeSec =
          (scheduleDue e now).nextBeatTimeSec := (scheduleTick_anchor e now hrun.1 hrun.2).2
      obtain ⟨n, -, hdue, -, -⟩ := scheduleDue_exact e now
      rw [hstep, hdue]
      have hbd := beatDurSec_pos e
      have : 0 ≤ (n : ℚ) * beatDurSec e := by positivity
      simp only
      linarith
    · have hstep : step e (.tick now) = e := scheduleTick_idle e now hrun
      rw [hstep]
  | hit now i =>
    simp only [step, registerHit]
    split <;> simp [pruneTimelines]
  | pauseToggle =>
    simp only [step, togglePause]
    split <;> simp
  | bpmInput now v =>
    simp only [step, syncBpmInputs]
    split
    · exact le_max_left _ _
    · exact le_refl _
  | rhythmSelect r => exact le_refl _
  | begin now => simp [Event.keepsSession] at hev
  | stop => simp [Event.keepsSession] at hev

theorem run_anchor_mono (evs : List Event) (e : Engine)
    (hevs : ∀ ev ∈ evs, ev.keepsSession = true) :
    e.nextBeatTimeSec ≤ (run e evs).nextBeatTimeSec := by
  induction evs generalizing e with
  | nil => exact le_refl _
  | cons ev rest ih =>
    have hrun : run e (ev :: rest) = run (step e ev) rest := rfl
    rw [hrun]
    exact le_trans (step_anchor_mono e ev (hevs ev (by simp)))
      (ih (step e ev) (fun ev' h' => hevs ev' (by simp [h'])))

/-- C15, as the code has it. Pausing and resuming a started, unpaused session
leaves the engine state as it was: `togglePause` writes the `paused` flag only
and nothing recomputes the next-beat anchor, and while the session is paused
ticks and hits change nothing. So the first beat that a tick schedules after
the resume lies at the anchor of before the pause, and every beat it schedules
lies at or after it: they are at or after the resume instant `r` whenever the
anchor was. That is so when the paused state was reached from a tick that ran at
a clock value `t` with `r ≤ t + 0.14` by events that neither restart nor stop
the session: such a tick leaves the anchor at or beyond `t + 0.14`, and no
event but `begin` and `stop` moves the anchor back. -/
theorem pause_resume_leaves_anchor (e : Engine) (hs : e.started = true)
    (hp : e.paused = false) :
    togglePause (togglePause e) = e ∧
    (∀ evs : List Event, (∀ ev ∈ evs, (∃ t, ev = .tick t) ∨ ∃ t i, ev = .hit t i) →
      run (togglePause e) evs = togglePause e) ∧
    (∀ now b, (appendedBy (togglePause (togglePause e)) (.tick now)).head? = some b →
      b.tSec = e.nextBeatTimeSec) ∧
    (∀ now r, r ≤ e.nextBeatTimeSec →
      ∀ b ∈ appendedBy (togglePause (togglePause e)) (.tick now), r ≤ b.tSec) ∧
    (∀ (e1 : Engine) (t : ℚ) (evs : List Event),
      e1.started = true → e1.paused = false → (∀ ev ∈ evs, ev.keepsSession = true) →
      e = run (scheduleTick e1 t) evs →
      t + 14 / 100 ≤ e.nextBeatTimeSec ∧
      ∀ now r, r ≤ t + 14 / 100 →
        ∀ b ∈ appendedBy (togglePause (togglePause e)) (.tick now), r ≤ b.tSec) := by
  have htw := togglePause_twice e hs hp
  have happ : ∀ now, appendedBy e (.tick now) = scheduledBy e now := by
    intro now
    simp [appendedBy, hs, hp]
  have hfrom : ∀ now r, r ≤ e.nextBeatTimeSec →
      ∀ b ∈ appendedBy (togglePause (togglePause e)) (.tick now), r ≤ b.tSec := by
    intro now r hr b hb
    rw [htw, happ] at hb
    exact le_trans hr ((scheduledBy_ge_anchor e now).1 b hb)
  refine ⟨htw, ?_, ?_, hfrom, ?_⟩
  · intro evs hevs
    exact run_paused evs (togglePause e) (by simp [togglePause, hs, hp]) hevs
  · intro now b hb
    rw [htw, happ] at hb
    exact (scheduledBy_ge_anchor e now).2 b hb
  · intro e1 t evs hs1 hp1 hevs he
    have h1 : t + 14 / 100 ≤ (scheduleTick e1 t).nextBeatTimeSec := by
      rw [(scheduleTick_anchor e1 t hs1 hp1).2]
      have := scheduleDue_exit e1 t
      unfold SCHED_AHEAD_SEC at this
      exact this
    have h2 : t + 14 / 100 ≤ e.nextBeatTimeSec := by
      rw [he]
      exact le_trans h1 (run_anchor_mono evs _ hevs)
    exact ⟨h2, fun now r hr => hfrom now r (le_trans hr h2)⟩

/-- C15 as stated fails. A session at BPM 90 is begun at 0 s and ticks once at
0 s (beat 0 is scheduled at 0.1 s, the anchor moves to 0.767 s); no further
tick runs until the session is paused and resumed at clock value 1 s. The tick
at 1 s after the resume schedules beat 1 at 0.767 s, before the resume
instant. -/
theorem resume_can_schedule_beat_in_the_past :
    (run Engine.init [.begin 0, .tick 0]).started = true ∧
    (run Engine.init [.begin 0, .tick 0]).paused = false ∧
    (run Engine.init [.begin 0, .tick 0, .pauseToggle, .pauseToggle]).nextBeatTimeSec =
      23 / 30 ∧
    appendedBy (run Engine.init [.begin 0, .tick 0, .pauseToggle, .pauseToggle]) (.tick 1) =
      [⟨1, 23 / 30, none⟩] ∧
    (23 / 30 : ℚ) < 1 := by
  decide!

/-- A worked instance: the session begun at 0 s with a tick at 0 s and a hit
at 0.05 s, paused and resumed: a beat scheduled afterwards is not before
0.14 s. -/
theorem pause_resume_leaves_anchor_witness :
    togglePause (togglePause (run Engine.init [.begin 0, .tick 0, .hit (5 / 100) .K])) =
      run Engine.init [.begin 0, .tick 0, .hit (5 / 100) .K] ∧
    (0 : ℚ) + 14 / 100 ≤
      (run Engine.init [.begin 0, .tick 0, .hit (5 / 100) .K]).nextBeatTimeSec :=
  ⟨(pause_resume_leaves_anchor (run Engine.init [.begin 0, .tick 0, .hit (5 / 100) .K])
      (by decide!) (by decide!)).1,
    ((pause_resume_leaves_anchor (run Engine.init [.begin 0, .tick 0, .hit (5 / 100) .K])
      (by decide!) (by decide!)).2.2.2.2 (run Engine.init [.begin 0]) 0 [.hit (5 / 100) .K]
      (by decide!) (by decide!) (by decide!) (by decide!)).1⟩

/-- A worked instance: a session at BPM 90 with beats at 0.1 s and 0.767 s and
a hit at 1.5 s, pruned at 8.75 s (cutoff 0.75 s): the beat at 0.1 s goes, the
beat at 0.767 s and the hit stay. -/
theorem prune_keeps_exactly_the_recent_witness :
    clockNondecreasing [.begin 0, .tick 0, .tick 1, .hit (3 / 2) .K] ∧
    (run Engine.init [.begin 0, .tick 0, .tick 1, .hit (3 / 2) .K]).beatTimeline.length = 2 ∧
    (pruneTimelines (run Engine.init [.begin 0, .tick 0, .tick 1, .hit (3 / 2) .K])
      (35 / 4)).beatTimeline.map (fun b => b.tSec) = [23 / 30] ∧
    (pruneTimelines (run Engine.init [.begin 0, .tick 0, .tick 1, .hit (3 / 2) .K])
      (35 / 4)).hitTimeline.map (fun h => h.tSec) = [3 / 2] ∧
    (pruneTimelines (run Engine.init [.begin 0, .tick 0, .tick 1, .hit (3 / 2) .K])
        (35 / 4)).beatTimeline =
      (run Engine.init [.begin 0, .tick 0, .tick 1, .hit (3 / 2) .K]).beatTimeline.filter
        (fun b => decide (35 / 4 - 12 * (60 / bpmValue
          (run Engine.init [.begin 0, .tick 0, .tick 1, .hit (3 / 2) .K])) ≤ b.tSec)) :=
  ⟨by unfold clockNondecreasing; decide!, by decide!, by decide!, by decide!,
    (prune_keeps_exactly_the_recent [.begin 0, .tick 0, .tick 1, .hit (3 / 2) .K]
      (by unfold clockNondecreasing; decide!) (35 / 4)).2.1.1⟩

/-! ## Beats of the engine are at least 3/7 s apart -/

theorem beatsFrom_spaced (rhythm : List (Option Instrument)) (bd : ℚ) (hbd : 3 / 7 ≤ bd) (g : Int)
    (a : ℚ) (n : Nat) :
    (beatsFrom rhythm bd g a n).Pairwise (fun x y => x.tSec + 3 / 7 ≤ y.tSec) := by
  induction n generalizing g a with
  | zero => simp [beatsFrom]
  | succ n ih =>
    rw [beatsFrom_succ]
    refine List.pairwise_cons.2 ⟨?_, ih _ _⟩
    intro b hb
    obtain ⟨k, -, -, ht, -⟩ := mem_beatsFrom hb
    simp only
    rw [ht]
    have : 0 ≤ (k : ℚ) * bd := by positivity
    linarith

theorem timelineSpaced_of_suffix {e e' : Engine} (h : TimelineSpaced e)
    (hsuf : e'.beatTimeline <:+ e.beatTimeline)
    (hn : e.nextBeatTimeSec ≤ e'.nextBeatTimeSec) : TimelineSpaced e' := by
  refine ⟨h.1.sublist hsuf.sublist, ?_⟩
  intro b hb
  exact le_trans (h.2 b (hsuf.subset hb)) hn

theorem scheduleDue_spaced (e : Engine) (now : ℚ) (h : TimelineSpaced e) :
    TimelineSpaced (scheduleDue e now) := by
  obtain ⟨n, -, hdue, -, -⟩ := scheduleDue_exact e now
  have hbd := (beatDurSec_bounds e).1
  rw [hdue]
  refine ⟨?_, ?_⟩
  · simp only
    refine List.pairwise_append.2 ⟨h.1, beatsFrom_spaced _ _ hbd _ _ _, ?_⟩
    intro a ha b hb
    obtain ⟨k, -, -, ht, -⟩ := mem_beatsFrom hb
    have h2 := h.2 a ha
    have : 0 ≤ (k : ℚ) * beatDurSec e := by positivity
    rw [ht]
    linarith
  · intro b hb
    simp only at hb ⊢
    rcases List.mem_append.1 hb with hb | hb
    · have h2 := h.2 b hb
      have : 0 ≤ (n : ℚ) * beatDurSec e := by positivity
      linarith
    · obtain ⟨k, hk, -, ht, -⟩ := mem_beatsFrom hb
      have hkn : (k : ℚ) + 1 ≤ n := by exact_mod_cast hk
      have : ((k : ℚ) + 1) * beatDurSec e ≤ n * beatDurSec e :=
        mul_le_mul_of_nonneg_right hkn (by linarith)
      rw [ht]
      linarith

theorem step_spaced (e : Engine) (ev : Event) (h : TimelineSpaced e) :
    TimelineSpaced (step e ev) := by
  cases ev with
  | tick now =>
    by_cases hrun : e.started = true ∧ e.paused = false
    · have hstep : step e (.tick now) =
          scoreDue (pruneTimelines (scheduleDue e now) now) now (beatDurSec e) :=
        scheduleTick_running e now hrun.1 hrun.2
      rw [hstep]
      obtain ⟨-, -, -, -, c5, -, -, -⟩ :=
        scoreDue_sameControl (pruneTimelines (scheduleDue e now) now) now (beatDurSec e)
      refine timelineSpaced_of_suffix (scheduleDue_spaced e now h)
        ((scoreDue_timelines _ _ _).1.trans (pruneTimelines_suffix _ _).1) (le_of_eq c5.symm)
    · have hstep : step e (.tick now) = e := scheduleTick_idle e now hrun
      rw [hstep]
      exact h
  | hit now i =>
    simp only [step, registerHit]
    split
    · exact h
    · exact timelineSpaced_of_suffix h (List.dropWhile_suffix _) (le_refl _)
  | begin now => exact ⟨by simp [step, beginGame], by simp [step, beginGame]⟩
  | stop =>
    simp only [step]
    split
    · exact ⟨by simp [resetStateToIdle], by simp [resetStateToIdle]⟩
    · exact h
  | pauseToggle =>
    simp only [step, togglePause]
    split
    · exact h
    · exact h
  | bpmInput now v =>
    simp only [step, syncBpmInputs]
    split
    · exact timelineSpaced_of_suffix h (List.suffix_refl _) (le_max_left _ _)
    · exact h
  | rhythmSelect r => exact h

theorem run_spaced (evs : List Event) (e : Engine) (h : TimelineSpaced e) :
    TimelineSpaced (run e evs) := by
  induction evs generalizing e with
  | nil => exact h
  | cons ev rest ih => exact ih (step e ev) (step_spaced e ev h)

theorem init_spaced : TimelineSpaced Engine.init :=
  ⟨by simp [Engine.init], by simp [Engine.init]⟩

/-- C5, as the code has it. A window of four beats that all expect an
instrument and lie more than 190 ms apart, where every beat has its own hit of
the expected instrument within 10 ms and every hit that is not one of these
four lies more than 180 ms from every beat of the window, scores no miss, no
extra, an average error of at most 10 ms and tier 5. The beats of every window
that the engine scores are that far apart: in every state reached from the
loaded script the beats of the timeline, of which a window is a selection, are
at least 3/7 s apart. -/
theorem four_clean_hits_score_tier_five (hits : List Hit) (window : List Beat)
    (own : Nat → Nat) (hlen : window.length = 4)
    (hown : ∀ k (hk : k < window.length), ∃ h, hits[own k]? = some h ∧
      window[k].expected = some h.i ∧ |h.tSec - window[k].tSec| * 1000 ≤ 10)
    (hinj : ∀ j k, j < window.length → k < window.length → own j = own k → j = k)
    (hother : ∀ j h, hits[j]? = some h → (∀ k, k < window.length → j ≠ own k) →
      ∀ b ∈ window, 180 < |h.tSec - b.tSec| * 1000)
    (hapart : window.Pairwise (fun a b => 190 < |a.tSec - b.tSec| * 1000)) :
    ((scoreFromWindow hits window).misses = 0 ∧
      (scoreFromWindow hits window).extras = 0 ∧
      (scoreFromWindow hits window).avgErrMs ≤ 10 ∧
      (scoreFromWindow hits window).score = 5) ∧
    (∀ (evs : List Event) (w : List Beat),
      List.Sublist w (run Engine.init evs).beatTimeline →
        w.Pairwise (fun a b => a.tSec + 3 / 7 ≤ b.tSec) ∧
        w.Pairwise (fun a b => 190 < |a.tSec - b.tSec| * 1000)) := by
  constructor
  · refine tier_five_of_isolated_hits hits window own hlen hown hinj ?_
    intro k hk j h hj hne
    by_cases hex : ∃ k', k' < window.length ∧ j = own k'
    · obtain ⟨k', hk', rfl⟩ := hex
      obtain ⟨h', hh', -, herr⟩ := hown k' hk'
      rw [hj] at hh'
      obtain rfl : h = h' := Option.some.inj hh'
      have hkk : k' ≠ k := fun hc => hne (by rw [hc])
      have hap : 190 < |window[k'].tSec - window[k].tSec| * 1000 := by
        rcases Nat.lt_or_gt_of_ne hkk with hlt | hgt
        · exact List.pairwise_iff_getElem.1 hapart k' k hk' hk hlt
        · have := List.pairwise_iff_getElem.1 hapart k k' hk hk' hgt
          rwa [abs_sub_comm] at this
      have htri : |window[k'].tSec - window[k].tSec| ≤
          |h.tSec - window[k'].tSec| + |h.tSec - window[k].tSec| := by
        have := abs_sub_le window[k'].tSec h.tSec window[k].tSec
        rwa [abs_sub_comm window[k'].tSec h.tSec] at this
      nlinarith
    · have hno : ∀ k', k' < window.length → j ≠ own k' := by
        intro k' hk' hc
        exact hex ⟨k', hk', hc⟩
      exact hother j h hj hno window[k] (List.getElem_mem hk)
  · intro evs w hw
    have hsp := (run_spaced evs Engine.init init_spaced).1.sublist hw
    refine ⟨hsp, hsp.imp ?_⟩
    intro a b hab
    have : (0 : ℚ) ≤ b.tSec - a.tSec := by linarith
    rw [abs_sub_comm, abs_of_nonneg this]
    linarith

/-- C5 as stated fails for beats closer together than the matching range: four
kick beats 100 ms apart with one kick hit exactly on each and no other hit. At
each of the first three beats the hit of the next beat is a second candidate,
so line 539 counts three extras and the tier is 4. -/
theorem crowded_clean_hits_score_tier_four :
    crowdedWindow.length = 4 ∧
    (∀ b ∈ crowdedWindow, b.expected = some Instrument.K) ∧
    crowdedHits.map (fun h => h.tSec) = crowdedWindow.map (fun b => b.tSec) ∧
    (∀ h ∈ crowdedHits, h.i = Instrument.K) ∧
    (scoreFromWindow crowdedHits crowdedWindow).misses = 0 ∧
    (scoreFromWindow crowdedHits crowdedWindow).extras = 3 ∧
    (scoreFromWindow crowdedHits crowdedWindow).avgErrMs = 0 ∧
    (scoreFromWindow crowdedHits crowdedWindow).score = 4 := by
  decide!

/-- A worked instance: `cleanWindow` over `cleanHits`, every beat owning the hit
at its own position; the fifth hit, at 10 s, is far from all beats. -/
theorem four_clean_hits_score_tier_five_witness :
    (scoreFromWindow cleanHits cleanWindow).misses = 0 ∧
    (scoreFromWindow cleanHits cleanWindow).extras = 0 ∧
    (scoreFromWindow cleanHits cleanWindow).avgErrMs ≤ 10 ∧
    (scoreFromWindow cleanHits cleanWindow).score = 5 :=
  (four_clean_hits_score_tier_five cleanHits cleanWindow (fun k => k) rfl
    (by
      intro k hk
      have hk4 : k < 4 := hk
      have hfin : ∀ i : Fin 4, cleanWindow[i.val]?.bind (fun b => b.expected) =
            cleanHits[i.val]?.map (fun h => h.i) ∧
          (∀ h ∈ cleanHits[i.val]?, ∀ b ∈ cleanWindow[i.val]?,
            |h.tSec - b.tSec| * 1000 ≤ 10) ∧ (cleanHits[i.val]?).isSome = true := by
        decide!
      obtain ⟨h1, h2, h3⟩ := hfin ⟨k, hk4⟩
      obtain ⟨h, hh⟩ := Option.isSome_iff_exists.1 h3
      have hb : cleanWindow[k]? = some cleanWindow[k] := List.getElem?_eq_getElem hk
      simp only at hh h1 h2
      rw [hh, hb] at h1
      refine ⟨h, hh, by simpa using h1, ?_⟩
      exact h2 h (by simp [hh]) cleanWindow[k] (by simp [hb]))
    (by intro j k _ _ h; exact h)
    (by
      intro j h hj hno b hb
      obtain ⟨hj5, rfl⟩ := List.getElem?_eq_some_iff.1 hj
      have hj5' : j < 5 := hj5
      have hj4 : j = 4 := by
        by_contra hne
        have hlt : j < 4 := by omega
        exact hno j hlt rfl
      subst hj4
      have hfin : ∀ b ∈ cleanWindow, ∀ h ∈ cleanHits[4]?, 180 < |h.tSec - b.tSec| * 1000 := by
        decide!
      exact hfin b hb _ (by simp [List.getElem?_eq_getElem hj5]))
    (by unfold cleanWindow; decide!)).1

/-! ## A hit that no slot claims -/

theorem sortCandidates_cons (a : Candidate) (l : List Candidate) :
    sortCandidates (a :: l) =
      List.orderedInsert (fun a b : Candidate => a.errMs ≤ b.errMs) a (sortCandidates l) := rfl

theorem sortCandidates_head_le {l : List Candidate} {c : Candidate}
    (h : (sortCandidates l).head? = some c) : ∀ d ∈ l, c.errMs ≤ d.errMs := by
  haveI : IsTotal Candidate (fun a b => a.errMs ≤ b.errMs) := ⟨fun a b => le_total _ _⟩
  haveI : IsTrans Candidate (fun a b => a.errMs ≤ b.errMs) := ⟨fun _ _ _ h1 h2 => le_trans h1 h2⟩
  have hs : (sortCandidates l).Sorted (fun a b => a.errMs ≤ b.errMs) :=
    List.sorted_insertionSort _ _
  intro d hd
  have hd' : d ∈ sortCandidates l := (List.perm_insertionSort _ _).mem_iff.2 hd
  cases hsl : sortCandidates l with
  | nil => rw [hsl] at hd'; simp at hd'
  | cons b s =>
    rw [hsl] at h hs hd'
    simp only [List.head?_cons, Option.some.injEq] at h
    subst h
    rcases List.mem_cons.1 hd' with rfl | hm
    · exact le_refl _
    · exact List.rel_of_sorted_cons hs d hm

theorem head_orderedInsert (a : Candidate) (s : List Candidate) :
    (List.orderedInsert (fun a b : Candidate => a.errMs ≤ b.errMs) a s).head? =
      some (match s.head? with
        | none => a
        | some b => if a.errMs ≤ b.errMs then a else b) := by
  cases s with
  | nil => simp
  | cons b s =>
    simp only [List.orderedInsert, List.head?_cons]
    split <;> simp

/-- The head of the sorted candidates when one candidate is added to the
list: it is the added one, or the head there was. -/
theorem sortCandidates_head_insert (l1 l2 : List Candidate) (x : Candidate) :
    (sortCandidates (l1 ++ x :: l2)).head? = some x ∨
      (sortCandidates (l1 ++ l2) ≠ [] ∧
        (sortCandidates (l1 ++ x :: l2)).head? = (sortCandidates (l1 ++ l2)).head?) := by
  induction l1 with
  | nil =>
    simp only [List.nil_append]
    rw [sortCandidates_cons, head_orderedInsert]
    cases hs : sortCandidates l2 with
    | nil => left; simp
    | cons b s =>
      simp only [List.head?_cons]
      by_cases hle : x.errMs ≤ b.errMs
      · left; simp [hle]
      · right; simp [hle]
  | cons a l1 ih =>
    simp only [List.cons_append]
    rw [sortCandidates_cons, sortCandidates_cons, head_orderedInsert, head_orderedInsert]
    have hne : List.orderedInsert (fun a b : Candidate => a.errMs ≤ b.errMs) a
        (sortCandidates (l1 ++ l2)) ≠ [] := by
      intro hc
      have := congrArg List.length hc
      simp [List.orderedInsert_length] at this
    rcases ih with hx | ⟨-, heq⟩
    · rw [hx]
      simp only
      by_cases hle : a.errMs ≤ x.errMs
      · right
        refine ⟨hne, ?_⟩
        rw [if_pos hle]
        cases hs : (sortCandidates (l1 ++ l2)).head? with
        | none => rfl
        | some m =>
          simp only
          have hm : m ∈ l1 ++ l2 := by
            have : m ∈ sortCandidates (l1 ++ l2) := List.mem_of_mem_head? hs
            exact (List.perm_insertionSort _ _).mem_iff.1 this
          have hxm : x.errMs ≤ m.errMs := by
            refine sortCandidates_head_le hx m ?_
            rcases List.mem_append.1 hm with h1 | h2
            · exact List.mem_append_left _ h1
            · exact List.mem_append_right _ (List.mem_cons_of_mem _ h2)
          rw [if_pos (le_trans hle hxm)]
      · left
        rw [if_neg hle]
    · right
      exact ⟨hne, by rw [heq]⟩

theorem collectCandidates_append (used : List Nat) (t : ℚ) (l1 l2 : List Hit) (k : Nat) :
    collectCandidates used t (l1 ++ l2) k =
      collectCandidates used t l1 k ++ collectCandidates used t l2 (k + l1.length) := by
  induction l1 generalizing k with
  | nil => simp [collectCandidates]
  | cons h rest ih =>
    have hk : k + (h :: rest).length = k + 1 + rest.length := by simp; omega
    have e1 : ∀ r : List Hit, collectCandidates used t (h :: r) k =
        if k ∈ used then collectCandidates used t r (k + 1)
        else if errMsOf h t ≤ MATCH_MAX_MS then
          { hi := k, h := h, errMs := errMsOf h t } :: collectCandidates used t r (k + 1)
        else collectCandidates used t r (k + 1) := fun r => by rw [collectCandidates]
    rw [hk]
    simp only [List.cons_append]
    rw [e1, e1]
    by_cases hu : k ∈ used
    · rw [if_pos hu, if_pos hu]; exact ih (k + 1)
    · rw [if_neg hu, if_neg hu]
      by_cases he : errMsOf h t ≤ MATCH_MAX_MS
      · rw [if_pos he, if_pos he, ih (k + 1)]; rfl
      · rw [if_neg he, if_neg he]; exact ih (k + 1)

theorem collectCandidates_before (used : List Nat) (t : ℚ) (p : Nat) (l : List Hit)
    (k : Nat) (hk : k + l.length ≤ p) :
    collectCandidates (used.map (bump p)) t l k =
      (collectCandidates used t l k).map (fun c => { c with hi := bump p c.hi }) := by
  induction l generalizing k with
  | nil => simp [collectCandidates]
  | cons h rest ih =>
    have hlen : k + 1 + rest.length ≤ p := by simp at hk; omega
    have hb : bump p k = k := by unfold bump; split <;> omega
    have hmem : k ∈ used.map (bump p) ↔ k ∈ used := by
      have h0 := bump_mem p k used
      rw [hb] at h0
      exact h0
    unfold collectCandidates
    by_cases hu : k ∈ used
    · rw [if_pos (hmem.2 hu), if_pos hu]; exact ih (k + 1) hlen
    · rw [if_neg (fun h' => hu (hmem.1 h')), if_neg hu]
      by_cases he : errMsOf h t ≤ MATCH_MAX_MS
      · rw [if_pos he, if_pos he, List.map_cons, ih (k + 1) hlen, hb]
      · rw [if_neg he, if_neg he]; exact ih (k + 1) hlen

theorem bump_ne (p a : Nat) : bump p a ≠ p := by
  unfold bump
  split <;> omega

theorem not_mem_map_bump (p : Nat) (used : List Nat) : p ∉ used.map (bump p) := by
  intro h
  obtain ⟨a, -, ha⟩ := List.mem_map.1 h
  exact bump_ne p a ha

/-- The unsorted candidates of a slot when a hit within reach of it is put
into the hit timeline: the candidates there were, with that hit among them. -/
theorem collectCandidates_insert_near (used : List Nat) (t : ℚ) (x : Hit)
    (hx : errMsOf x t ≤ MATCH_MAX_MS) (pre post : List Hit) :
    collectCandidates (used.map (bump pre.length)) t (pre ++ x :: post) 0 =
      (collectCandidates used t pre 0).map (fun c => { c with hi := bump pre.length c.hi }) ++
        { hi := pre.length, h := x, errMs := errMsOf x t } ::
        (collectCandidates used t post pre.length).map
          (fun c => { c with hi := bump pre.length c.hi }) := by
  rw [collectCandidates_append, collectCandidates_before used t pre.length pre 0 (by simp)]
  congr 1
  simp only [Nat.zero_add]
  conv_lhs => unfold collectCandidates
  rw [if_neg (not_mem_map_bump _ _), if_pos hx,
    collectCandidates_after used t pre.length post pre.length (le_refl _)]

theorem candidatesFor_insert_near (used : List Nat) (t : ℚ) (x : Hit)
    (hx : errMsOf x t ≤ MATCH_MAX_MS) (pre post : List Hit) :
    (candidatesFor (pre ++ x :: post) (used.map (bump pre.length)) t).length =
      (candidatesFor (pre ++ post) used t).length + 1 ∧
    ((candidatesFor (pre ++ x :: post) (used.map (bump pre.length)) t).head? =
        some { hi := pre.length, h := x, errMs := errMsOf x t } ∨
      (candidatesFor (pre ++ post) used t ≠ [] ∧
        (candidatesFor (pre ++ x :: post) (used.map (bump pre.length)) t).head? =
          ((candidatesFor (pre ++ post) used t).map
            (fun c => { c with hi := bump pre.length c.hi })).head?)) := by
  have hmap : ∀ l : List Candidate,
      sortCandidates (l.map (fun c => { c with hi := bump pre.length c.hi })) =
        (sortCandidates l).map (fun c => { c with hi := bump pre.length c.hi }) := by
    intro l
    exact (List.map_insertionSort (fun a b : Candidate => a.errMs ≤ b.errMs)
      (fun a b : Candidate => a.errMs ≤ b.errMs)
      (fun c : Candidate => { c with hi := bump pre.length c.hi }) l
      (fun a _ b _ => Iff.rfl)).symm
  have hsplit : collectCandidates used t (pre ++ post) 0 =
      collectCandidates used t pre 0 ++ collectCandidates used t post pre.length := by
    rw [collectCandidates_append]; simp
  unfold candidatesFor
  rw [collectCandidates_insert_near used t x hx pre post, hsplit]
  constructor
  · simp [sortCandidates, List.length_insertionSort]
    omega
  · rcases sortCandidates_head_insert
        ((collectCandidates used t pre 0).map (fun c => { c with hi := bump pre.length c.hi }))
        ((collectCandidates used t post pre.length).map
          (fun c => { c with hi := bump pre.length c.hi }))
        { hi := pre.length, h := x, errMs := errMsOf x t } with h1 | ⟨h1, h2⟩
    · exact Or.inl h1
    · right
      rw [← List.map_append, hmap] at h1 h2
      refine ⟨?_, h2⟩
      intro hc
      rw [hc] at h1
      exact h1 rfl

/-- One iteration of the beat loop with and without a hit that this iteration
does not claim: the same claim, miss and error; one more extra when the slot
expects an instrument and the hit is within reach of it. -/
theorem matchBeat_insert_unclaimed (st : MatchState) (b : Beat) (x : Hit)
    (pre post : List Hit) (c : Nat)
    (hun : pre.length ∉
      (matchBeat (pre ++ x :: post) (bumpStateExtra pre.length c st) b).usedHitIdx) :
    matchBeat (pre ++ x :: post) (bumpStateExtra pre.length c st) b =
      bumpStateExtra pre.length
        (c + if (b.expected.isSome && decide (errMsOf x b.tSec ≤ MATCH_MAX_MS)) = true
          then 1 else 0)
        (matchBeat (pre ++ post) st b) := by
  by_cases hx : errMsOf x b.tSec ≤ MATCH_MAX_MS
  · obtain ⟨hlen, hhead⟩ := candidatesFor_insert_near st.usedHitIdx b.tSec x hx pre post
    rw [matchBeat_usedHitIdx] at hun
    have hused : (bumpStateExtra pre.length c st).usedHitIdx =
        st.usedHitIdx.map (bump pre.length) := rfl
    rw [hused] at hun
    cases hcs' : candidatesFor (pre ++ x :: post) (st.usedHitIdx.map (bump pre.length)) b.tSec with
    | nil => rw [hcs'] at hlen; simp at hlen
    | cons c' more' =>
      rw [hcs'] at hun hlen hhead
      simp only [List.mem_cons, not_or] at hun
      rcases hhead with h1 | ⟨hne, h2⟩
      · simp only [List.head?_cons, Option.some.injEq] at h1
        rw [h1] at hun
        exact absurd rfl hun.1
      · cases hcs : candidatesFor (pre ++ post) st.usedHitIdx b.tSec with
        | nil => exact absurd hcs hne
        | cons c0 more =>
          rw [hcs] at h2 hlen
          simp only [List.head?_cons, List.map_cons, Option.some.injEq] at h2
          simp only [List.length_cons] at hlen
          have hml : more'.length = more.length + 1 := by omega
          unfold matchBeat
          simp only [hused, hcs', hcs]
          cases hexp : b.expected with
          | none =>
            simp [bumpStateExtra, h2, hx]
            omega
          | some ex =>
            by_cases hi : c0.h.i = ex
            · by_cases hm : more = []
              · simp [bumpStateExtra, h2, hx, hi, hm, hml]
                omega
              · have : 0 < more.length := List.length_pos.2 hm
                simp [bumpStateExtra, h2, hx, hi, hml, this]
                omega
            · by_cases hm : more = []
              · simp [bumpStateExtra, h2, hx, hi, hm, hml]
                omega
              · have : 0 < more.length := List.length_pos.2 hm
                simp [bumpStateExtra, h2, hx, hi, hml, this]
                omega
  · have hfar : MATCH_MAX_MS < errMsOf x b.tSec := not_le.1 hx
    have hc := candidatesFor_insert st.usedHitIdx b.tSec x hfar pre post
    unfold matchBeat
    simp only [bumpStateExtra] at hc ⊢
    rw [hc]
    cases hexp : b.expected with
    | none =>
      cases hcs : candidatesFor (pre ++ post) st.usedHitIdx b.tSec with
      | nil => simp [hx]
      | cons c more =>
        simp [hx]
        omega
    | some ex =>
      cases hcs : candidatesFor (pre ++ post) st.usedHitIdx b.tSec with
      | nil => simp [hx]
      | cons c0 more =>
        by_cases hi : c0.h.i = ex
        · by_cases hm : more = []
          · simp [hi, hm, hx]
          · have : 0 < more.length := List.length_pos.2 hm
            simp [hi, hx, this]
            omega
        · by_cases hm : more = []
          · simp [hi, hm, hx]
          · have : 0 < more.length := List.length_pos.2 hm
            simp [hi, hx, this]
            omega

/-- The whole beat loop with and without a hit that no slot claims. -/
theorem matchLoop_insert_unclaimed (window : List Beat) (st : MatchState) (x : Hit)
    (pre post : List Hit) (c : Nat)
    (hun : pre.length ∉
      (matchLoop (pre ++ x :: post) (bumpStateExtra pre.length c st) window).usedHitIdx) :
    matchLoop (pre ++ x :: post) (bumpStateExtra pre.length c st) window =
      bumpStateExtra pre.length (c + expectedSlotsNear x window)
        (matchLoop (pre ++ post) st window) := by
  induction window generalizing st c with
  | nil => simp [matchLoop, expectedSlotsNear]
  | cons b rest ih =>
    have h1 : ∀ hits s, matchLoop hits s (b :: rest) = matchLoop hits (matchBeat hits s b) rest :=
      fun _ _ => rfl
    rw [h1] at hun
    have hstep : pre.length ∉
        (matchBeat (pre ++ x :: post) (bumpStateExtra pre.length c st) b).usedHitIdx :=
      fun hmem => hun ((matchLoop_used_suffix _ rest _).subset hmem)
    have hb := matchBeat_insert_unclaimed st b x pre post c hstep
    rw [hb] at hun
    rw [h1, h1, hb, ih _ _ hun]
    congr 1
    unfold expectedSlotsNear
    rw [List.countP_cons]
    omega


/-- C2, as the code has it. The extras count returned by `scoreFromWindow` is
the number of rest slots that had at least one not-yet-claimed hit within
180 ms plus, for every slot with an expected instrument, the number of its
not-yet-claimed hits within 180 ms beyond the first (line 539). A rest slot
with such a hit claims exactly one hit, adds one extra and contributes 180 ms;
a slot with an expected instrument adds its surplus candidates to the extras.
A hit farther than 180 ms from every beat of the window changes nothing in the
result. A hit that no slot claims, wherever it stands in the hit timeline,
changes no claim, no miss and no error contribution; it adds one to the extras
count for every slot with an expected instrument within 180 ms of it and
changes nothing else, so such a hit near rest slots only leaves the whole
result as it is. -/
theorem extras_count_with_surplus (hits : List Hit) (window : List Beat) :
    (scoreFromWindow hits window).extras =
      restSlotsWithHit hits window + surplusCandidates hits window ∧
    (∀ k b, window[k]? = some b → b.expected = none → 0 < nearAt hits window k →
      ∃ hi h, hits[hi]? = some h ∧ hi ∉ (stateAfter hits window k).usedHitIdx ∧
        errMsOf h b.tSec ≤ MATCH_MAX_MS ∧
        stateAfter hits window (k + 1) =
          { usedHitIdx := hi :: (stateAfter hits window k).usedHitIdx,
            misses := (stateAfter hits window k).misses,
            extras := (stateAfter hits window k).extras + 1,
            errs := (stateAfter hits window k).errs ++ [MATCH_MAX_MS] }) ∧
    (∀ k b, window[k]? = some b → b.expected ≠ none →
      (stateAfter hits window (k + 1)).extras =
        (stateAfter hits window k).extras + (nearAt hits window k - 1)) ∧
    (∀ pre post x, hits = pre ++ post → (∀ b ∈ window, MATCH_MAX_MS < errMsOf x b.tSec) →
      scoreFromWindow (pre ++ x :: post) window = scoreFromWindow hits window) ∧
    (∀ pre post x, hits = pre ++ post →
      pre.length ∉ (matchLoop (pre ++ x :: post) MatchState.init window).usedHitIdx →
      (matchLoop (pre ++ x :: post) MatchState.init window).usedHitIdx =
        (matchLoop hits MatchState.init window).usedHitIdx.map (bump pre.length) ∧
      (matchLoop (pre ++ x :: post) MatchState.init window).errs =
        (matchLoop hits MatchState.init window).errs ∧
      (scoreFromWindow (pre ++ x :: post) window).misses = (scoreFromWindow hits window).misses ∧
      (scoreFromWindow (pre ++ x :: post) window).avgErrMs =
        (scoreFromWindow hits window).avgErrMs ∧
      (scoreFromWindow (pre ++ x :: post) window).extras =
        (scoreFromWindow hits window).extras + expectedSlotsNear x window ∧
      (expectedSlotsNear x window = 0 →
        scoreFromWindow (pre ++ x :: post) window = scoreFromWindow hits window)) := by
  refine ⟨?_, ?_, ?_, ?_, ?_⟩
  · have h := stateAfter_extras hits window window.length (le_refl _)
    rw [stateAfter_length] at h
    simpa [scoreFromWindow, finishScore, restSlotsWithHit, surplusCandidates] using h
  · intro k b hkb hexp hnear
    obtain ⟨hk, hb⟩ := List.getElem?_eq_some_iff.1 hkb
    subst hb
    rw [stateAfter_succ _ _ _ hk]
    have hn : nearAt hits window k =
        unclaimedNear hits (stateAfter hits window k).usedHitIdx window[k].tSec := by
      simp [nearAt, hkb]
    rw [hn] at hnear
    exact (matchBeat_rest hits _ _ hexp).2 hnear
  · intro k b hkb hexp
    obtain ⟨hk, hb⟩ := List.getElem?_eq_some_iff.1 hkb
    subst hb
    rw [stateAfter_succ _ _ _ hk, matchBeat_extras]
    have hn : nearAt hits window k =
        unclaimedNear hits (stateAfter hits window k).usedHitIdx window[k].tSec := by
      simp [nearAt, hkb]
    rw [hn]
    cases hx : window[k].expected with
    | none => exact absurd hx hexp
    | some ex => rfl
  · intro pre post x hh hx
    subst hh
    exact scoreFromWindow_insert_far window x hx pre post
  · intro pre post x hh hun
    subst hh
    have h0 : bumpStateExtra pre.length 0 MatchState.init = MatchState.init := by
      simp [bumpStateExtra, MatchState.init]
    have h := matchLoop_insert_unclaimed window MatchState.init x pre post 0
      (by rw [h0]; exact hun)
    rw [h0, Nat.zero_add] at h
    refine ⟨?_, ?_, ?_, ?_, ?_, ?_⟩
    · rw [h]; rfl
    · rw [h]; rfl
    · simp only [scoreFromWindow, finishScore, h, bumpStateExtra]
    · simp only [scoreFromWindow, finishScore, h, bumpStateExtra]
    · simp only [scoreFromWindow, finishScore, h, bumpStateExtra]
    · intro hz
      simp only [scoreFromWindow, finishScore, h, bumpStateExtra, hz, Nat.add_zero]

/-- An unclaimed hit near a rest slot: the rest slot at 1 s has the hits at
1 s and at 1.05 s within reach and claims the first; without the second hit the
result is the same. -/
theorem unclaimed_hit_near_rest_sample :
    (matchLoop [⟨0, .K⟩, ⟨1, .S⟩, ⟨105 / 100, .S⟩] MatchState.init
        [⟨0, 0, some .K⟩, ⟨1, 1, none⟩]).usedHitIdx = [1, 0] ∧
    expectedSlotsNear ⟨105 / 100, .S⟩ [⟨0, 0, some .K⟩, ⟨1, 1, none⟩] = 0 ∧
    scoreFromWindow [⟨0, .K⟩, ⟨1, .S⟩, ⟨105 / 100, .S⟩] [⟨0, 0, some .K⟩, ⟨1, 1, none⟩] =
      scoreFromWindow [⟨0, .K⟩, ⟨1, .S⟩] [⟨0, 0, some .K⟩, ⟨1, 1, none⟩] := by
  decide!

/-! ## Rounding to binary64 -/

theorem roundHalfEven_bounds (q : ℚ) :
    q - 1 / 2 ≤ roundHalfEven q ∧ (roundHalfEven q : ℚ) ≤ q + 1 / 2 := by
  have h1 := Int.floor_le q
  have h2 := Int.lt_floor_add_one q
  unfold roundHalfEven
  split_ifs with a b c
  · constructor <;> linarith
  · constructor <;> push_cast <;> linarith
  · constructor <;> linarith
  · constructor <;> push_cast <;> linarith

theorem roundHalfEven_intCast (n : ℤ) : roundHalfEven (n : ℚ) = n := by
  unfold roundHalfEven
  simp

theorem roundHalfEven_mono {p q : ℚ} (h : p ≤ q) : roundHalfEven p ≤ roundHalfEven q := by
  have hf : ⌊p⌋ ≤ ⌊q⌋ := Int.floor_mono h
  have hp1 := Int.floor_le p
  have hp2 := Int.lt_floor_add_one p
  have hq1 := Int.floor_le q
  have hq2 := Int.lt_floor_add_one q
  rcases lt_or_eq_of_le hf with hlt | heq
  · have hp : roundHalfEven p ≤ ⌊p⌋ + 1 := by
      unfold roundHalfEven
      split_ifs <;> omega
    have hq : ⌊q⌋ ≤ roundHalfEven q := by
      unfold roundHalfEven
      split_ifs <;> omega
    omega
  · unfold roundHalfEven
    rw [heq] at hp1 hp2 ⊢
    have hd : p - (⌊q⌋ : ℚ) ≤ q - (⌊q⌋ : ℚ) := by linarith
    split_ifs <;> first | omega | (exfalso; linarith)

theorem halvings_spec (fuel : Nat) : ∀ n : Nat, 0 < n → n ≤ fuel →
    2 ^ halvings fuel n ≤ n ∧ n < 2 ^ (halvings fuel n + 1) := by
  induction fuel with
  | zero => intro n hn hf; omega
  | succ fuel ih =>
    intro n hn hf
    by_cases h2 : 2 ≤ n
    · have e : halvings (fuel + 1) n = halvings fuel (n / 2) + 1 := by simp [halvings, h2]
      obtain ⟨l, u⟩ := ih (n / 2) (by omega) (by omega)
      rw [e]
      constructor
      · rw [pow_succ]; omega
      · rw [pow_succ]; omega
    · have e : halvings (fuel + 1) n = 0 := by simp [halvings, h2]
      rw [e]
      simp
      omega

theorem ilog2_spec (n : Nat) (hn : 0 < n) : 2 ^ ilog2 n ≤ n ∧ n < 2 ^ (ilog2 n + 1) :=
  halvings_spec n n hn (le_refl n)

theorem abs_eq_natAbs_div (x : ℚ) : |x| = (x.num.natAbs : ℚ) / (x.den : ℚ) := by
  have hd : (0 : ℚ) < x.den := by exact_mod_cast x.den_pos
  conv_lhs => rw [← Rat.num_div_den x]
  rw [abs_div, abs_of_pos hd]
  congr 1
  rw [← Int.cast_abs, ← Int.natCast_natAbs, Int.cast_natCast]

/-- The binary exponent brackets the number. -/
theorem binade_spec (x : ℚ) (hx : x ≠ 0) :
    (2 : ℚ) ^ binade x ≤ |x| ∧ |x| < (2 : ℚ) ^ (binade x + 1) := by
  have hN : 0 < x.num.natAbs := Int.natAbs_pos.2 (Rat.num_ne_zero.2 hx)
  have hD : 0 < x.den := x.den_pos
  obtain ⟨a1, a2⟩ := ilog2_spec _ hN
  obtain ⟨b1, b2⟩ := ilog2_spec _ hD
  have a1q : (2 : ℚ) ^ ilog2 x.num.natAbs ≤ (x.num.natAbs : ℚ) := by exact_mod_cast a1
  have a2q : (x.num.natAbs : ℚ) < (2 : ℚ) ^ (ilog2 x.num.natAbs + 1) := by exact_mod_cast a2
  have b1q : (2 : ℚ) ^ ilog2 x.den ≤ (x.den : ℚ) := by exact_mod_cast b1
  have b2q : (x.den : ℚ) < (2 : ℚ) ^ (ilog2 x.den + 1) := by exact_mod_cast b2
  have hDq : (0 : ℚ) < x.den := by exact_mod_cast hD
  have hNq : (0 : ℚ) < x.num.natAbs := by exact_mod_cast hN
  have hpb : (0 : ℚ) < (2 : ℚ) ^ ilog2 x.den := by positivity
  have hpb1 : (0 : ℚ) < (2 : ℚ) ^ (ilog2 x.den + 1) := by positivity
  have habs := abs_eq_natAbs_div x
  have hup : |x| < (2 : ℚ) ^ ((ilog2 x.num.natAbs : ℤ) - (ilog2 x.den : ℤ) + 1) := by
    have e : (2 : ℚ) ^ ((ilog2 x.num.natAbs : ℤ) - (ilog2 x.den : ℤ) + 1) =
        (2 : ℚ) ^ (ilog2 x.num.natAbs + 1) / (2 : ℚ) ^ ilog2 x.den := by
      rw [show ((ilog2 x.num.natAbs : ℤ) - (ilog2 x.den : ℤ) + 1) =
        ((ilog2 x.num.natAbs + 1 : ℕ) : ℤ) - ((ilog2 x.den : ℕ) : ℤ) by push_cast; ring,
        zpow_sub₀ (two_ne_zero), zpow_natCast, zpow_natCast]
    rw [e, habs, div_lt_div_iff₀ hDq hpb]
    calc (x.num.natAbs : ℚ) * (2 : ℚ) ^ ilog2 x.den
        ≤ (x.num.natAbs : ℚ) * x.den := by
          exact mul_le_mul_of_nonneg_left b1q (le_of_lt hNq)
      _ < (2 : ℚ) ^ (ilog2 x.num.natAbs + 1) * x.den := by
          exact mul_lt_mul_of_pos_right a2q hDq
  have hlo : (2 : ℚ) ^ ((ilog2 x.num.natAbs : ℤ) - (ilog2 x.den : ℤ) - 1) ≤ |x| := by
    have e : (2 : ℚ) ^ ((ilog2 x.num.natAbs : ℤ) - (ilog2 x.den : ℤ) - 1) =
        (2 : ℚ) ^ ilog2 x.num.natAbs / (2 : ℚ) ^ (ilog2 x.den + 1) := by
      rw [show ((ilog2 x.num.natAbs : ℤ) - (ilog2 x.den : ℤ) - 1) =
        ((ilog2 x.num.natAbs : ℕ) : ℤ) - ((ilog2 x.den + 1 : ℕ) : ℤ) by push_cast; ring,
        zpow_sub₀ (two_ne_zero), zpow_natCast, zpow_natCast]
    rw [e, habs, div_le_div_iff₀ hpb1 hDq]
    calc (2 : ℚ) ^ ilog2 x.num.natAbs * x.den
        ≤ (x.num.natAbs : ℚ) * x.den := by
          exact mul_le_mul_of_nonneg_right a1q (le_of_lt hDq)
      _ ≤ (x.num.natAbs : ℚ) * (2 : ℚ) ^ (ilog2 x.den + 1) := by
          exact mul_le_mul_of_nonneg_left (le_of_lt b2q) (le_of_lt hNq)
  unfold binade
  split_ifs with h
  · exact ⟨h, hup⟩
  · refine ⟨hlo, ?_⟩
    rw [sub_add_cancel]
    exact not_le.1 h

theorem binade_unique (x : ℚ) (e : ℤ) (h1 : (2 : ℚ) ^ e ≤ |x|) (h2 : |x| < (2 : ℚ) ^ (e + 1)) :
    binade x = e := by
  have hx : x ≠ 0 := by
    intro h0
    rw [h0, abs_zero] at h1
    have : (0 : ℚ) < (2 : ℚ) ^ e := by positivity
    linarith
  obtain ⟨s1, s2⟩ := binade_spec x hx
  have c1 : (2 : ℚ) ^ e < (2 : ℚ) ^ (binade x + 1) := lt_of_le_of_lt h1 s2
  have c2 : (2 : ℚ) ^ binade x < (2 : ℚ) ^ (e + 1) := lt_of_le_of_lt s1 h2
  rw [zpow_lt_zpow_iff_right₀ (by norm_num : (1 : ℚ) < 2)] at c1 c2
  omega

theorem binade_mono {x y : ℚ} (hx : 0 < x) (hxy : x ≤ y) : binade x ≤ binade y := by
  obtain ⟨s1, -⟩ := binade_spec x (ne_of_gt hx)
  obtain ⟨-, t2⟩ := binade_spec y (ne_of_gt (lt_of_lt_of_le hx hxy))
  rw [abs_of_pos hx] at s1
  rw [abs_of_pos (lt_of_lt_of_le hx hxy)] at t2
  have c : (2 : ℚ) ^ binade x < (2 : ℚ) ^ (binade y + 1) := by linarith
  rw [zpow_lt_zpow_iff_right₀ (by norm_num : (1 : ℚ) < 2)] at c
  omega

theorem ulpAt_pos (x : ℚ) : 0 < ulpAt x := by
  unfold ulpAt
  positivity

theorem roundDouble_zero : roundDouble 0 = 0 := by simp [roundDouble]

theorem roundDouble_of_ne {x : ℚ} (hx : x ≠ 0) :
    roundDouble x = roundHalfEven (x / ulpAt x) * ulpAt x := by
  simp [roundDouble, hx]

/-- The rounding error is at most half the spacing. -/
theorem roundDouble_err (x : ℚ) : |roundDouble x - x| ≤ ulpAt x / 2 := by
  have hu := ulpAt_pos x
  by_cases hx : x = 0
  · rw [hx, roundDouble_zero]
    have := ulpAt_pos 0
    simp only [sub_zero, abs_zero]
    linarith
  · rw [roundDouble_of_ne hx]
    obtain ⟨b1, b2⟩ := roundHalfEven_bounds (x / ulpAt x)
    have hxu : x = x / ulpAt x * ulpAt x := by field_simp
    rw [abs_le]
    constructor
    · have := mul_le_mul_of_nonneg_right b1 (le_of_lt hu)
      rw [sub_mul, ← hxu] at this
      linarith
    · have := mul_le_mul_of_nonneg_right b2 (le_of_lt hu)
      rw [add_mul, ← hxu] at this
      linarith

theorem roundDouble_nonneg {x : ℚ} (hx : 0 ≤ x) : 0 ≤ roundDouble x := by
  by_cases h0 : x = 0
  · rw [h0, roundDouble_zero]
  · rw [roundDouble_of_ne h0]
    have hu := ulpAt_pos x
    have hq : (0 : ℚ) ≤ x / ulpAt x := by positivity
    have := roundHalfEven_mono hq
    rw [show (0 : ℚ) = ((0 : ℤ) : ℚ) by norm_num, roundHalfEven_intCast] at this
    have h2 : (0 : ℚ) ≤ (roundHalfEven (x / ulpAt x) : ℚ) := by exact_mod_cast this
    positivity

/-- Rounding keeps the order of non-negative numbers. -/
theorem roundDouble_mono {x y : ℚ} (hx : 0 ≤ x) (hxy : x ≤ y) :
    roundDouble x ≤ roundDouble y := by
  by_cases h0 : x = 0
  · rw [h0, roundDouble_zero]
    exact roundDouble_nonneg (le_trans hx hxy)
  have hxp : 0 < x := lt_of_le_of_ne hx (Ne.symm h0)
  have hyp : 0 < y := lt_of_lt_of_le hxp hxy
  rw [roundDouble_of_ne h0, roundDouble_of_ne (ne_of_gt hyp)]
  have hb := binade_mono hxp hxy
  have hux := ulpAt_pos x
  have huy := ulpAt_pos y
  rcases lt_or_eq_of_le (max_le_max hb (le_refl (-1022 : ℤ))) with hlt | heq
  · -- different exponents: a power of two lies between the two results
    have hey : max (binade y) (-1022) = binade y := by
      rcases le_total (binade y) (-1022) with h | h
      · rw [max_eq_right h] at hlt
        have := le_max_right (binade x) (-1022)
        omega
      · exact max_eq_left h
    obtain ⟨-, sx⟩ := binade_spec x h0
    obtain ⟨sy, -⟩ := binade_spec y (ne_of_gt hyp)
    rw [abs_of_pos hxp] at sx
    rw [abs_of_pos hyp] at sy
    have h53 : (2 : ℚ) ^ (53 : ℤ) = ((2 ^ 53 : ℤ) : ℚ) := by norm_num
    have h52 : (2 : ℚ) ^ (52 : ℤ) = ((2 ^ 52 : ℤ) : ℚ) := by norm_num
    have e1 : (2 : ℚ) ^ (max (binade x) (-1022) + 1) = (2 : ℚ) ^ (53 : ℤ) * ulpAt x := by
      unfold ulpAt
      rw [← zpow_add₀ (two_ne_zero)]
      congr 1
      ring
    have e2 : (2 : ℚ) ^ binade y = (2 : ℚ) ^ (52 : ℤ) * ulpAt y := by
      unfold ulpAt
      rw [hey, ← zpow_add₀ (two_ne_zero)]
      congr 1
      ring
    have hxle : x < (2 : ℚ) ^ (max (binade x) (-1022) + 1) :=
      lt_of_lt_of_le sx (zpow_le_zpow_right₀ (by norm_num)
        (by have := le_max_left (binade x) (-1022); omega))
    have hqx : x / ulpAt x ≤ ((2 ^ 53 : ℤ) : ℚ) := by
      rw [div_le_iff₀ hux, ← h53, ← e1]
      exact le_of_lt hxle
    have hqy : ((2 ^ 52 : ℤ) : ℚ) ≤ y / ulpAt y := by
      rw [le_div_iff₀ huy, ← h52, ← e2]
      exact sy
    have rx := roundHalfEven_mono hqx
    have ry := roundHalfEven_mono hqy
    rw [roundHalfEven_intCast] at rx ry
    have rxq : (roundHalfEven (x / ulpAt x) : ℚ) ≤ ((2 ^ 53 : ℤ) : ℚ) := by exact_mod_cast rx
    have ryq : ((2 ^ 52 : ℤ) : ℚ) ≤ (roundHalfEven (y / ulpAt y) : ℚ) := by exact_mod_cast ry
    calc (roundHalfEven (x / ulpAt x) : ℚ) * ulpAt x
        ≤ ((2 ^ 53 : ℤ) : ℚ) * ulpAt x := mul_le_mul_of_nonneg_right rxq (le_of_lt hux)
      _ = (2 : ℚ) ^ (max (binade x) (-1022) + 1) := by rw [e1, h53]
      _ ≤ (2 : ℚ) ^ binade y := zpow_le_zpow_right₀ (by norm_num) (by rw [hey] at hlt; omega)
      _ = ((2 ^ 52 : ℤ) : ℚ) * ulpAt y := by rw [e2, h52]
      _ ≤ (roundHalfEven (y / ulpAt y) : ℚ) * ulpAt y :=
          mul_le_mul_of_nonneg_right ryq (le_of_lt huy)
  · have hu : ulpAt x = ulpAt y := by
      unfold ulpAt
      rw [heq]
    rw [hu]
    have hq : x / ulpAt y ≤ y / ulpAt y := div_le_div_of_nonneg_right hxy (le_of_lt huy)
    have := roundHalfEven_mono hq
    have hq2 : (roundHalfEven (x / ulpAt y) : ℚ) ≤ (roundHalfEven (y / ulpAt y) : ℚ) := by
      exact_mod_cast this
    exact mul_le_mul_of_nonneg_right hq2 (le_of_lt huy)

/-! ## The rounded engine: what scheduling and scoring leave alone -/

theorem beatDurSecF_congr (r : ℚ → ℚ) {e e' : Engine} (h : e'.bpmNum = e.bpmNum) :
    beatDurSecF r e' = beatDurSecF r e := by
  simp [beatDurSecF, bpmValue, h]

theorem pruneTimelinesF_sameControl (r : ℚ → ℚ) (e : Engine) (now : ℚ) :
    SameControl e (pruneTimelinesF r e now) :=
  ⟨rfl, rfl, rfl, rfl, rfl, rfl, rfl, rfl⟩

theorem onTrackingResumeF_sameControl (r : ℚ → ℚ) (e : Engine) (now : ℚ) :
    SameControl e (onTrackingResumeF r e now) :=
  ⟨rfl, rfl, rfl, rfl, rfl, rfl, rfl, rfl⟩

theorem updateGateF_sameControl (r : ℚ → ℚ) (e : Engine) (now : ℚ) (activeNow : Bool) :
    SameControl e (updateGateF r e now activeNow) := by
  unfold updateGateF
  simp only
  split_ifs
  · exact ⟨rfl, rfl, rfl, rfl, rfl, rfl, rfl, rfl⟩
  · exact onTrackingResumeF_sameControl r e now
  · exact ⟨rfl, rfl, rfl, rfl, rfl, rfl, rfl, rfl⟩
  · exact SameControl.refl e

theorem evaluateBeatF_sameControl (r : ℚ → ℚ) (eligible : List Beat) (e : Engine) (b : Beat) :
    SameControl e (evaluateBeatF r eligible e b) := by
  unfold evaluateBeatF
  split
  · exact SameControl.refl e
  · exact ⟨rfl, rfl, rfl, rfl, rfl, rfl, rfl, rfl⟩

theorem foldl_evaluateBeatF_sameControl (r : ℚ → ℚ) (eligible l : List Beat) (e : Engine) :
    SameControl e (l.foldl (evaluateBeatF r eligible) e) := by
  induction l generalizing e with
  | nil => exact SameControl.refl e
  | cons b rest ih =>
    exact SameControl.trans (evaluateBeatF_sameControl r eligible e b) (ih _)

theorem scoreDueF_sameControl (r : ℚ → ℚ) (e : Engine) (now bd : ℚ) :
    SameControl e (scoreDueF r e now bd) := by
  unfold scoreDueF
  simp only
  split
  · exact updateGateF_sameControl _ _ _ _
  · split
    · exact updateGateF_sameControl _ _ _ _
    · exact SameControl.trans (updateGateF_sameControl _ _ _ _)
        (foldl_evaluateBeatF_sameControl _ _ _ _)

/-! ## The rounded scheduling loop -/

theorem anchorF_succ_left (r : ℚ → ℚ) (bd a : ℚ) (k : Nat) :
    anchorF r bd a (k + 1) = anchorF r bd (r (a + bd)) k := by
  induction k with
  | zero => rfl
  | succ k ih =>
    have h1 : ∀ x n, anchorF r bd x (n + 1) = r (anchorF r bd x n + bd) := fun _ _ => rfl
    rw [h1 a (k + 1), ih, ← h1]

theorem beatsFromF_succ (r : ℚ → ℚ) (rhythm : List (Option Instrument)) (bd : ℚ) (g : Int)
    (a : ℚ) (n : Nat) :
    beatsFromF r rhythm bd g a (n + 1) =
      { idx := g, tSec := a, expected := expectedAt rhythm g } ::
        beatsFromF r rhythm bd (g + 1) (r (a + bd)) n := by
  unfold beatsFromF
  rw [List.range_succ_eq_map, List.map_cons, List.map_map]
  congr 1
  · simp [anchorF]
  · apply List.map_congr_left
    intro k _
    simp only [Function.comp, Nat.succ_eq_add_one, Nat.cast_add, Nat.cast_one]
    have h1 : g + 1 + (k : ℤ) = g + ((k : ℤ) + 1) := by ring
    rw [h1, anchorF_succ_left]

theorem length_beatsFromF (r : ℚ → ℚ) (rhythm : List (Option Instrument)) (bd : ℚ) (g : Int)
    (a : ℚ) (n : Nat) : (beatsFromF r rhythm bd g a n).length = n := by
  simp [beatsFromF]

theorem mem_beatsFromF {r : ℚ → ℚ} {rhythm : List (Option Instrument)} {bd : ℚ} {g : Int}
    {a : ℚ} {n : Nat} {b : Beat} (hb : b ∈ beatsFromF r rhythm bd g a n) :
    ∃ k : Nat, k < n ∧ b.idx = g + k ∧ b.tSec = anchorF r bd a k ∧
      b.expected = expectedAt rhythm (g + k) := by
  unfold beatsFromF at hb
  obtain ⟨k, hk, rfl⟩ := List.mem_map.1 hb
  exact ⟨k, List.mem_range.1 hk, rfl, rfl, rfl⟩

/-- The rounded scheduling loop appends the beats whose anchor was below the
horizon when the loop condition was tested, and stops at the first anchor that
is not, unless it is cut off. -/
theorem scheduleLoopF_beats (r : ℚ → ℚ) (bd : ℚ) (rhythm : List (Option Instrument))
    (horizon : ℚ) (fuel : Nat) (e : Engine) :
    ∃ n : Nat, n ≤ fuel ∧
      scheduleLoopF r bd rhythm horizon fuel e =
        { e with
          beatTimeline := e.beatTimeline ++
            beatsFromF r rhythm bd e.globalBeatIndex e.nextBeatTimeSec n,
          globalBeatIndex := e.globalBeatIndex + n,
          nextBeatTimeSec := anchorF r bd e.nextBeatTimeSec n } ∧
      (∀ m : Nat, m < n → anchorF r bd e.nextBeatTimeSec m < horizon) ∧
      (n < fuel → horizon ≤ anchorF r bd e.nextBeatTimeSec n) := by
  induction fuel generalizing e with
  | zero => exact ⟨0, le_refl _, by simp [scheduleLoopF, beatsFromF, anchorF], by simp, by simp⟩
  | succ fuel ih =>
    unfold scheduleLoopF
    split
    · rename_i hlt
      obtain ⟨n, hle, hn, hm, hex⟩ := ih (scheduleBeatF r bd rhythm e)
      refine ⟨n + 1, by omega, ?_, ?_, ?_⟩
      · rw [hn, beatsFromF_succ, anchorF_succ_left]
        simp only [scheduleBeatF, List.append_assoc, List.singleton_append,
          Nat.cast_add, Nat.cast_one]
        congr 1
        ring
      · intro m hmn
        cases m with
        | zero => simpa [anchorF] using hlt
        | succ m =>
          have := hm m (by omega)
          simp only [scheduleBeatF] at this
          rw [anchorF_succ_left]
          exact this
      · intro hlt2
        have := hex (by omega)
        simp only [scheduleBeatF] at this
        rw [anchorF_succ_left]
        exact this
    · rename_i hge
      exact ⟨0, by omega, by simp [beatsFromF, anchorF], by simp,
        fun _ => by simpa [anchorF] using hge⟩

/-- Once the rounded loop has left its condition false, more iterations change
nothing. -/
theorem scheduleLoopF_more_fuel (r : ℚ → ℚ) (bd : ℚ) (rhythm : List (Option Instrument))
    (horizon : ℚ) (fuel k : Nat) (e : Engine)
    (hexit : ¬ (scheduleLoopF r bd rhythm horizon fuel e).nextBeatTimeSec < horizon) :
    scheduleLoopF r bd rhythm horizon (fuel + k) e = scheduleLoopF r bd rhythm horizon fuel e := by
  induction fuel generalizing e with
  | zero =>
    simp only [scheduleLoopF] at hexit
    cases k with
    | zero => rfl
    | succ k =>
      rw [Nat.zero_add]
      simp [scheduleLoopF, hexit]
  | succ fuel ih =>
    have hk : fuel + 1 + k = (fuel + k) + 1 := by omega
    rw [hk]
    unfold scheduleLoopF
    unfold scheduleLoopF at hexit
    by_cases hlt : e.nextBeatTimeSec < horizon
    · simp only [hlt, if_true] at hexit ⊢
      exact ih _ hexit
    · simp only [hlt, if_false]

theorem scheduleDueF_frame (r : ℚ → ℚ) (e : Engine) (now : ℚ) :
    ∃ n : Nat,
      scheduledByF r e now =
        beatsFromF r (selectedRhythm e) (beatDurSecF r e) e.globalBeatIndex
          e.nextBeatTimeSec n ∧
      scheduleDueF r e now =
        { e with
          beatTimeline := e.beatTimeline ++
            beatsFromF r (selectedRhythm e) (beatDurSecF r e) e.globalBeatIndex
              e.nextBeatTimeSec n,
          globalBeatIndex := e.globalBeatIndex + n,
          nextBeatTimeSec := anchorF r (beatDurSecF r e) e.nextBeatTimeSec n } ∧
      (∀ m : Nat, m < n →
        anchorF r (beatDurSecF r e) e.nextBeatTimeSec m < r (now + r (14 / 100))) ∧
      (n < scheduleFuelF (beatDurSecF r e) (r (now + r (14 / 100))) e.nextBeatTimeSec →
        r (now + r (14 / 100)) ≤ anchorF r (beatDurSecF r e) e.nextBeatTimeSec n) ∧
      n ≤ scheduleFuelF (beatDurSecF r e) (r (now + r (14 / 100))) e.nextBeatTimeSec := by
  obtain ⟨n, hle, hn, hm, hex⟩ := scheduleLoopF_beats r (beatDurSecF r e) (selectedRhythm e)
    (r (now + r (14 / 100)))
    (scheduleFuelF (beatDurSecF r e) (r (now + r (14 / 100))) e.nextBeatTimeSec) e
  refine ⟨n, ?_, hn, hm, hex, hle⟩
  unfold scheduledByF scheduleDueF
  rw [hn]
  simp

theorem scheduleDueF_fields (r : ℚ → ℚ) (e : Engine) (now : ℚ) :
    (scheduleDueF r e now).bpmNum = e.bpmNum ∧ (scheduleDueF r e now).rhythmSel = e.rhythmSel ∧
    (scheduleDueF r e now).started = e.started ∧ (scheduleDueF r e now).paused = e.paused ∧
    (scheduleDueF r e now).hasEverHit = e.hasEverHit ∧
    (scheduleDueF r e now).lastInputTimeSec = e.lastInputTimeSec ∧
    (scheduleDueF r e now).trackingActive = e.trackingActive ∧
    (scheduleDueF r e now).hitTimeline = e.hitTimeline ∧
    (scheduleDueF r e now).scoreState = e.scoreState ∧
    (scheduleDueF r e now).lastEvaluatedBeatIdx = e.lastEvaluatedBeatIdx := by
  obtain ⟨n, -, h, -⟩ := scheduleDueF_frame r e now
  rw [h]
  exact ⟨rfl, rfl, rfl, rfl, rfl, rfl, rfl, rfl, rfl, rfl⟩

theorem scheduleTickF_running (r : ℚ → ℚ) (e : Engine) (now : ℚ) (hs : e.started = true)
    (hp : e.paused = false) :
    scheduleTickF r e now =
      scoreDueF r (pruneTimelinesF r (scheduleDueF r e now) now) now (beatDurSecF r e) := by
  simp [scheduleTickF, hs, hp]

theorem scheduleTickF_idle (r : ℚ → ℚ) (e : Engine) (now : ℚ)
    (h : ¬(e.started = true ∧ e.paused = false)) :
    scheduleTickF r e now = e := by
  unfold scheduleTickF
  by_cases hs : e.started = true
  · have hp : e.paused = true := by
      by_contra hp
      exact h ⟨hs, by simpa using hp⟩
    simp [hs, hp]
  · simp [hs]

/-! ## The rounded tracking gate -/

theorem evaluateBeatF_timelines (r : ℚ → ℚ) (eligible : List Beat) (e : Engine) (b : Beat) :
    (evaluateBeatF r eligible e b).trackingActive = e.trackingActive ∧
    (evaluateBeatF r eligible e b).beatTimeline = e.beatTimeline ∧
    (evaluateBeatF r eligible e b).hitTimeline = e.hitTimeline := by
  unfold evaluateBeatF
  split <;> exact ⟨rfl, rfl, rfl⟩

theorem foldl_evaluateBeatF_timelines (r : ℚ → ℚ) (eligible l : List Beat) (e : Engine) :
    (l.foldl (evaluateBeatF r eligible) e).trackingActive = e.trackingActive ∧
    (l.foldl (evaluateBeatF r eligible) e).beatTimeline = e.beatTimeline ∧
    (l.foldl (evaluateBeatF r eligible) e).hitTimeline = e.hitTimeline := by
  induction l generalizing e with
  | nil => exact ⟨rfl, rfl, rfl⟩
  | cons b rest ih =>
    obtain ⟨a1, a2, a3⟩ := ih (evaluateBeatF r eligible e b)
    obtain ⟨b1, b2, b3⟩ := evaluateBeatF_timelines r eligible e b
    exact ⟨a1.trans b1, a2.trans b2, a3.trans b3⟩

theorem updateGateF_trackingActive (r : ℚ → ℚ) (e : Engine) (now : ℚ) (activeNow : Bool) :
    (updateGateF r e now activeNow).trackingActive = activeNow := by
  unfold updateGateF
  cases hta : e.trackingActive <;> cases activeNow <;>
    simp [hta, onTrackingResumeF, pruneTimelinesF]

theorem scoreDueF_trackingActive (r : ℚ → ℚ) (e : Engine) (now bd : ℚ) :
    (scoreDueF r e now bd).trackingActive = isTrackingActiveF r e now := by
  unfold scoreDueF
  simp only
  split
  · exact updateGateF_trackingActive _ _ _ _
  · split
    · exact updateGateF_trackingActive _ _ _ _
    · rw [(foldl_evaluateBeatF_timelines _ _ _ _).1]
      exact updateGateF_trackingActive _ _ _ _

theorem isTrackingActiveF_congr (r : ℚ → ℚ) {e e' : Engine} (h1 : e'.bpmNum = e.bpmNum)
    (h2 : e'.hasEverHit = e.hasEverHit) (h3 : e'.lastInputTimeSec = e.lastInputTimeSec)
    (now : ℚ) : isTrackingActiveF r e' now = isTrackingActiveF r e now := by
  unfold isTrackingActiveF
  rw [h2, h3, beatDurSecF_congr r h1]

theorem isTrackingActiveF_iff (r : ℚ → ℚ) (e : Engine) (now : ℚ) :
    isTrackingActiveF r e now = true ↔
      e.hasEverHit = true ∧
        ∃ last, e.lastInputTimeSec = some last ∧
          r (r (now - last) / r (60 / bpmValue e)) < 8 := by
  unfold isTrackingActiveF
  cases hh : e.hasEverHit with
  | false => simp
  | true =>
    cases hl : e.lastInputTimeSec with
    | none => simp
    | some last =>
      simp only [Bool.not_true, Bool.false_eq_true, if_false, decide_eq_true_eq, true_and,
        Option.some.injEq, exists_eq_left', INPUT_IDLE_BEATS, beatDurSecF]

/-- A rounded tick leaves the settings, the lifecycle flags and the input
record as they are. -/
theorem scheduleTickF_control (r : ℚ → ℚ) (e : Engine) (now : ℚ) :
    (scheduleTickF r e now).bpmNum = e.bpmNum ∧
    (scheduleTickF r e now).rhythmSel = e.rhythmSel ∧
    (scheduleTickF r e now).started = e.started ∧ (scheduleTickF r e now).paused = e.paused ∧
    (scheduleTickF r e now).hasEverHit = e.hasEverHit ∧
    (scheduleTickF r e now).lastInputTimeSec = e.lastInputTimeSec := by
  by_cases hrun : e.started = true ∧ e.paused = false
  · rw [scheduleTickF_running r e now hrun.1 hrun.2]
    obtain ⟨c1, c2, c3, c4, -, -, c7, c8⟩ :=
      scoreDueF_sameControl r (pruneTimelinesF r (scheduleDueF r e now) now) now
        (beatDurSecF r e)
    obtain ⟨d1, d2, d3, d4, d5, d6, -⟩ := scheduleDueF_fields r e now
    exact ⟨c1.trans d1, c2.trans d2, c3.trans d3, c4.trans d4, c7.trans d5, c8.trans d6⟩
  · rw [scheduleTickF_idle r e now hrun]
    exact ⟨rfl, rfl, rfl, rfl, rfl, rfl⟩

/-- After a rounded tick that runs, the gate flag is the value of
`isTrackingActive` for the state the tick started from. -/
theorem scheduleTickF_trackingActive (r : ℚ → ℚ) (e : Engine) (now : ℚ)
    (hs : e.started = true) (hp : e.paused = false) :
    (scheduleTickF r e now).trackingActive = isTrackingActiveF r e now := by
  rw [scheduleTickF_running r e now hs hp, scoreDueF_trackingActive]
  obtain ⟨d1, -, -, -, d5, d6, -⟩ := scheduleDueF_fields r e now
  exact isTrackingActiveF_congr r d1 d5 d6 now

/-- After a rounded tick that runs, the anchor and the counter are those the
scheduling loop has left. -/
theorem scheduleTickF_anchor (r : ℚ → ℚ) (e : Engine) (now : ℚ) (hs : e.started = true)
    (hp : e.paused = false) :
    (scheduleTickF r e now).globalBeatIndex = (scheduleDueF r e now).globalBeatIndex ∧
    (scheduleTickF r e now).nextBeatTimeSec = (scheduleDueF r e now).nextBeatTimeSec := by
  rw [scheduleTickF_running r e now hs hp]
  obtain ⟨-, -, -, -, c5, c6, -, -⟩ :=
    scoreDueF_sameControl r (pruneTimelinesF r (scheduleDueF r e now) now) now
      (beatDurSecF r e)
  exact ⟨c6, c5⟩

theorem stepF_started (r : ℚ → ℚ) (e : Engine) (ev : Event) (hev : ev.keepsSession = true) :
    (stepF r e ev).started = e.started := by
  cases ev with
  | tick now => exact (scheduleTickF_control r e now).2.2.1
  | hit now i =>
    simp only [stepF, registerHitF]
    split <;> rfl
  | pauseToggle =>
    simp only [stepF, togglePause]
    split <;> rfl
  | rhythmSelect rid => rfl
  | bpmInput now v =>
    simp only [stepF, syncBpmInputsF]
    split <;> rfl
  | begin now => simp [Event.keepsSession] at hev
  | stop => simp [Event.keepsSession] at hev

theorem stepF_input (r : ℚ → ℚ) (e : Engine) (ev : Event) (hev : ev.keepsSession = true) :
    (stepF r e ev).lastInputTimeSec = (registeredAt e ev).or e.lastInputTimeSec ∧
    (stepF r e ev).hasEverHit = ((registeredAt e ev).isSome || e.hasEverHit) := by
  cases ev with
  | tick now =>
    exact ⟨(scheduleTickF_control r e now).2.2.2.2.2, (scheduleTickF_control r e now).2.2.2.2.1⟩
  | hit now i =>
    simp only [stepF, registerHitF, registeredAt]
    cases hs : e.started <;> cases hp : e.paused <;> simp [pruneTimelinesF]
  | pauseToggle =>
    simp only [stepF, togglePause, registeredAt]
    split <;> exact ⟨rfl, rfl⟩
  | rhythmSelect rid => exact ⟨rfl, rfl⟩
  | bpmInput now v =>
    simp only [stepF, syncBpmInputsF, registeredAt]
    split <;> exact ⟨rfl, rfl⟩
  | begin now => simp [Event.keepsSession] at hev
  | stop => simp [Event.keepsSession] at hev

/-- Along a rounded run without restart or stop, the input record holds the
last hit that took effect. -/
theorem runF_input (r : ℚ → ℚ) (evs : List Event) (e : Engine)
    (hevs : ∀ ev ∈ evs, ev.keepsSession = true) :
    (runF r e evs).started = e.started ∧
    (runF r e evs).lastInputTimeSec = (lastRegisteredHitF r e evs).or e.lastInputTimeSec ∧
    (runF r e evs).hasEverHit = ((lastRegisteredHitF r e evs).isSome || e.hasEverHit) := by
  induction evs generalizing e with
  | nil => simp [runF, lastRegisteredHitF]
  | cons ev rest ih =>
    have hev := hevs ev (by simp)
    obtain ⟨i1, i2, i3⟩ := ih (stepF r e ev) (fun ev' h' => hevs ev' (by simp [h']))
    obtain ⟨s1, s2⟩ := stepF_input r e ev hev
    have hrun : runF r e (ev :: rest) = runF r (stepF r e ev) rest := rfl
    have hlast : lastRegisteredHitF r e (ev :: rest) =
        (lastRegisteredHitF r (stepF r e ev) rest).or (registeredAt e ev) := rfl
    rw [hrun, hlast, i2, i3, s1, s2]
    refine ⟨i1.trans (stepF_started r e ev hev), ?_, ?_⟩
    · cases lastRegisteredHitF r (stepF r e ev) rest <;> cases registeredAt e ev <;> rfl
    · cases lastRegisteredHitF r (stepF r e ev) rest <;> cases registeredAt e ev <;> simp

/-! ## Beat indices in the rounded engine -/

theorem pruneTimelinesF_suffix (r : ℚ → ℚ) (e : Engine) (now : ℚ) :
    (pruneTimelinesF r e now).beatTimeline <:+ e.beatTimeline ∧
    (pruneTimelinesF r e now).hitTimeline <:+ e.hitTimeline :=
  ⟨List.dropWhile_suffix _, List.dropWhile_suffix _⟩

theorem updateGateF_beatTimeline (r : ℚ → ℚ) (e : Engine) (now : ℚ) (activeNow : Bool) :
    (updateGateF r e now activeNow).beatTimeline <:+ e.beatTimeline := by
  unfold updateGateF
  simp only
  split_ifs
  · exact List.dropWhile_suffix _
  · exact List.dropWhile_suffix _
  · exact List.suffix_refl _
  · exact List.suffix_refl _

theorem scoreDueF_beatTimeline (r : ℚ → ℚ) (e : Engine) (now bd : ℚ) :
    (scoreDueF r e now bd).beatTimeline <:+ e.beatTimeline := by
  unfold scoreDueF
  simp only
  split
  · exact updateGateF_beatTimeline _ _ _ _
  · split
    · exact updateGateF_beatTimeline _ _ _ _
    · rw [(foldl_evaluateBeatF_timelines _ _ _ _).2.1]
      exact updateGateF_beatTimeline _ _ _ _

theorem indicesOrdered_of_suffix {e e' : Engine} (h : IndicesOrdered e)
    (hsuf : e'.beatTimeline <:+ e.beatTimeline) (hg : e'.globalBeatIndex = e.globalBeatIndex) :
    IndicesOrdered e' := by
  refine ⟨h.1.sublist hsuf.sublist, ?_⟩
  intro b hb
  rw [hg]
  exact h.2 b (hsuf.subset hb)

theorem scheduleDueF_indices (r : ℚ → ℚ) (e : Engine) (now : ℚ) (h : IndicesOrdered e) :
    IndicesOrdered (scheduleDueF r e now) := by
  obtain ⟨n, -, hdue, -⟩ := scheduleDueF_frame r e now
  rw [hdue]
  refine ⟨?_, ?_⟩
  · simp only
    refine List.pairwise_append.2 ⟨h.1, ?_, ?_⟩
    · unfold beatsFromF
      rw [List.pairwise_map]
      refine List.Pairwise.imp ?_ (List.pairwise_lt_range n)
      intro a b hab
      simp only
      omega
    · intro a ha b hb
      obtain ⟨k, -, hidx, -⟩ := mem_beatsFromF hb
      have := h.2 a ha
      omega
  · intro b hb
    simp only at hb ⊢
    rcases List.mem_append.1 hb with hb | hb
    · have := h.2 b hb
      omega
    · obtain ⟨k, hk, hidx, -⟩ := mem_beatsFromF hb
      omega

theorem stepF_indices (r : ℚ → ℚ) (e : Engine) (ev : Event) (h : IndicesOrdered e) :
    IndicesOrdered (stepF r e ev) := by
  cases ev with
  | tick now =>
    by_cases hrun : e.started = true ∧ e.paused = false
    · have hstep : stepF r e (.tick now) =
          scoreDueF r (pruneTimelinesF r (scheduleDueF r e now) now) now (beatDurSecF r e) :=
        scheduleTickF_running r e now hrun.1 hrun.2
      rw [hstep]
      obtain ⟨-, -, -, -, -, c6, -, -⟩ :=
        scoreDueF_sameControl r (pruneTimelinesF r (scheduleDueF r e now) now) now
          (beatDurSecF r e)
      exact indicesOrdered_of_suffix (scheduleDueF_indices r e now h)
        ((scoreDueF_beatTimeline _ _ _ _).trans (pruneTimelinesF_suffix _ _ _).1) c6
    · have hstep : stepF r e (.tick now) = e := scheduleTickF_idle r e now hrun
      rw [hstep]
      exact h
  | hit now i =>
    simp only [stepF, registerHitF]
    split
    · exact h
    · exact indicesOrdered_of_suffix h (List.dropWhile_suffix _) rfl
  | begin now => exact ⟨by simp [stepF, beginGameF], by simp [stepF, beginGameF]⟩
  | stop =>
    simp only [stepF]
    split
    · exact ⟨by simp [resetStateToIdle], by simp [resetStateToIdle]⟩
    · exact h
  | pauseToggle =>
    simp only [stepF, togglePause]
    split
    · exact h
    · exact h
  | bpmInput now v =>
    simp only [stepF, syncBpmInputsF]
    split
    · exact indicesOrdered_of_suffix h (List.suffix_refl _) rfl
    · exact h
  | rhythmSelect rid => exact h

/-- In every state of the rounded engine the beat indices increase along the
timeline. -/
theorem runF_indices (r : ℚ → ℚ) (evs : List Event) (e : Engine) (h : IndicesOrdered e) :
    IndicesOrdered (runF r e evs) := by
  induction evs generalizing e with
  | nil => exact h
  | cons ev rest ih => exact ih (stepF r e ev) (stepF_indices r e ev h)

theorem init_indices : IndicesOrdered Engine.init :=
  ⟨by simp [Engine.init], by simp [Engine.init]⟩

/-! ## Error bounds of the rounding -/

theorem binade_ge_of_le {x : ℚ} {k : ℤ} (hx : 0 < x) (h : (2 : ℚ) ^ k ≤ x) : k ≤ binade x := by
  obtain ⟨-, s2⟩ := binade_spec x (ne_of_gt hx)
  rw [abs_of_pos hx] at s2
  have c : (2 : ℚ) ^ k < (2 : ℚ) ^ (binade x + 1) := lt_of_le_of_lt h s2
  rw [zpow_lt_zpow_iff_right₀ (by norm_num : (1 : ℚ) < 2)] at c
  omega

theorem binade_lt_of_lt {x : ℚ} {k : ℤ} (hx : 0 < x) (h : x < (2 : ℚ) ^ k) : binade x < k := by
  obtain ⟨s1, -⟩ := binade_spec x (ne_of_gt hx)
  rw [abs_of_pos hx] at s1
  have c : (2 : ℚ) ^ binade x < (2 : ℚ) ^ k := lt_of_le_of_lt s1 h
  rwa [zpow_lt_zpow_iff_right₀ (by norm_num : (1 : ℚ) < 2)] at c

theorem half_ulpAt (x : ℚ) : ulpAt x / 2 = (2 : ℚ) ^ (max (binade x) (-1022) - 53) := by
  unfold ulpAt
  rw [show max (binade x) (-1022) - 52 = (max (binade x) (-1022) - 53) + 1 by ring,
    zpow_add₀ (two_ne_zero), zpow_one]
  ring

theorem tiny_le {x : ℚ} (hx : 1 / 1024 ≤ x) : (2 : ℚ) ^ (-1022 : ℤ) ≤ x := by
  have h1 : (2 : ℚ) ^ (-1022 : ℤ) ≤ (2 : ℚ) ^ (-10 : ℤ) :=
    zpow_le_zpow_right₀ (by norm_num) (by norm_num)
  have h2 : (2 : ℚ) ^ (-10 : ℤ) = 1 / 1024 := by norm_num
  exact le_trans h1 (le_trans (le_of_eq h2) hx)

/-- The relative rounding error in the normal range is at most `2^(-53)`. -/
theorem roundDouble_err_rel {x : ℚ} (hx : 1 / 1024 ≤ x) :
    |roundDouble x - x| ≤ x / 2 ^ 53 := by
  have hpos : 0 < x := lt_of_lt_of_le (by norm_num) hx
  have hb : (-1022 : ℤ) ≤ binade x := binade_ge_of_le hpos (tiny_le hx)
  obtain ⟨s1, -⟩ := binade_spec x (ne_of_gt hpos)
  rw [abs_of_pos hpos] at s1
  refine le_trans (roundDouble_err x) ?_
  rw [half_ulpAt, max_eq_left hb, zpow_sub₀ (two_ne_zero)]
  have h53 : (2 : ℚ) ^ (53 : ℤ) = 2 ^ 53 := by norm_num
  rw [h53]
  exact div_le_div_of_nonneg_right s1 (by positivity)

/-- The absolute rounding error below `2^k` is at most `2^(k-54)`. -/
theorem roundDouble_err_abs {x : ℚ} (k : ℤ) (hk : -1021 ≤ k) (h0 : 0 ≤ x)
    (hx : x < (2 : ℚ) ^ k) : |roundDouble x - x| ≤ (2 : ℚ) ^ (k - 54) := by
  by_cases hz : x = 0
  · rw [hz, roundDouble_zero]
    simp only [sub_zero, abs_zero]
    positivity
  · have hpos : 0 < x := lt_of_le_of_ne h0 (Ne.symm hz)
    have hb := binade_lt_of_lt hpos hx
    refine le_trans (roundDouble_err x) ?_
    rw [half_ulpAt]
    refine zpow_le_zpow_right₀ (by norm_num) ?_
    have : max (binade x) (-1022) ≤ k - 1 := max_le (by omega) (by omega)
    omega

/-- Rounding commutes with a multiplication by 8 in the normal range. -/
theorem roundDouble_mul_eight {x : ℚ} (hx : 1 / 1024 ≤ x) :
    roundDouble (8 * x) = 8 * roundDouble x := by
  have hpos : 0 < x := lt_of_lt_of_le (by norm_num) hx
  have hb : (-1022 : ℤ) ≤ binade x := binade_ge_of_le hpos (tiny_le hx)
  obtain ⟨s1, s2⟩ := binade_spec x (ne_of_gt hpos)
  rw [abs_of_pos hpos] at s1 s2
  have h8 : (8 : ℚ) = (2 : ℚ) ^ (3 : ℤ) := by norm_num
  have hb8 : binade (8 * x) = binade x + 3 := by
    apply binade_unique
    · rw [abs_of_pos (by positivity), zpow_add₀ (two_ne_zero), ← h8]
      linarith
    · rw [abs_of_pos (by positivity),
        show binade x + 3 + 1 = (binade x + 1) + 3 by ring, zpow_add₀ (two_ne_zero), ← h8]
      linarith
  have hu : ulpAt (8 * x) = 8 * ulpAt x := by
    unfold ulpAt
    rw [hb8, max_eq_left hb, max_eq_left (by omega : (-1022 : ℤ) ≤ binade x + 3),
      show binade x + 3 - 52 = (binade x - 52) + 3 by ring, zpow_add₀ (two_ne_zero), ← h8]
    ring
  have hup := ulpAt_pos x
  rw [roundDouble_of_ne (by positivity : (8 : ℚ) * x ≠ 0), roundDouble_of_ne (ne_of_gt hpos), hu]
  have hq : 8 * x / (8 * ulpAt x) = x / ulpAt x := by
    field_simp
    ring
  rw [hq]
  ring

theorem roundDouble_consts :
    roundDouble 8 = 8 ∧ roundDouble (8 - 1 / 2 ^ 50) = 8 - 1 / 2 ^ 50 ∧
    roundDouble (2 ^ 32 + 1) = 2 ^ 32 + 1 ∧ roundDouble (14 / 100) ≤ 1 ∧
    0 ≤ roundDouble (14 / 100) ∧ roundDouble (3 / 2) = 3 / 2 ∧
    2 / 5 ≤ roundDouble (3 / 7) := by
  decide!

/-! ## The beat period and the anchors in binary64 -/

theorem beatDurSecF_bounds (e : Engine) :
    roundDouble (3 / 7) ≤ roundDouble (60 / bpmValue e) ∧
    roundDouble (60 / bpmValue e) ≤ 3 / 2 ∧
    2 / 5 ≤ roundDouble (60 / bpmValue e) ∧
    |roundDouble (60 / bpmValue e) - 60 / bpmValue e| ≤ 1 / 2 ^ 52 := by
  obtain ⟨h1, h2⟩ := beatDurSec_bounds e
  unfold beatDurSec at h1 h2
  obtain ⟨-, -, -, -, -, c6, c7⟩ := roundDouble_consts
  have m1 : roundDouble (3 / 7) ≤ roundDouble (60 / bpmValue e) :=
    roundDouble_mono (by norm_num) h1
  have m2 : roundDouble (60 / bpmValue e) ≤ roundDouble (3 / 2) :=
    roundDouble_mono (by linarith) h2
  refine ⟨m1, by rw [← c6]; exact m2, le_trans c7 m1, ?_⟩
  refine le_trans (roundDouble_err_rel (by linarith)) ?_
  rw [div_le_iff₀ (by positivity)]
  norm_num
  linarith

/-- While the anchors stay below a horizon in the range of an audio clock,
they are non-negative and within `n * 2^(-21)` of the exact sums. -/
theorem anchorF_drift (bd a horizon : ℚ) (hbd0 : 0 ≤ bd) (hbd : bd ≤ 3 / 2) (ha : 0 ≤ a)
    (hh : horizon ≤ 2 ^ 32 + 1) (n : Nat)
    (hbelow : ∀ m : Nat, m < n → anchorF roundDouble bd a m < horizon) :
    0 ≤ anchorF roundDouble bd a n ∧
    |anchorF roundDouble bd a n - (a + n * bd)| ≤ n / 2 ^ 21 := by
  induction n with
  | zero => simp [anchorF, ha]
  | succ n ih =>
    obtain ⟨i1, i2⟩ := ih (fun m hm => hbelow m (by omega))
    have hlt := hbelow n (by omega)
    have hx0 : 0 ≤ anchorF roundDouble bd a n + bd := by linarith
    have hx1 : anchorF roundDouble bd a n + bd < (2 : ℚ) ^ (33 : ℤ) := by
      have : (2 : ℚ) ^ (33 : ℤ) = 2 ^ 33 := by norm_num
      rw [this]
      norm_num at hh ⊢
      linarith
    have herr := roundDouble_err_abs 33 (by norm_num) hx0 hx1
    have h21 : (2 : ℚ) ^ ((33 : ℤ) - 54) = 1 / 2 ^ 21 := by norm_num
    rw [h21] at herr
    have hstep : anchorF roundDouble bd a (n + 1) =
        roundDouble (anchorF roundDouble bd a n + bd) := rfl
    rw [hstep]
    refine ⟨roundDouble_nonneg hx0, ?_⟩
    have e1 : roundDouble (anchorF roundDouble bd a n + bd) - (a + ((n + 1 : ℕ) : ℚ) * bd) =
        (roundDouble (anchorF roundDouble bd a n + bd) - (anchorF roundDouble bd a n + bd)) +
          (anchorF roundDouble bd a n - (a + n * bd)) := by
      push_cast
      ring
    rw [e1]
    refine le_trans (abs_add _ _) ?_
    have e2 : (((n + 1 : ℕ) : ℚ)) / 2 ^ 21 = 1 / 2 ^ 21 + n / 2 ^ 21 := by
      push_cast
      ring
    rw [e2]
    exact add_le_add herr i2

theorem scheduleFuelF_enough (bd horizon next : ℚ) :
    (horizon - next) / bd * 2 ≤ (scheduleFuelF bd horizon next : ℚ) := by
  unfold scheduleFuelF
  have h1 : (horizon - next) / bd * 2 ≤ (⌈(horizon - next) / bd * 2⌉ : ℚ) := Int.le_ceil _
  have h2 : (⌈(horizon - next) / bd * 2⌉ : ℤ) ≤ ((⌈(horizon - next) / bd * 2⌉).toNat : ℤ) :=
    Int.self_le_toNat _
  have h3 : ((⌈(horizon - next) / bd * 2⌉ : ℤ) : ℚ) ≤
      (((⌈(horizon - next) / bd * 2⌉).toNat : ℤ) : ℚ) := Int.cast_le.2 h2
  calc (horizon - next) / bd * 2 ≤ (⌈(horizon - next) / bd * 2⌉ : ℚ) := h1
    _ ≤ (((⌈(horizon - next) / bd * 2⌉).toNat : ℤ) : ℚ) := h3
    _ = ((⌈(horizon - next) / bd * 2⌉).toNat : ℚ) := by norm_cast

theorem horizonF_bounds (now : ℚ) (h0 : 0 ≤ now) (h1 : now ≤ 2 ^ 32) :
    roundDouble (now + roundDouble (14 / 100)) ≤ 2 ^ 32 + 1 := by
  obtain ⟨-, -, c3, c4, c5, -⟩ := roundDouble_consts
  rw [← c3]
  exact roundDouble_mono (by linarith) (by linarith)

/-- The rounded scheduling loop of a tick, for a clock value in the range of an
audio clock: it ends because its condition is false, with the anchors it has
passed below the horizon, increasing, and within `k * 2^(-20)` of the sums
`a + k * 60 / BPM`. -/
theorem scheduleDueF_exact (e : Engine) (now : ℚ) (ha : 0 ≤ e.nextBeatTimeSec)
    (h0 : 0 ≤ now) (h1 : now ≤ 2 ^ 32) :
    ∃ n : Nat,
      scheduledByF roundDouble e now =
        beatsFromF roundDouble (selectedRhythm e) (roundDouble (60 / bpmValue e))
          e.globalBeatIndex e.nextBeatTimeSec n ∧
      scheduleDueF roundDouble e now =
        { e with
          beatTimeline := e.beatTimeline ++
            beatsFromF roundDouble (selectedRhythm e) (roundDouble (60 / bpmValue e))
              e.globalBeatIndex e.nextBeatTimeSec n,
          globalBeatIndex := e.globalBeatIndex + n,
          nextBeatTimeSec :=
            anchorF roundDouble (roundDouble (60 / bpmValue e)) e.nextBeatTimeSec n } ∧
      roundDouble (now + roundDouble (14 / 100)) ≤
        anchorF roundDouble (roundDouble (60 / bpmValue e)) e.nextBeatTimeSec n ∧
      (∀ m : Nat, m < n →
        anchorF roundDouble (roundDouble (60 / bpmValue e)) e.nextBeatTimeSec m <
          roundDouble (now + roundDouble (14 / 100))) ∧
      (∀ k : Nat, k < n →
        anchorF roundDouble (roundDouble (60 / bpmValue e)) e.nextBeatTimeSec k <
          anchorF roundDouble (roundDouble (60 / bpmValue e)) e.nextBeatTimeSec (k + 1)) ∧
      (∀ k : Nat, k ≤ n →
        |anchorF roundDouble (roundDouble (60 / bpmValue e)) e.nextBeatTimeSec k -
          (e.nextBeatTimeSec + k * (60 / bpmValue e))| ≤ k / 2 ^ 20) := by
  obtain ⟨n, hsched, hdue, hm, hex, hle⟩ := scheduleDueF_frame roundDouble e now
  have hdef : beatDurSecF roundDouble e = roundDouble (60 / bpmValue e) := rfl
  rw [hdef] at hsched hdue hm hex hle
  obtain ⟨-, b2, b3, b4⟩ := beatDurSecF_bounds e
  have hH := horizonF_bounds now h0 h1
  have hdrift : ∀ k : Nat, k ≤ n →
      0 ≤ anchorF roundDouble (roundDouble (60 / bpmValue e)) e.nextBeatTimeSec k ∧
      |anchorF roundDouble (roundDouble (60 / bpmValue e)) e.nextBeatTimeSec k -
        (e.nextBeatTimeSec + k * roundDouble (60 / bpmValue e))| ≤ k / 2 ^ 21 := by
    intro k hk
    exact anchorF_drift _ _ _ (by linarith) b2 ha hH k (fun m hmk => hm m (by omega))
  refine ⟨n, hsched, hdue, ?_, hm, ?_, ?_⟩
  · by_cases hlt : n < scheduleFuelF (roundDouble (60 / bpmValue e))
        (roundDouble (now + roundDouble (14 / 100))) e.nextBeatTimeSec
    · exact hex hlt
    · have hn : n = scheduleFuelF (roundDouble (60 / bpmValue e))
          (roundDouble (now + roundDouble (14 / 100))) e.nextBeatTimeSec := by omega
      have hfuel := scheduleFuelF_enough (roundDouble (60 / bpmValue e))
        (roundDouble (now + roundDouble (14 / 100))) e.nextBeatTimeSec
      rw [← hn] at hfuel
      obtain ⟨-, d2⟩ := hdrift n (le_refl _)
      have hbdpos : (0 : ℚ) < roundDouble (60 / bpmValue e) := by linarith
      have hf2 : (roundDouble (now + roundDouble (14 / 100)) - e.nextBeatTimeSec) * 2 ≤
          n * roundDouble (60 / bpmValue e) := by
        have hmul := mul_le_mul_of_nonneg_right hfuel (le_of_lt hbdpos)
        have e3 : (roundDouble (now + roundDouble (14 / 100)) - e.nextBeatTimeSec) /
              roundDouble (60 / bpmValue e) * 2 * roundDouble (60 / bpmValue e) =
            (roundDouble (now + roundDouble (14 / 100)) - e.nextBeatTimeSec) * 2 := by
          field_simp
        rw [e3] at hmul
        exact hmul
      have d3 := (abs_le.1 d2).1
      have hsmall : (n : ℚ) / 2 ^ 21 ≤ n * roundDouble (60 / bpmValue e) / 2 := by
        have hn0 : (0 : ℚ) ≤ n := by positivity
        have : (1 : ℚ) / 2 ^ 21 ≤ roundDouble (60 / bpmValue e) / 2 := by
          norm_num
          linarith
        calc (n : ℚ) / 2 ^ 21 = n * (1 / 2 ^ 21) := by ring
          _ ≤ n * (roundDouble (60 / bpmValue e) / 2) := mul_le_mul_of_nonneg_left this hn0
          _ = n * roundDouble (60 / bpmValue e) / 2 := by ring
      linarith
  · intro k hk
    obtain ⟨-, dk⟩ := hdrift k (by omega)
    have hlt := hm k hk
    have hx0 : 0 ≤ anchorF roundDouble (roundDouble (60 / bpmValue e)) e.nextBeatTimeSec k +
        roundDouble (60 / bpmValue e) := by
      have := (hdrift k (by omega)).1
      linarith
    have hx1 : anchorF roundDouble (roundDouble (60 / bpmValue e)) e.nextBeatTimeSec k +
        roundDouble (60 / bpmValue e) < (2 : ℚ) ^ (33 : ℤ) := by
      have : (2 : ℚ) ^ (33 : ℤ) = 2 ^ 33 := by norm_num
      rw [this]
      norm_num at hH ⊢
      linarith
    have herr := roundDouble_err_abs 33 (by norm_num) hx0 hx1
    have h21 : (2 : ℚ) ^ ((33 : ℤ) - 54) = 1 / 2 ^ 21 := by norm_num
    rw [h21] at herr
    have hstep : anchorF roundDouble (roundDouble (60 / bpmValue e)) e.nextBeatTimeSec (k + 1) =
        roundDouble (anchorF roundDouble (roundDouble (60 / bpmValue e)) e.nextBeatTimeSec k +
          roundDouble (60 / bpmValue e)) := rfl
    rw [hstep]
    have := (abs_le.1 herr).1
    have h21' : (1 : ℚ) / 2 ^ 21 < 2 / 5 := by norm_num
    linarith
  · intro k hk
    obtain ⟨-, dk⟩ := hdrift k hk
    have e1 : anchorF roundDouble (roundDouble (60 / bpmValue e)) e.nextBeatTimeSec k -
          (e.nextBeatTimeSec + k * (60 / bpmValue e)) =
        (anchorF roundDouble (roundDouble (60 / bpmValue e)) e.nextBeatTimeSec k -
          (e.nextBeatTimeSec + k * roundDouble (60 / bpmValue e))) +
        k * (roundDouble (60 / bpmValue e) - 60 / bpmValue e) := by ring
    rw [e1]
    refine le_trans (abs_add _ _) ?_
    have hk0 : (0 : ℚ) ≤ k := by positivity
    have h2 : |(k : ℚ) * (roundDouble (60 / bpmValue e) - 60 / bpmValue e)| ≤ k * (1 / 2 ^ 52) := by
      rw [abs_mul, abs_of_nonneg hk0]
      exact mul_le_mul_of_nonneg_left b4 hk0
    have h3 : (k : ℚ) / 2 ^ 21 + k * (1 / 2 ^ 52) ≤ k / 2 ^ 20 := by
      have : (k : ℚ) / 2 ^ 20 - (k / 2 ^ 21 + k * (1 / 2 ^ 52)) =
          k * (1 / 2 ^ 20 - 1 / 2 ^ 21 - 1 / 2 ^ 52) := by ring
      have hpos : (0 : ℚ) ≤ 1 / 2 ^ 20 - 1 / 2 ^ 21 - 1 / 2 ^ 52 := by norm_num
      nlinarith [mul_nonneg hk0 hpos]
    linarith

theorem scheduleDueF_any_fuel (e : Engine) (now : ℚ) (ha : 0 ≤ e.nextBeatTimeSec)
    (h0 : 0 ≤ now) (h1 : now ≤ 2 ^ 32) (k : Nat) :
    scheduleLoopF roundDouble (roundDouble (60 / bpmValue e)) (selectedRhythm e)
        (roundDouble (now + roundDouble (14 / 100)))
        (scheduleFuelF (roundDouble (60 / bpmValue e))
          (roundDouble (now + roundDouble (14 / 100))) e.nextBeatTimeSec + k) e =
      scheduleDueF roundDouble e now := by
  obtain ⟨n, -, hdue, hex, -⟩ := scheduleDueF_exact e now ha h0 h1
  refine scheduleLoopF_more_fuel _ _ _ _ _ k e ?_
  have hd : scheduleLoopF roundDouble (roundDouble (60 / bpmValue e)) (selectedRhythm e)
      (roundDouble (now + roundDouble (14 / 100)))
      (scheduleFuelF (roundDouble (60 / bpmValue e))
        (roundDouble (now + roundDouble (14 / 100))) e.nextBeatTimeSec) e =
      scheduleDueF roundDouble e now := rfl
  rw [hd, hdue]
  exact not_lt.2 hex

/-! ## The scheduling loop as the script runs it -/

/-- C18, as the code has it. The script adds and compares binary64 values:
the period is the rounded quotient `bd = 60 / BPM` (between the binary64 values
of 3/7 and 3/2), the horizon is the rounded sum `now + 0.14`, and
`nextBeatTimeSec += bd` rounds the sum at every iteration. In a started,
unpaused state with anchor `a ≥ 0` and counter `g`, at a clock value `now`
between 0 and `2^32` s, the scheduling loop of a tick terminates and appends
exactly the beats with index `g + k`, time `a_k` and expected instrument
`pattern[(g + k) mod 4]` for `k < n`, in that order, where `a_0 = a`,
`a_(k+1)` is the rounded sum `a_k + bd`, and `n` is the least natural number
with `a_n` at or beyond the horizon; afterwards the anchor is `a_n` and the
counter is `g + n`. The times increase with `k` and `a_k` is within
`k * 2^(-20)` s of `a + k * 60 / BPM`. Position 0 of the bar is where the index
is 0 modulo 4, and in every reachable state the beat indices of the timeline
strictly increase. -/
theorem scheduling_loop_appends_due_beats (e : Engine) (now : ℚ) (hs : e.started = true)
    (hp : e.paused = false) (ha : 0 ≤ e.nextBeatTimeSec) (h0 : 0 ≤ now) (h1 : now ≤ 2 ^ 32) :
    (∃ n : Nat,
      scheduledByF roundDouble e now =
        (List.range n).map (fun (k : Nat) =>
          ({ idx := e.globalBeatIndex + (k : Int),
             tSec := anchorF roundDouble (roundDouble (60 / bpmValue e)) e.nextBeatTimeSec k,
             expected :=
               ((RHYTHMS e.rhythmSel)[((e.globalBeatIndex + (k : Int)) % 4).toNat]?).join } :
            Beat)) ∧
      (scheduleDueF roundDouble e now).beatTimeline =
        e.beatTimeline ++ scheduledByF roundDouble e now ∧
      roundDouble (now + roundDouble (14 / 100)) ≤
        anchorF roundDouble (roundDouble (60 / bpmValue e)) e.nextBeatTimeSec n ∧
      (∀ m : Nat, m < n →
        anchorF roundDouble (roundDouble (60 / bpmValue e)) e.nextBeatTimeSec m <
          roundDouble (now + roundDouble (14 / 100))) ∧
      (scheduleTickF roundDouble e now).nextBeatTimeSec =
        anchorF roundDouble (roundDouble (60 / bpmValue e)) e.nextBeatTimeSec n ∧
      (scheduleTickF roundDouble e now).globalBeatIndex = e.globalBeatIndex + n ∧
      (∀ k : Nat, k < n →
        anchorF roundDouble (roundDouble (60 / bpmValue e)) e.nextBeatTimeSec k <
          anchorF roundDouble (roundDouble (60 / bpmValue e)) e.nextBeatTimeSec (k + 1)) ∧
      (∀ k : Nat, k ≤ n →
        |anchorF roundDouble (roundDouble (60 / bpmValue e)) e.nextBeatTimeSec k -
          (e.nextBeatTimeSec + k * (60 / bpmValue e))| ≤ k / 2 ^ 20)) ∧
    (∀ k : Nat,
      scheduleLoopF roundDouble (roundDouble (60 / bpmValue e)) (selectedRhythm e)
          (roundDouble (now + roundDouble (14 / 100)))
          (scheduleFuelF (roundDouble (60 / bpmValue e))
            (roundDouble (now + roundDouble (14 / 100))) e.nextBeatTimeSec + k) e =
        scheduleDueF roundDouble e now) ∧
    (roundDouble (3 / 7) ≤ roundDouble (60 / bpmValue e) ∧
      roundDouble (60 / bpmValue e) ≤ 3 / 2) ∧
    (∀ i : Int, inBarIdx i = 0 ↔ i % 4 = 0) ∧
    (∀ evs : List Event,
      (runF roundDouble Engine.init evs).beatTimeline.Pairwise (fun a b => a.idx < b.idx)) := by
  refine ⟨?_, scheduleDueF_any_fuel e now ha h0 h1,
    ⟨(beatDurSecF_bounds e).1, (beatDurSecF_bounds e).2.1⟩, ?_, ?_⟩
  · obtain ⟨n, hsched, hdue, hexit, hlt, hinc, hdrift⟩ := scheduleDueF_exact e now ha h0 h1
    obtain ⟨a1, a2⟩ := scheduleTickF_anchor roundDouble e now hs hp
    refine ⟨n, ?_, ?_, hexit, hlt, ?_, ?_, hinc, hdrift⟩
    · rw [hsched]
      unfold beatsFromF
      apply List.map_congr_left
      intro k _
      rw [expectedAt_eq]
      rfl
    · rw [hsched, hdue]
    · rw [a2, hdue]
    · rw [a1, hdue]
  · intro i
    rw [inBarIdx_eq]
    omega
  · intro evs
    exact (runF_indices roundDouble evs Engine.init init_indices).1

/-- C18 as stated fails. A session at BPM 90 is begun at clock value 0 (anchor
0.1) and ticks at 1.96. As stated, the loop would append the 3 beats at `a`,
`a + 2/3` and `a + 4/3`, since `a + 3 * 60/90 ≥ now + 0.14`. The script appends
4 beats, at 0.1, 0.7666666666666666, 1.4333333333333331 and
2.0999999999999996: the third sum is below the horizon 2.1 in binary64. The
third beat is not at `a + 2 * 60/90` and the anchor afterwards,
2.766666666666666, is not `a + 4 * 60/90`. -/
theorem rounded_sums_schedule_a_fourth_beat :
    (beginGameF roundDouble Engine.init 0).started = true ∧
    (beginGameF roundDouble Engine.init 0).paused = false ∧
    bpmValue (beginGameF roundDouble Engine.init 0) = 90 ∧
    (beginGameF roundDouble Engine.init 0).nextBeatTimeSec = roundDouble (1 / 10) ∧
    roundDouble (196 / 100) + 14 / 100 ≤ roundDouble (1 / 10) + 3 * (60 / 90) ∧
    roundDouble (1 / 10) + 2 * (60 / 90) < roundDouble (196 / 100) + 14 / 100 ∧
    (scheduledByF roundDouble (beginGameF roundDouble Engine.init 0)
      (roundDouble (196 / 100))).map (fun b => b.tSec) =
      [3602879701896397 / 2 ^ 55, 863189928579345 / 2 ^ 50, 3227579732948855 / 2 ^ 51,
       1182194902184755 / 2 ^ 49] ∧
    roundDouble (roundDouble (196 / 100) + roundDouble (14 / 100)) =
      4728779608739021 / 2 ^ 51 ∧
    (3227579732948855 : ℚ) / 2 ^ 51 ≠ roundDouble (1 / 10) + 2 * (60 / 90) ∧
    (scheduleDueF roundDouble (beginGameF roundDouble Engine.init 0)
      (roundDouble (196 / 100))).nextBeatTimeSec = 6229979484529185 / 2 ^ 51 ∧
    (6229979484529185 : ℚ) / 2 ^ 51 ≠ roundDouble (1 / 10) + 4 * (60 / 90) := by
  decide!

/-- Why the clock range matters: at an anchor of `2^60` s the rounded sum of the
anchor and the period of BPM 90 is the anchor again, so the loop would not
advance. -/
theorem rounded_sum_can_stall : roundDouble (2 ^ 60 + roundDouble (60 / 90)) = 2 ^ 60 := by
  decide!

/-- A worked instance: the first tick of a session at BPM 90, fired one second
after `beginGame`; two beats are appended, at 0.1 and 0.7666666666666666. -/
theorem scheduling_loop_appends_due_beats_witness :
    (scheduleTickF roundDouble (beginGameF roundDouble Engine.init 0) 1).globalBeatIndex = 2 ∧
    (scheduledByF roundDouble (beginGameF roundDouble Engine.init 0) 1).map (fun b => b.tSec) =
      [3602879701896397 / 2 ^ 55, 863189928579345 / 2 ^ 50] ∧
    (∀ k : Nat,
      scheduleLoopF roundDouble (roundDouble (60 / bpmValue (beginGameF roundDouble Engine.init 0)))
          (selectedRhythm (beginGameF roundDouble Engine.init 0))
          (roundDouble (1 + roundDouble (14 / 100)))
          (scheduleFuelF (roundDouble (60 / bpmValue (beginGameF roundDouble Engine.init 0)))
            (roundDouble (1 + roundDouble (14 / 100)))
            (beginGameF roundDouble Engine.init 0).nextBeatTimeSec + k)
          (beginGameF roundDouble Engine.init 0) =
        scheduleDueF roundDouble (beginGameF roundDouble Engine.init 0) 1) :=
  ⟨by decide!, by decide!,
    (scheduling_loop_appends_due_beats (beginGameF roundDouble Engine.init 0) 1 rfl rfl
      (by decide!) (by norm_num) (by norm_num)).2.1⟩

/-! ## The tracking gate as the script runs it -/

/-- Eight exact periods or more since the last hit: the rounded quotient is at
least 8. -/
theorem gate_quotient_ge (c x : ℚ) (hc : 3 / 7 ≤ c) (hx : 8 * c ≤ x) :
    8 ≤ roundDouble (roundDouble x / roundDouble c) := by
  obtain ⟨c1, -, -, -, -, -, c7⟩ := roundDouble_consts
  have hD : 2 / 5 ≤ roundDouble c := le_trans c7 (roundDouble_mono (by norm_num) hc)
  have h8 : roundDouble (8 * c) = 8 * roundDouble c := roundDouble_mul_eight (by linarith)
  have hd : 8 * roundDouble c ≤ roundDouble x := by
    rw [← h8]
    exact roundDouble_mono (by linarith) hx
  have hq : 8 ≤ roundDouble x / roundDouble c := by
    rw [le_div_iff₀ (by linarith)]
    exact hd
  have := roundDouble_mono (by norm_num : (0 : ℚ) ≤ 8) hq
  rwa [c1] at this

/-- Less than eight exact periods since the last hit, by a margin of `2^(-48)`
periods: the rounded quotient is below 8. -/
theorem gate_quotient_lt (c x : ℚ) (hc : 3 / 7 ≤ c) (h0 : 0 ≤ x)
    (hx : x ≤ (8 - 1 / 2 ^ 48) * c) :
    roundDouble (roundDouble x / roundDouble c) < 8 := by
  obtain ⟨-, c2, -, -, -, -, c7⟩ := roundDouble_consts
  have hD : 2 / 5 ≤ roundDouble c := le_trans c7 (roundDouble_mono (by norm_num) hc)
  have hX : (1 : ℚ) / 1024 ≤ (8 - 1 / 2 ^ 48) * c := by
    have : (7 : ℚ) ≤ 8 - 1 / 2 ^ 48 := by norm_num
    nlinarith
  have e1 := (abs_le.1 (roundDouble_err_rel hX)).2
  have e2 := (abs_le.1 (roundDouble_err_rel (by linarith : (1 : ℚ) / 1024 ≤ c))).1
  have hd : roundDouble x ≤ roundDouble ((8 - 1 / 2 ^ 48) * c) := roundDouble_mono h0 hx
  have hnum : ((8 : ℚ) - 1 / 2 ^ 48) * (1 + 1 / 2 ^ 53) ≤ (8 - 1 / 2 ^ 50) * (1 - 1 / 2 ^ 53) := by
    norm_num
  have hc0 : (0 : ℚ) ≤ c := by linarith
  have hmul := mul_le_mul_of_nonneg_right hnum hc0
  have hle : roundDouble x ≤ (8 - 1 / 2 ^ 50) * roundDouble c := by
    have s1 : roundDouble ((8 - 1 / 2 ^ 48) * c) ≤ (8 - 1 / 2 ^ 48) * (1 + 1 / 2 ^ 53) * c := by
      have : (8 - 1 / 2 ^ 48) * (1 + 1 / 2 ^ 53) * c =
          (8 - 1 / 2 ^ 48) * c + (8 - 1 / 2 ^ 48) * c / 2 ^ 53 := by ring
      rw [this]
      linarith
    have s2 : (8 - 1 / 2 ^ 50) * (1 - 1 / 2 ^ 53) * c ≤ (8 - 1 / 2 ^ 50) * roundDouble c := by
      have h50 : (0 : ℚ) ≤ 8 - 1 / 2 ^ 50 := by norm_num
      have : (1 - 1 / 2 ^ 53) * c ≤ roundDouble c := by
        have : (1 - 1 / 2 ^ 53) * c = c - c / 2 ^ 53 := by ring
        rw [this]
        linarith
      calc (8 - 1 / 2 ^ 50) * (1 - 1 / 2 ^ 53) * c
          = (8 - 1 / 2 ^ 50) * ((1 - 1 / 2 ^ 53) * c) := by ring
        _ ≤ (8 - 1 / 2 ^ 50) * roundDouble c := mul_le_mul_of_nonneg_left this h50
    linarith
  have hq : roundDouble x / roundDouble c ≤ 8 - 1 / 2 ^ 50 := by
    rw [div_le_iff₀ (by linarith)]
    exact hle
  have hq0 : 0 ≤ roundDouble x / roundDouble c :=
    div_nonneg (roundDouble_nonneg h0) (by linarith)
  have := roundDouble_mono hq0 hq
  rw [c2] at this
  have : (8 : ℚ) - 1 / 2 ^ 50 < 8 := by norm_num
  linarith

/-- C9, as the code has it. After every tick that runs, the tracking gate is
active if and only if a hit has been registered since `beginGame` and the
quotient `(now - lastHitTime) / (60 / BPM)`, computed in binary64 with the
difference, the period and the quotient each rounded, is below 8. So the gate
is inactive at every tick with `now - lastHitTime ≥ 8 * 60 / BPM` and active at
every tick with `0 ≤ now - lastHitTime ≤ (8 - 2^(-48)) * 60 / BPM`; in between
the rounding decides. At BPM 90 the gate is inactive 16/3 s or more after the
last hit and active up to `16/3 - 2^(-48)` s after it. -/
theorem gate_active_iff_recent_hit (e0 : Engine) (t0 : ℚ) (evs : List Event) (now : ℚ)
    (hevs : ∀ ev ∈ evs, ev.keepsSession = true)
    (hp : (runF roundDouble (beginGameF roundDouble e0 t0) evs).paused = false) :
    ((scheduleTickF roundDouble (runF roundDouble (beginGameF roundDouble e0 t0) evs)
        now).trackingActive = true ↔
      ∃ t, lastRegisteredHitF roundDouble (beginGameF roundDouble e0 t0) evs = some t ∧
        roundDouble (roundDouble (now - t) /
          roundDouble (60 / bpmValue (runF roundDouble (beginGameF roundDouble e0 t0) evs)))
          < 8) ∧
    (∀ t, lastRegisteredHitF roundDouble (beginGameF roundDouble e0 t0) evs = some t →
      (8 * (60 / bpmValue (runF roundDouble (beginGameF roundDouble e0 t0) evs)) ≤ now - t →
        (scheduleTickF roundDouble (runF roundDouble (beginGameF roundDouble e0 t0) evs)
          now).trackingActive = false) ∧
      (0 ≤ now - t →
        now - t ≤ (8 - 1 / 2 ^ 48) *
          (60 / bpmValue (runF roundDouble (beginGameF roundDouble e0 t0) evs)) →
        (scheduleTickF roundDouble (runF roundDouble (beginGameF roundDouble e0 t0) evs)
          now).trackingActive = true)) ∧
    (bpmValue (runF roundDouble (beginGameF roundDouble e0 t0) evs) = 90 →
      ∀ t, lastRegisteredHitF roundDouble (beginGameF roundDouble e0 t0) evs = some t →
        (16 / 3 ≤ now - t →
          (scheduleTickF roundDouble (runF roundDouble (beginGameF roundDouble e0 t0) evs)
            now).trackingActive = false) ∧
        (0 ≤ now - t → now - t ≤ 16 / 3 - 1 / 2 ^ 48 →
          (scheduleTickF roundDouble (runF roundDouble (beginGameF roundDouble e0 t0) evs)
            now).trackingActive = true)) := by
  obtain ⟨hst, hlast, hever⟩ := runF_input roundDouble evs (beginGameF roundDouble e0 t0) hevs
  have hs : (runF roundDouble (beginGameF roundDouble e0 t0) evs).started = true := hst
  have hl : (runF roundDouble (beginGameF roundDouble e0 t0) evs).lastInputTimeSec =
      lastRegisteredHitF roundDouble (beginGameF roundDouble e0 t0) evs := by
    rw [hlast]
    cases lastRegisteredHitF roundDouble (beginGameF roundDouble e0 t0) evs <;> rfl
  have hh : (runF roundDouble (beginGameF roundDouble e0 t0) evs).hasEverHit =
      (lastRegisteredHitF roundDouble (beginGameF roundDouble e0 t0) evs).isSome := by
    rw [hever]
    simp [beginGameF]
  have key : (scheduleTickF roundDouble (runF roundDouble (beginGameF roundDouble e0 t0) evs)
        now).trackingActive = true ↔
      ∃ t, lastRegisteredHitF roundDouble (beginGameF roundDouble e0 t0) evs = some t ∧
        roundDouble (roundDouble (now - t) /
          roundDouble (60 / bpmValue (runF roundDouble (beginGameF roundDouble e0 t0) evs)))
          < 8 := by
    rw [scheduleTickF_trackingActive roundDouble _ now hs hp, isTrackingActiveF_iff, hl, hh]
    constructor
    · rintro ⟨-, t, ht, hlt⟩
      exact ⟨t, ht, hlt⟩
    · rintro ⟨t, ht, hlt⟩
      exact ⟨by simp [ht], t, ht, hlt⟩
  have hc := (beatDurSec_bounds (runF roundDouble (beginGameF roundDouble e0 t0) evs)).1
  unfold beatDurSec at hc
  have hgen : ∀ t, lastRegisteredHitF roundDouble (beginGameF roundDouble e0 t0) evs = some t →
      (8 * (60 / bpmValue (runF roundDouble (beginGameF roundDouble e0 t0) evs)) ≤ now - t →
        (scheduleTickF roundDouble (runF roundDouble (beginGameF roundDouble e0 t0) evs)
          now).trackingActive = false) ∧
      (0 ≤ now - t →
        now - t ≤ (8 - 1 / 2 ^ 48) *
          (60 / bpmValue (runF roundDouble (beginGameF roundDouble e0 t0) evs)) →
        (scheduleTickF roundDouble (runF roundDouble (beginGameF roundDouble e0 t0) evs)
          now).trackingActive = true) := by
    intro t ht
    constructor
    · intro hge
      cases hta : (scheduleTickF roundDouble
          (runF roundDouble (beginGameF roundDouble e0 t0) evs) now).trackingActive with
      | false => rfl
      | true =>
        obtain ⟨t', ht', hlt⟩ := key.1 hta
        rw [ht] at ht'
        obtain rfl : t = t' := Option.some.inj ht'
        have := gate_quotient_ge _ _ hc hge
        linarith
    · intro h0 hle
      exact key.2 ⟨t, ht, gate_quotient_lt _ _ hc h0 hle⟩
  refine ⟨key, hgen, ?_⟩
  intro h90 t ht
  obtain ⟨g1, g2⟩ := hgen t ht
  rw [h90] at g1 g2
  constructor
  · intro hge
    exact g1 (by norm_num; linarith)
  · intro h0 hle
    refine g2 h0 ?_
    have : (16 : ℚ) / 3 - 1 / 2 ^ 48 ≤ (8 - 1 / 2 ^ 48) * (60 / 90) := by norm_num
    linarith

/-- C9 as stated fails. A session at BPM 90 is begun at clock value 0 and hit
at 1; a tick runs at 6.333333333333333, the binary64 value nearest to 19/3
(2000 render quanta of 128 frames at 48 kHz after the hit). The clock is
5.333333333333333 past the hit, less than 8 * 60/90 = 16/3, yet the quotient
of the two binary64 values 5.333333333333333 and 0.6666666666666666 is exactly
8 and the gate is inactive. -/
theorem gate_inactive_below_eight_periods :
    (runF roundDouble (beginGameF roundDouble Engine.init 0) [.hit 1 .K]).started = true ∧
    (runF roundDouble (beginGameF roundDouble Engine.init 0) [.hit 1 .K]).paused = false ∧
    bpmValue (runF roundDouble (beginGameF roundDouble Engine.init 0) [.hit 1 .K]) = 90 ∧
    lastRegisteredHitF roundDouble (beginGameF roundDouble Engine.init 0) [.hit 1 .K] =
      some 1 ∧
    roundDouble (19 / 3) = 7130699410003285 / 2 ^ 50 ∧
    0 ≤ roundDouble (19 / 3) - 1 ∧
    roundDouble (19 / 3) - 1 < 8 * (60 / 90) ∧
    roundDouble (roundDouble (roundDouble (19 / 3) - 1) / roundDouble (60 / 90)) = 8 ∧
    (scheduleTickF roundDouble
      (runF roundDouble (beginGameF roundDouble Engine.init 0) [.hit 1 .K])
      (roundDouble (19 / 3))).trackingActive = false := by
  decide!

/-- A worked instance: a session at BPM 90 with one hit at 1 s and a tick at
2 s; the gate is active. -/
theorem gate_active_iff_recent_hit_witness :
    (scheduleTickF roundDouble
      (runF roundDouble (beginGameF roundDouble Engine.init 0) [.hit 1 .K]) 2).trackingActive =
      true ∧
    ((scheduleTickF roundDouble (runF roundDouble (beginGameF roundDouble Engine.init 0)
        [.hit 1 .K]) 2).trackingActive = true ↔
      ∃ t, lastRegisteredHitF roundDouble (beginGameF roundDouble Engine.init 0) [.hit 1 .K] =
          some t ∧
        roundDouble (roundDouble (2 - t) /
          roundDouble (60 / bpmValue (runF roundDouble (beginGameF roundDouble Engine.init 0)
            [.hit 1 .K]))) < 8) :=
  ⟨by decide!,
    (gate_active_iff_recent_hit Engine.init 0 [.hit 1 .K] 2 (by decide!) (by decide!)).1⟩

end KeepTheBeat
